import Mathlib

/-!
Verification development for `earthlike.c`.

A shallow embedding of the procedural planet generator `src/earthlike.c`
(space-nerds-in-space) and proofs about it.

Conventions of the embedding.

* `float`/`double` values are elements of an arbitrary linearly ordered field
  `F` with a floor function (`ℚ` for evaluation, `ℝ` for the exact-real
  statements).  In the painter `paint_height_maps`, in the texel origin and
  scale of `add_bump` and in the sample coordinates of `distort_vertex`, whose
  results are truncated to bytes and indices, every binary32 operation is
  rounded by `fl32` and every binary64 operation by `fl64` (round to nearest,
  ties to even, gradual underflow, each operation rounded on its own); results
  beyond the largest finite value are excluded by the hypotheses of the
  statements.  Elsewhere the arithmetic is exact: the statements about the bump
  recursion, the distortion and the height extrema are statements over exact
  numbers.
* Division is the total division of the field (`x / 0 = 0`); this matters only
  where the C program would divide by zero (normalising a zero vector, a bump
  of radius 0).
* C `int` values are `Int` or `Nat`.  The byte offset into the sample, the one
  `int` expression that can leave the range of `int` for a sample that fits in
  memory, is reduced by `wrap_int32`.
* Global variables are explicit arguments and results.  `printf` output is
  not part of the state.
* The functions of libm (`sqrt`, `cos`, the constant `M_PI`) are supplied
  through `Libm`, those of `quat.h`/`mathutils.h` whose bodies are not part of
  this source file through `SnisLib`.
-/

set_option linter.unusedSectionVars false
set_option linter.unusedVariables false

namespace Earthlike

/-! ## Constants -/

/-- The constant `MAXBUMPS` (`#define MAXBUMPS 100000`), the capacity of the bump
list. -/
def MAXBUMPS : Nat := 100000

/-- The constant `DIM` (`#define DIM 1024`), the grid resolution of a face. -/
def DIM : Nat := 1024

section Model

variable {F : Type} [LinearOrderedField F] [FloorRing F]

/-! ## Floating-point rounding and machine integers -/

/-- Rounding of a number to the nearest integer, a tie going to the even
neighbour. -/
def round_half_even (t : F) : Int :=
  if t - (⌊t⌋ : F) < 1 / 2 then ⌊t⌋
  else if 1 / 2 < t - (⌊t⌋ : F) then ⌊t⌋ + 1
  else if ⌊t⌋ % 2 = 0 then ⌊t⌋ else ⌊t⌋ + 1

/-- Rounding to the binary floating-point format with `p` significand bits and
least normal exponent `emin` (IEEE 754 round to nearest, ties to even): the
number is rounded to a multiple of `2 ^ (e - p + 1)`, `e` being its binary
exponent, or `emin` for a subnormal number.  The exponent is not bounded above:
there is no overflow to infinity. -/
def round_binary (p : Nat) (emin : Int) (x : F) : F :=
  if x = 0 then 0
  else
    let e := max (Int.log 2 |x|) emin
    (round_half_even (x / (2 : F) ^ (e - p + 1)) : F) * (2 : F) ^ (e - p + 1)

/-- Rounding to binary32, the format of `float`. -/
def fl32 (x : F) : F := round_binary 24 (-126) x

/-- Rounding to binary64, the format of `double`. -/
def fl64 (x : F) : F := round_binary 53 (-1022) x

/-- The largest finite binary32 value (`FLT_MAX`). -/
def FLT_MAX : F := 340282346638528859811704183484516925440

/-- The largest `int` (`INT_MAX`). -/
def INT_MAX : Int := 2147483647

/-- The `int` that holds an arithmetic result `n`: `n` itself when it is in
the range of `int`.  Signed overflow, which C leaves undefined, is taken to
wrap around modulo 2^32. -/
def wrap_int32 (n : Int) : Int := (n + 2147483648) % 4294967296 - 2147483648

/-- The constant `SEALEVEL` (`#define SEALEVEL 0.08`): the binary64 value of the
literal `0.08`. -/
def SEALEVEL : F := fl64 0.08

/-- The constant `RADII` (`#define RADII (3.0f)`). -/
def RADII : F := 3.0

/-! ## Numbers, vectors, external library -/

/-- C conversion `(int) x` of a floating value: truncation toward zero. -/
def trunc (x : F) : Int := if 0 ≤ x then ⌊x⌋ else ⌈x⌉

/-- C conversion `(unsigned char) x` of a floating value: truncation toward
zero, reduced to a byte. -/
def to_uchar (x : F) : Nat := (trunc x % 256).toNat

/-- Modelled from the spec: `union vec3` of quat.h, an (x, y, z) triple. -/
@[ext]
structure Vec3 (F : Type) where
  x : F
  y : F
  z : F
deriving DecidableEq

/-- Modelled from the spec: `union quat` of quat.h, four components. -/
structure Quat (F : Type) where
  q0 : F
  q1 : F
  q2 : F
  q3 : F
deriving DecidableEq

/-- The libm functions the program calls. -/
structure Libm (F : Type) where
  sqrt : F → F
  cos : F → F
  pi : F

/-- Modelled from the spec: the random source behind `snis_random_float`
(mtwist.h, mathutils.h): an infinite sequence of values and a cursor. -/
structure Rand (F : Type) where
  stream : Nat → F
  pos : Nat

/-- Modelled from the spec: `snis_random_float` returns the next value of the
random source (a value in [-1, 1]) and advances it. -/
def snis_random_float (g : Rand F) : F × Rand F :=
  (g.stream g.pos, { g with pos := g.pos + 1 })

/-- The functions of quat.h and mathutils.h that are called but whose bodies are
not in this file; they are parameters of the embedding. -/
structure SnisLib (F : Type) where
  quat_from_u2v : Vec3 F → Vec3 F → Vec3 F → Quat F
  quat_rot_vec : Vec3 F → Quat F → Vec3 F
  random_point_on_sphere : F → Rand F → Vec3 F × Rand F

/-- Modelled from the spec: `vec3_add_self(v, w)`, componentwise sum. -/
def vec3_add (v w : Vec3 F) : Vec3 F := ⟨v.x + w.x, v.y + w.y, v.z + w.z⟩

/-- Modelled from the spec: `vec3_mul_self(v, a)`, scaling by `a`. -/
def vec3_mul (v : Vec3 F) (a : F) : Vec3 F := ⟨v.x * a, v.y * a, v.z * a⟩

/-- Modelled from the spec: `vec3_magnitude`, the Euclidean length. -/
def vec3_magnitude (M : Libm F) (v : Vec3 F) : F :=
  M.sqrt (v.x * v.x + v.y * v.y + v.z * v.z)

/-- Modelled from the spec: `vec3_normalize`, the vector divided by its
length. -/
def vec3_normalize (M : Libm F) (v : Vec3 F) : Vec3 F :=
  ⟨v.x / vec3_magnitude M v, v.y / vec3_magnitude M v, v.z / vec3_magnitude M v⟩

/-- A C `for (i = 0; i < n; i++)` loop whose body transforms the state. -/
def for_loop {σ : Type} (n : Nat) (body : Nat → σ → σ) (s : σ) : σ :=
  (List.range n).foldl (fun st i => body i st) s

/-- A `for` loop whose body may fail to return. -/
def for_loop_opt {σ : Type} (n : Nat) (body : Nat → σ → Option σ) (s : σ) : Option σ :=
  (List.range n).foldlM (fun st i => body i st) s

/-! ## Cube map grid -/

/-- The `switch (f)` of `fij_to_xyz`: the point of cube face `f` for grid
coordinates `(i, j)`, before normalisation.  For `f` outside 0..5 the C
variable is left uninitialised; the embedding returns the zero vector there.
The conversions `(float) (i - dim / 2)`, `(float) dim` and the quotient are
exact; this agrees with binary32 for the grid the program uses, `dim = DIM`,
where every coordinate is a multiple of 1/1024 of absolute value at most 0.5. -/
def cube_point (f : Nat) (i j dim : Int) : Vec3 F :=
  match f with
  | 0 => ⟨((i - dim.tdiv 2 : Int) : F) / (dim : F),
          -((j - dim.tdiv 2 : Int) : F) / (dim : F), 0.5⟩
  | 1 => ⟨0.5, -((j - dim.tdiv 2 : Int) : F) / (dim : F),
          -((i - dim.tdiv 2 : Int) : F) / (dim : F)⟩
  | 2 => ⟨-((i - dim.tdiv 2 : Int) : F) / (dim : F),
          -((j - dim.tdiv 2 : Int) : F) / (dim : F), -0.5⟩
  | 3 => ⟨-0.5, -((j - dim.tdiv 2 : Int) : F) / (dim : F),
          ((i - dim.tdiv 2 : Int) : F) / (dim : F)⟩
  | 4 => ⟨((i - dim.tdiv 2 : Int) : F) / (dim : F), 0.5,
          ((j - dim.tdiv 2 : Int) : F) / (dim : F)⟩
  | 5 => ⟨((i - dim.tdiv 2 : Int) : F) / (dim : F), -0.5,
          -((j - dim.tdiv 2 : Int) : F) / (dim : F)⟩
  | _ => ⟨0, 0, 0⟩

/-- The function `fij_to_xyz`: cube map coordinates to a point of the unit sphere. -/
def fij_to_xyz (M : Libm F) (f : Nat) (i j dim : Int) : Vec3 F :=
  vec3_normalize M (cube_point f i j dim)

/-- The array `vertex[6][DIM][DIM]` (also `normal[6][DIM][DIM]`). -/
abbrev Grid (F : Type) := Nat → Nat → Nat → Vec3 F

/-- The assignment `g[f][i][j] = v`. -/
def Grid.set (g : Grid F) (f i j : Nat) (v : Vec3 F) : Grid F :=
  fun f' i' j' => if f' = f ∧ i' = i ∧ j' = j then v else g f' i' j'

/-- The function `initialize_vertices`: the new contents of `vertex`. -/
def initialize_vertices (M : Libm F) (vertex : Grid F) : Grid F :=
  for_loop 6 (fun f g =>
    for_loop DIM (fun i g =>
      for_loop DIM (fun j g =>
        g.set f i j (fij_to_xyz M f i j DIM)) g) g) vertex

/-! ## Sample profile -/

/-- The globals `sampledata`, `samplew`, `sampleh`, `sample_bytes_per_row`.
`sampledata` is the byte (read as `unsigned char`) at each byte offset; a
read outside the loaded buffer, which C leaves undefined, yields whatever
this function holds there. -/
structure Sample where
  sampledata : Int → Nat
  samplew : Int
  sampleh : Int
  sample_bytes_per_row : Int

/-- The row stride `load_image` computes: `*w * 3`, then aligned to a 4 byte
boundary (`x & 0x03` is `x % 4`). -/
def load_image_bytes_per_row (w : Int) : Int :=
  let bytes_per_row := w * 3
  if bytes_per_row % 4 ≠ 0 then bytes_per_row + (4 - bytes_per_row % 4) else bytes_per_row

/-! ## Bump field -/

/-- The record `struct bump`. -/
structure Bump (F : Type) where
  p : Vec3 F
  r : F
  h : F
  texelq : Quat F
  tx : Int
  ty : Int
  tr : Int
  ts : F

/-- The globals `bumplist[MAXBUMPS]` and `totalbumps`, the random source, and
a ghost counter `add_bump_calls` of the calls of `add_bump` made so far (the
counter is instrumentation: no code reads it). -/
structure BumpState (F : Type) where
  bumplist : Nat → Bump F
  totalbumps : Nat
  rand : Rand F
  add_bump_calls : Nat

/-- The texel origin `add_bump` computes from a sample extent `n` (`samplew` or
`sampleh`) and a random value `u`:
`(int) ((float) n / RADII + 0.5 * u * (RADII - 2.0f) / RADII * (float) n)`.
The first summand is a binary32 quotient.  The constant `0.5` is a `double`, so
in the second summand the two products and the quotient are binary64
operations on the converted operands, and so is the sum. -/
def texel_origin (n : Int) (u : F) : Int :=
  trunc (fl64 (fl32 (fl32 (n : F) / RADII) +
    fl64 (fl64 (fl64 (fl64 (0.5 * u) * fl32 (RADII - 2.0)) / RADII) * fl32 (n : F))))

/-- The texel scale `add_bump` computes: the binary32 quotient of the
converted extent by `RADII`. -/
def texel_scale (S : Sample) : F :=
  if S.samplew < S.sampleh then fl32 (fl32 (S.samplew : F) / RADII)
  else fl32 (fl32 (S.sampleh : F) / RADII)

/-- The function `add_bump`: the state after the call. -/
def add_bump (Q : SnisLib F) (S : Sample) (p : Vec3 F) (r h : F)
    (s : BumpState F) : BumpState F :=
  let right_at_ya : Vec3 F := ⟨0, 0, 1⟩
  let up : Vec3 F := ⟨0, 1, 0⟩
  if s.totalbumps ≥ MAXBUMPS then
    { s with add_bump_calls := s.add_bump_calls + 1 }
  else
    let r1 := snis_random_float s.rand
    let tx := texel_origin S.samplew r1.1
    let r2 := snis_random_float r1.2
    let ty := texel_origin S.sampleh r2.1
    let ts := texel_scale S
    let b : Bump F :=
      { p := p, r := r, h := h, texelq := Q.quat_from_u2v p right_at_ya up,
        tx := tx, ty := ty, tr := (s.bumplist s.totalbumps).tr, ts := ts }
    { bumplist := Function.update s.bumplist s.totalbumps b,
      totalbumps := s.totalbumps + 1,
      rand := r2.2,
      add_bump_calls := s.add_bump_calls + 1 }

/-- One iteration of the child loop of `recursive_add_bump`; `recurse` is the
recursive call. -/
def recursive_add_bump_child (M : Libm F)
    (recurse : Vec3 F → F → F → F → F → BumpState F → Option (BumpState F))
    (pos : Vec3 F) (r h shrink rlimit : F) (s : BumpState F) : Option (BumpState F) :=
  let r1 := snis_random_float s.rand
  let r2 := snis_random_float r1.2
  let r3 := snis_random_float r2.2
  let d : Vec3 F := ⟨r1.1 * r, r2.1 * r, r3.1 * r⟩
  let d := vec3_normalize M (vec3_add d pos)
  let r4 := snis_random_float r3.2
  let hoffset := r4.1 * h * shrink * 0.5
  recurse d (r * shrink) (h * shrink * 0.5 + hoffset) shrink rlimit { s with rand := r4.2 }

/-- The function `recursive_add_bump`; `fuel` bounds the depth of the recursion, and the
result is `none` when it does not suffice. -/
def recursive_add_bump (M : Libm F) (Q : SnisLib F) (S : Sample) :
    Nat → Vec3 F → F → F → F → F → BumpState F → Option (BumpState F)
  | 0, _, _, _, _, _, _ => none
  | fuel + 1, pos, r, h, shrink, rlimit, s =>
    let nbumps := 3
    let s1 := add_bump Q S pos r h s
    if r * shrink < rlimit then some s1
    else
      for_loop_opt nbumps (fun _ st =>
        recursive_add_bump_child M (recursive_add_bump M Q S fuel) pos r h shrink rlimit st) s1

/-- The seed radius `add_bumps` computes from a random value `u`. -/
def seed_radius (u : F) : F := 0.5 * (u + 1.0) * 0.4

/-- The function `add_bumps`; `fuel` is the recursion bound given to each
`recursive_add_bump`. -/
def add_bumps (M : Libm F) (Q : SnisLib F) (S : Sample) (fuel : Nat) (nbumps : Nat)
    (s : BumpState F) : Option (BumpState F) :=
  for_loop_opt nbumps (fun _ st =>
    let r1 := snis_random_float st.rand
    let r := seed_radius r1.1
    let pt := Q.random_point_on_sphere 1.0 r1.2
    recursive_add_bump M Q S fuel pt.1 r 0.08 0.52 0.01 { st with rand := pt.2 }) s

/-! ## Distortion renderer -/

/-- The sample coordinates `(x, y)` that `distort_vertex` computes for vertex
`v` and bump `b`.  The scaling `vec3_mul_self(&texelv, b->ts)` multiplies each
component by `b->ts` in binary32. -/
def sample_xy (M : Libm F) (Q : SnisLib F) (v : Vec3 F) (b : Bump F) : Int × Int :=
  let distortion := vec3_normalize M v
  let texelv := Q.quat_rot_vec distortion b.texelq
  let texelv : Vec3 F :=
    ⟨fl32 (texelv.x * b.ts), fl32 (texelv.y * b.ts), fl32 (texelv.z * b.ts)⟩
  (trunc texelv.x + b.tx, trunc texelv.y + b.ty)

/-- The condition under which `distort_vertex` prints its "out of range"
diagnostic. -/
def out_of_range (S : Sample) (x y : Int) : Bool :=
  decide (x < 0) || decide (x > S.samplew) || decide (y < 0) || decide (y > S.sampleh)

/-- The byte offset `p` into `sampledata` that `distort_vertex` reads, an
`int`. -/
def sample_offset (S : Sample) (x y : Int) : Int :=
  wrap_int32 (y * S.sample_bytes_per_row + x * 3)

/-- The function `distort_vertex`: the new value of `*v`. -/
def distort_vertex (M : Libm F) (Q : SnisLib F) (S : Sample) (v : Vec3 F) (d : F)
    (b : Bump F) : Vec3 F :=
  let r := b.r
  let h := b.h
  let nr := 0.5 * (M.cos (M.pi * d / r) + 1.0) * h
  let distortion := vec3_normalize M v
  let xy := sample_xy M Q v b
  let p := sample_offset S xy.1 xy.2
  let c := S.sampledata p
  let m := (c : F) / 255.0
  let distortion := vec3_mul distortion (nr * m)
  vec3_add v distortion

/-- The squared distance `d2` that `render_bumps_on_face_fn` computes between a
grid point `p` and a bump centre `p2`. -/
def sq_dist (p p2 : Vec3 F) : F :=
  (p.x - p2.x) * (p.x - p2.x) + (p.y - p2.y) * (p.y - p2.y) +
    (p.z - p2.z) * (p.z - p2.z)

/-- The body of the `k` loop of `render_bumps_on_face_fn` for one bump `b`,
grid point `p` and current vertex `v`. -/
def render_bump (M : Libm F) (Q : SnisLib F) (S : Sample) (p : Vec3 F) (b : Bump F)
    (v : Vec3 F) : Vec3 F :=
  let p2 := b.p
  let d2 := sq_dist p p2
  if d2 > b.r * b.r then v
  else
    let d := M.sqrt d2
    distort_vertex M Q S v d b

/-- The function `render_bumps_on_face_fn` for face `f`: the new contents of `vertex`. -/
def render_bumps_on_face_fn (M : Libm F) (Q : SnisLib F) (S : Sample)
    (bumplist : Nat → Bump F) (totalbumps : Nat) (f : Nat) (vertex : Grid F) : Grid F :=
  for_loop DIM (fun i g =>
    for_loop DIM (fun j g =>
      let p := fij_to_xyz M f i j DIM
      for_loop totalbumps (fun k g =>
        g.set f i j (render_bump M Q S p (bumplist k) (g f i j))) g) g) vertex

/-! ## Height extrema -/

/-- The function `find_min_max_height`: the pair `(*min, *max)`. -/
def find_min_max_height (M : Libm F) (vertex : Grid F) : F × F :=
  let mmin : F := 1000000.0
  let mmax : F := 0.0
  for_loop 6 (fun f mm =>
    for_loop DIM (fun i mm =>
      for_loop DIM (fun j mm =>
        let h := vec3_magnitude M (vertex f i j)
        let mmin := if h < mm.1 then h else mm.1
        let mmax := if h > mm.2 then h else mm.2
        (mmin, mmax)) mm) mm) (mmin, mmax)

/-! ## Painter -/

/-- The arrays `output_image[6]` (and `normal_image[6]`): the byte at each
offset of each face buffer. -/
abbrev Image := Nat → Int → Nat

/-- The assignment `img[f][p] = c`. -/
def Image.set (img : Image) (f : Nat) (p : Int) (c : Nat) : Image :=
  fun f' p' => if f' = f ∧ p' = p then c else img f' p'

/-- The byte offset `p = (j * DIM + i) * 4` of texel `(i, j)` in a face buffer. -/
def texel_offset (i j : Nat) : Int := ((j : Int) * DIM + i) * 4

/-- The normalised height `r = (r - min) / (max - min)` of vertex `(f, i, j)`,
`r` being its magnitude: two binary32 differences and a binary32 quotient. -/
def normalized_height (M : Libm F) (min max : F) (vertex : Grid F) (f i j : Nat) : F :=
  let r := vec3_magnitude M (vertex f i j)
  fl32 (fl32 (r - min) / fl32 (max - min))

/-- The body of the innermost loop of `paint_height_maps`.  The product
`r * 255.0f` is a binary32 operation; the comparison `r > SEALEVEL` is made in
`double`, to which `r` converts exactly. -/
def paint_height_texel (M : Libm F) (min max : F) (vertex : Grid F) (f i j : Nat)
    (output_image : Image) : Image :=
  let p : Int := texel_offset i j
  let r := normalized_height M min max vertex f i j
  let c := to_uchar (fl32 (r * 255.0))
  let img :=
    if r > SEALEVEL then
      ((output_image.set f (p + 0) c).set f (p + 1) c).set f (p + 2) c
    else
      ((output_image.set f (p + 0) 20).set f (p + 1) 100).set f (p + 2) 200
  img.set f (p + 3) 255

/-- The function `paint_height_maps`: the new contents of `output_image`. -/
def paint_height_maps (M : Libm F) (min max : F) (vertex : Grid F)
    (output_image : Image) : Image :=
  for_loop 6 (fun f img =>
    for_loop DIM (fun i img =>
      for_loop DIM (fun j img =>
        paint_height_texel M min max vertex f i j img) img) img) output_image

/-! ## Normal map -/

/-- The four byte offsets `calculate_normal` reads, in the order
(`p1`, `p2`) of the x difference, then (`p1`, `p2`) of the y difference. -/
def normal_read_offsets (i j : Int) : (Int × Int) × (Int × Int) :=
  let i1 := i - 1
  let i1 := if i1 < 0 then i else i1
  let i2 := i + 1
  let i2 := if i2 ≥ DIM then i else i2
  let j1 := j - 1
  let j1 := if j1 < 0 then j else j1
  let j2 := j + 1
  let j2 := if j2 ≥ DIM then j else j2
  (((j * DIM + i1) * 4, (j * DIM + i2) * 4), ((j1 * DIM + i) * 4, (j2 * DIM + i) * 4))

/-- The function `calculate_normal`: the new contents of `normal`. -/
def calculate_normal (output_image : Image) (f i j : Nat) (normal : Grid F) : Grid F :=
  let ps := normal_read_offsets i j
  let dzdx : Int := (output_image f ps.1.1 : Int) - (output_image f ps.1.2 : Int)
  let dzdy : Int := (output_image f ps.2.2 : Int) - (output_image f ps.2.1 : Int)
  let n : Vec3 F := ⟨(dzdx : F) / 127.0 + 0.5, (dzdy : F) / 127.0 + 0.5, 1.0⟩
  normal.set f i j n

/-- The function `calculate_normals`: the new contents of `normal`. -/
def calculate_normals (output_image : Image) (normal : Grid F) : Grid F :=
  for_loop 6 (fun f g =>
    for_loop DIM (fun i g =>
      for_loop DIM (fun j g =>
        calculate_normal output_image f i j g) g) g) normal

/-! ## Predicates used in the statements -/

/-- The square root of `M` is exact: on non-negative numbers it returns the
non-negative root. -/
def SqrtExact (M : Libm F) : Prop :=
  ∀ x, 0 ≤ x → 0 ≤ M.sqrt x ∧ M.sqrt x * M.sqrt x = x

/-- The cosine of `M` is bounded below by -1. -/
def CosBounded (M : Libm F) : Prop := ∀ x, -1 ≤ M.cos x

/-- The factor `nr * m` by which `distort_vertex` scales the direction of the
vertex: the cosine falloff `nr` times the sampled modulation `m`. -/
def distortion_amount (M : Libm F) (Q : SnisLib F) (S : Sample) (v : Vec3 F) (d : F)
    (b : Bump F) : F :=
  0.5 * (M.cos (M.pi * d / b.r) + 1.0) * b.h *
    ((S.sampledata (sample_offset S (sample_xy M Q v b).1 (sample_xy M Q v b).2) : F) / 255.0)

/-- The point `v` lies on the surface of the cube of half-extent 0.5: no
coordinate exceeds 0.5 in absolute value and one of them reaches it. -/
def OnCube (v : Vec3 F) : Prop :=
  (|v.x| ≤ 0.5 ∧ |v.y| ≤ 0.5 ∧ |v.z| ≤ 0.5) ∧ (|v.x| = 0.5 ∨ |v.y| = 0.5 ∨ |v.z| = 0.5)

/-! ## Concrete inputs used to evaluate the program -/

/-- A stand-in for the external library: a rotation that leaves every vector
in place and a sphere sampler that always returns the north pole. -/
def plain_lib : SnisLib F :=
  { quat_from_u2v := fun _ _ _ => ⟨1, 0, 0, 0⟩
    quat_rot_vec := fun v _ => v
    random_point_on_sphere := fun _ g => (⟨0, 1, 0⟩, g) }

/-- A 4 x 4 sample whose bytes all hold `s` (row stride 12). -/
def uniform_sample (s : Nat) : Sample :=
  { sampledata := fun _ => s, samplew := 4, sampleh := 4, sample_bytes_per_row := 12 }

/-- The bump of the spec's scenario: centre at the north pole (0, 1, 0), radius
0.3, and the given height. -/
def pole_bump (h : F) : Bump F :=
  { p := ⟨0, 1, 0⟩, r := 0.3, h := h, texelq := ⟨1, 0, 0, 0⟩, tx := 1, ty := 1, tr := 0,
    ts := 4 / 3 }

/-- A grid holding the zero vector everywhere. -/
def zero_grid : Grid F := fun _ _ _ => ⟨0, 0, 0⟩

/-- A state with no bumps, whose random source returns `u` forever. -/
def empty_bump_state (u : F) : BumpState F :=
  { bumplist := fun _ => pole_bump 0, totalbumps := 0, rand := ⟨fun _ => u, 0⟩,
    add_bump_calls := 0 }

/-- A state whose bump list is full, whose random source returns `u` forever. -/
def full_bump_state (u : F) : BumpState F :=
  { bumplist := fun _ => pole_bump 0, totalbumps := MAXBUMPS, rand := ⟨fun _ => u, 0⟩,
    add_bump_calls := 0 }

/-- An image holding the byte `c` everywhere. -/
def uniform_image (c : Nat) : Image := fun _ _ => c

/-- A stand-in for libm used to evaluate, on rationals, parts of the program
whose result does not depend on it: `sqrt` is the identity (the square root on
the arguments 0 and 1), `cos` is constantly 1 and `M_PI` is 3. -/
def plain_libm : Libm F := { sqrt := fun x => x, cos := fun _ => 1, pi := 3 }

/-- A grid holding the vector (0, 1, 0) everywhere. -/
def unit_grid : Grid F := fun _ _ _ => ⟨0, 1, 0⟩

/-- A grid holding the vector (0, m, 0), of magnitude `m` for `m ≥ 0`,
everywhere. -/
def level_grid (m : F) : Grid F := fun _ _ _ => ⟨0, m, 0⟩

/-- A 12 x 9 sample whose bytes all hold `s` (row stride 36). -/
def small_sample (s : Nat) : Sample :=
  { sampledata := fun _ => s, samplew := 12, sampleh := 9, sample_bytes_per_row := 36 }

/-- A 36000 x 36000 sample whose bytes all hold `s` (row stride 108000). -/
def large_sample (s : Nat) : Sample :=
  { sampledata := fun _ => s, samplew := 36000, sampleh := 36000,
    sample_bytes_per_row := 108000 }

end Model

end Earthlike

namespace Earthlike

section Loops

variable {σ α : Type}

/-- A loop of zero iterations leaves the state as it is. -/
theorem for_loop_zero (body : Nat → σ → σ) (s : σ) : for_loop 0 body s = s := rfl

/-- A loop of `n + 1` iterations is a loop of `n` iterations followed by the
body for index `n`. -/
theorem for_loop_succ (n : Nat) (body : Nat → σ → σ) (s : σ) :
    for_loop (n + 1) body s = body n (for_loop n body s) := by
  simp [for_loop, List.range_succ, List.foldl_append]

/-- A property preserved by every iteration is preserved by the loop. -/
theorem for_loop_invariant (P : σ → Prop) (n : Nat) (body : Nat → σ → σ)
    (h : ∀ i, i < n → ∀ s, P s → P (body i s)) (s : σ) (hs : P s) :
    P (for_loop n body s) := by
  induction n with
  | zero => exact hs
  | succ n ih =>
    rw [for_loop_succ]
    exact h n (Nat.lt_succ_self n) _ (ih (fun i hi => h i (Nat.lt_succ_of_lt hi)))

/-- A property established by iteration `i₀` and preserved by the later ones
holds after the loop. -/
theorem for_loop_reach (P : σ → Prop) (n i₀ : Nat) (body : Nat → σ → σ) (hi : i₀ < n)
    (h₀ : ∀ s, P (body i₀ s)) (h : ∀ i, i < n → ∀ s, P s → P (body i s)) (s : σ) :
    P (for_loop n body s) := by
  induction n with
  | zero => exact absurd hi (Nat.not_lt_zero _)
  | succ n ih =>
    rw [for_loop_succ]
    rcases Nat.lt_succ_iff_lt_or_eq.mp hi with hlt | heq
    · exact h n (Nat.lt_succ_self n) _ (ih hlt (fun i hi => h i (Nat.lt_succ_of_lt hi)))
    · subst heq
      exact h₀ _

/-- An observation no iteration changes is unchanged by the loop. -/
theorem for_loop_frame (obs : σ → α) (n : Nat) (body : Nat → σ → σ)
    (h : ∀ i, i < n → ∀ s, obs (body i s) = obs s) (s : σ) :
    obs (for_loop n body s) = obs s :=
  for_loop_invariant (fun t => obs t = obs s) n body
    (fun i hi t ht => (h i hi t).trans ht) s rfl

/-- An observation that only iteration `i₀` changes, and that this iteration
computes from the observation alone, is after the loop what iteration `i₀`
makes of its initial value. -/
theorem for_loop_obs (obs : σ → α) (n i₀ : Nat) (body : Nat → σ → σ) (hi : i₀ < n)
    (hne : ∀ i, i < n → i ≠ i₀ → ∀ s, obs (body i s) = obs s)
    (hc : ∀ s s', obs s = obs s' → obs (body i₀ s) = obs (body i₀ s')) (s : σ) :
    obs (for_loop n body s) = obs (body i₀ s) := by
  induction n with
  | zero => exact absurd hi (Nat.not_lt_zero _)
  | succ n ih =>
    rw [for_loop_succ]
    rcases Nat.lt_succ_iff_lt_or_eq.mp hi with hlt | heq
    · rw [hne n (Nat.lt_succ_self n) (Nat.ne_of_gt hlt)]
      exact ih hlt (fun i hi => hne i (Nat.lt_succ_of_lt hi))
    · subst heq
      apply hc
      exact for_loop_frame obs i₀ body
        (fun i hi => hne i (Nat.lt_succ_of_lt hi) (Nat.ne_of_lt hi)) s

end Loops

/-! ## Rounding -/

section Rounding
variable {F : Type} [LinearOrderedField F] [FloorRing F]

/-- The rounding of `t` to an integer is `⌊t⌋` or `⌊t⌋ + 1`. -/
theorem round_half_even_bounds (t : F) :
    ⌊t⌋ ≤ round_half_even t ∧ round_half_even t ≤ ⌊t⌋ + 1 := by
  unfold round_half_even
  split_ifs <;> constructor <;> omega

/-- An integer is rounded to itself. -/
theorem round_half_even_intCast (n : Int) : round_half_even (n : F) = n := by
  unfold round_half_even
  simp

/-- Rounding to an integer is monotone. -/
theorem round_half_even_mono {t t' : F} (h : t ≤ t') :
    round_half_even t ≤ round_half_even t' := by
  have hf : ⌊t⌋ ≤ ⌊t'⌋ := Int.floor_mono h
  rcases lt_or_eq_of_le hf with hlt | heq
  · have h1 := (round_half_even_bounds t).2
    have h2 := (round_half_even_bounds t').1
    omega
  · unfold round_half_even
    rw [← heq]
    have hd : t - (⌊t⌋ : F) ≤ t' - (⌊t⌋ : F) := by linarith
    split_ifs <;> first | omega | (exfalso; linarith)

/-- Rounding to an integer commutes with negation. -/
theorem round_half_even_neg (t : F) : round_half_even (-t) = -round_half_even t := by
  by_cases hi : (⌊t⌋ : F) = t
  · rw [← hi, ← Int.cast_neg, round_half_even_intCast, round_half_even_intCast]
  · have hlt : (⌊t⌋ : F) < t := lt_of_le_of_ne (Int.floor_le t) hi
    have hlt2 : t < (⌊t⌋ : F) + 1 := Int.lt_floor_add_one t
    have hfl : ⌊-t⌋ = -⌊t⌋ - 1 := by
      rw [Int.floor_eq_iff]
      push_cast
      constructor <;> linarith
    unfold round_half_even
    rw [hfl]
    push_cast
    split_ifs <;> first | omega | (exfalso; linarith)

/-- A non-negative number is rounded to a non-negative integer. -/
theorem round_half_even_nonneg {t : F} (h : 0 ≤ t) : 0 ≤ round_half_even t := by
  have := round_half_even_mono h
  rwa [← Int.cast_zero, round_half_even_intCast] at this

/-- A number less than 1/2 away from the integer `n` is rounded to `n`. -/
theorem round_half_even_eq {t : F} {n : Int} (h1 : (n : F) - 1 / 2 < t)
    (h2 : t < (n : F) + 1 / 2) : round_half_even t = n := by
  unfold round_half_even
  by_cases hn : (n : F) ≤ t
  · have hfl : ⌊t⌋ = n := by
      rw [Int.floor_eq_iff]; constructor <;> linarith
    rw [hfl, if_pos (by linarith)]
  · push_neg at hn
    have hfl : ⌊t⌋ = n - 1 := by
      rw [Int.floor_eq_iff]; push_cast; constructor <;> linarith
    rw [hfl]
    push_cast
    rw [if_neg (by linarith), if_pos (by linarith)]
    omega

/-- Powers of two are positive. -/
theorem two_zpow_pos (z : Int) : (0 : F) < (2 : F) ^ z := zpow_pos (by norm_num) z

/-- The power of two with the binary exponent of `x > 0` is at most `x`. -/
theorem two_zpow_log_le {x : F} (hx : 0 < x) : (2 : F) ^ Int.log 2 x ≤ x := by
  have := Int.zpow_log_le_self (b := 2) (by norm_num) hx
  simpa using this

/-- A number is below the next power of two after its binary exponent. -/
theorem lt_two_zpow_log_succ (x : F) : x < (2 : F) ^ (Int.log 2 x + 1) := by
  have := Int.lt_zpow_succ_log_self (b := 2) (by norm_num) x
  simpa using this

/-- A positive number below `2 ^ z` has a binary exponent below `z`. -/
theorem log_lt_of_lt_two_zpow {x : F} {z : Int} (hx : 0 < x) (h : x < (2 : F) ^ z) :
    Int.log 2 x < z := by
  have := (Int.lt_zpow_iff_log_lt (b := 2) (by norm_num) (x := z) hx).1 (by simpa using h)
  exact this

/-- A number that is at least `2 ^ z` has a binary exponent of at least `z`. -/
theorem le_log_of_two_zpow_le {x : F} {z : Int} (hx : 0 < x) (h : (2 : F) ^ z ≤ x) :
    z ≤ Int.log 2 x := by
  have := (Int.zpow_le_iff_le_log (b := 2) (by norm_num) (x := z) hx).1 (by simpa using h)
  exact this

/-- The binary exponent of a number between `2 ^ e` and `2 ^ (e + 1)` is `e`. -/
theorem log_eq_of_bracket {x : F} {e : Int} (h1 : (2 : F) ^ e ≤ x) (h2 : x < (2 : F) ^ (e + 1)) :
    Int.log 2 x = e := by
  have hx : 0 < x := lt_of_lt_of_le (two_zpow_pos e) h1
  have := le_log_of_two_zpow_le hx h1
  have := log_lt_of_lt_two_zpow hx h2
  omega

/-- Zero is rounded to zero. -/
theorem round_binary_zero (p : Nat) (emin : Int) : round_binary p emin (0 : F) = 0 := by
  simp [round_binary]

/-- The rounding of a number other than zero. -/
theorem round_binary_of_ne (p : Nat) (emin : Int) {x : F} (hx : x ≠ 0) :
    round_binary p emin x =
      (round_half_even (x / (2 : F) ^ (max (Int.log 2 |x|) emin - p + 1)) : F) *
        (2 : F) ^ (max (Int.log 2 |x|) emin - p + 1) := by
  simp [round_binary, hx]

/-- Rounding commutes with negation. -/
theorem round_binary_neg (p : Nat) (emin : Int) (x : F) :
    round_binary p emin (-x) = -round_binary p emin x := by
  by_cases hx : x = 0
  · simp [hx, round_binary_zero]
  · rw [round_binary_of_ne p emin hx, round_binary_of_ne p emin (neg_ne_zero.mpr hx), abs_neg,
      neg_div, round_half_even_neg]
    push_cast
    ring

/-- A non-negative number is rounded to a non-negative number. -/
theorem round_binary_nonneg (p : Nat) (emin : Int) {x : F} (hx : 0 ≤ x) :
    0 ≤ round_binary p emin x := by
  by_cases h0 : x = 0
  · simp [h0, round_binary_zero]
  · rw [round_binary_of_ne p emin h0]
    apply mul_nonneg _ (two_zpow_pos _).le
    exact_mod_cast round_half_even_nonneg (div_nonneg hx (two_zpow_pos _).le)

/-- An integer lower bound of the scaled value is a lower bound of its rounding. -/
theorem le_round_half_even {t : F} {n : Int} (h : (n : F) ≤ t) : n ≤ round_half_even t := by
  have := round_half_even_mono h
  rwa [round_half_even_intCast] at this

/-- An integer upper bound of a number is an upper bound of its rounding. -/
theorem round_half_even_le {t : F} {n : Int} (h : t ≤ (n : F)) : round_half_even t ≤ n := by
  have := round_half_even_mono h
  rwa [round_half_even_intCast] at this

/-- A power of two with a natural exponent is the cast of the integer power. -/
theorem two_zpow_natCast (k : Nat) : (2 : F) ^ (k : Int) = ((2 ^ k : Int) : F) := by
  push_cast
  exact zpow_natCast 2 k

/-- Rounding is monotone on positive numbers. -/
theorem round_binary_mono_pos (p : Nat) (hp : 1 ≤ p) (emin : Int) {x y : F} (hx : 0 < x)
    (hxy : x ≤ y) : round_binary p emin x ≤ round_binary p emin y := by
  have hy : 0 < y := lt_of_lt_of_le hx hxy
  rw [round_binary_of_ne p emin hx.ne', round_binary_of_ne p emin hy.ne', abs_of_pos hx,
    abs_of_pos hy]
  have hlog : Int.log 2 x ≤ Int.log 2 y := Int.log_mono_right hx hxy
  set ex := max (Int.log 2 x) emin with hex
  set ey := max (Int.log 2 y) emin with hey
  have hle : ex ≤ ey := max_le_max hlog le_rfl
  rcases lt_or_eq_of_le hle with hlt | heq
  · -- different binades: 2 ^ (ex + 1) separates the two roundings
    have hey2 : ey = Int.log 2 y := by
      rcases le_total (Int.log 2 y) emin with h | h
      · exfalso
        have : ey = emin := max_eq_right h
        have : emin ≤ ex := le_max_right _ _
        omega
      · exact max_eq_left h
    have h1 : (round_half_even (x / (2 : F) ^ (ex - p + 1)) : F) * (2 : F) ^ (ex - p + 1)
        ≤ (2 : F) ^ (ex + 1) := by
      have hxlt : x < (2 : F) ^ (ex + 1) := by
        refine lt_of_lt_of_le (lt_two_zpow_log_succ x) ?_
        exact zpow_le_zpow_right₀ (by norm_num) (by have := le_max_left (Int.log 2 x) emin; omega)
      have hq : x / (2 : F) ^ (ex - p + 1) ≤ ((2 ^ p : Int) : F) := by
        rw [div_le_iff₀ (two_zpow_pos _), ← two_zpow_natCast, ← zpow_add₀ (by norm_num)]
        have : (p : Int) + (ex - p + 1) = ex + 1 := by ring
        rw [this]
        exact hxlt.le
      have hr := round_half_even_le hq
      have hr2 : (round_half_even (x / (2 : F) ^ (ex - p + 1)) : F) ≤ ((2 ^ p : Int) : F) := by
        exact_mod_cast hr
      calc (round_half_even (x / (2 : F) ^ (ex - p + 1)) : F) * (2 : F) ^ (ex - p + 1)
          ≤ ((2 ^ p : Int) : F) * (2 : F) ^ (ex - p + 1) :=
            mul_le_mul_of_nonneg_right hr2 (two_zpow_pos _).le
        _ = (2 : F) ^ (ex + 1) := by
            rw [← two_zpow_natCast, ← zpow_add₀ (by norm_num)]
            congr 1
            ring
    have h2 : (2 : F) ^ ey
        ≤ (round_half_even (y / (2 : F) ^ (ey - p + 1)) : F) * (2 : F) ^ (ey - p + 1) := by
      have hyge : (2 : F) ^ ey ≤ y := by
        rw [hey2]
        exact two_zpow_log_le hy
      obtain ⟨k, hk⟩ : ∃ k : Nat, p = k + 1 := ⟨p - 1, by omega⟩
      have hq : ((2 ^ k : Int) : F) ≤ y / (2 : F) ^ (ey - p + 1) := by
        rw [le_div_iff₀ (two_zpow_pos _), ← two_zpow_natCast, ← zpow_add₀ (by norm_num)]
        have : (k : Int) + (ey - p + 1) = ey := by rw [hk]; push_cast; ring
        rw [this]
        exact hyge
      have hr := le_round_half_even hq
      have hr2 : ((2 ^ k : Int) : F) ≤ (round_half_even (y / (2 : F) ^ (ey - p + 1)) : F) := by
        exact_mod_cast hr
      calc (2 : F) ^ ey = ((2 ^ k : Int) : F) * (2 : F) ^ (ey - p + 1) := by
            rw [← two_zpow_natCast, ← zpow_add₀ (by norm_num)]
            congr 1
            rw [hk]; push_cast; ring
        _ ≤ _ := mul_le_mul_of_nonneg_right hr2 (two_zpow_pos _).le
    calc _ ≤ (2 : F) ^ (ex + 1) := h1
      _ ≤ (2 : F) ^ ey := zpow_le_zpow_right₀ (by norm_num) (by omega)
      _ ≤ _ := h2
  · rw [← heq]
    apply mul_le_mul_of_nonneg_right _ (two_zpow_pos _).le
    have := round_half_even_mono (div_le_div_of_nonneg_right hxy (two_zpow_pos (ex - p + 1)).le)
    exact_mod_cast this

/-- Rounding is monotone. -/
theorem round_binary_mono (p : Nat) (hp : 1 ≤ p) (emin : Int) {x y : F} (hxy : x ≤ y) :
    round_binary p emin x ≤ round_binary p emin y := by
  rcases lt_trichotomy x 0 with hx | hx | hx
  · rcases lt_or_le y 0 with hy | hy
    · have := round_binary_mono_pos p hp emin (neg_pos.mpr hy) (neg_le_neg hxy)
      rw [round_binary_neg, round_binary_neg] at this
      linarith
    · have h1 := round_binary_nonneg p emin hy
      have h2 := round_binary_nonneg p emin (neg_nonneg.mpr hx.le)
      rw [round_binary_neg] at h2
      linarith
  · rw [hx, round_binary_zero]
    exact round_binary_nonneg p emin (hx ▸ hxy)
  · exact round_binary_mono_pos p hp emin hx hxy

/-- Numbers of the format are left unchanged: `n * 2 ^ q` with `|n| < 2 ^ p`
and `q` not below the exponent of the least subnormal. -/
theorem round_binary_fixed (p : Nat) (emin : Int) (n q : Int) (hn : |n| < 2 ^ p)
    (hq : emin - p + 1 ≤ q) :
    round_binary p emin ((n : F) * (2 : F) ^ q) = (n : F) * (2 : F) ^ q := by
  by_cases h0 : (n : F) * (2 : F) ^ q = 0
  · rw [h0, round_binary_zero]
  · rw [round_binary_of_ne p emin h0]
    have hn0 : (n : F) ≠ 0 := left_ne_zero_of_mul h0
    have habs : |(n : F) * (2 : F) ^ q| < (2 : F) ^ ((p : Int) + q) := by
      have hq2 : |(2 : F) ^ q| = (2 : F) ^ q := abs_of_pos (two_zpow_pos q)
      rw [abs_mul, hq2, zpow_add₀ (by norm_num), two_zpow_natCast]
      apply mul_lt_mul_of_pos_right _ (two_zpow_pos q)
      have : ((|n| : Int) : F) < ((2 ^ p : Int) : F) := by exact_mod_cast hn
      simpa using this
    have hlog := log_lt_of_lt_two_zpow (abs_pos.mpr h0) habs
    generalize hx : (n : F) * (2 : F) ^ q = x at h0 habs hlog ⊢
    set e := max (Int.log 2 |x|) emin with he
    have hle : e - p + 1 ≤ q := by
      have : e ≤ max (p + q - 1) emin := max_le_max (by omega) le_rfl
      rcases le_total (p + q - 1 : Int) emin with h | h
      · rw [max_eq_right h] at this; omega
      · rw [max_eq_left h] at this; omega
    obtain ⟨k, hk⟩ : ∃ k : Nat, e - p + 1 + k = q := ⟨(q - (e - p + 1)).toNat, by omega⟩
    have h2q : (2 : F) ^ q = (2 : F) ^ (e - p + 1) * ((2 ^ k : Int) : F) := by
      rw [← hk, zpow_add₀ (by norm_num), two_zpow_natCast]
    have hs : (2 : F) ^ (e - p + 1) ≠ 0 := (two_zpow_pos _).ne'
    have hdiv : x / (2 : F) ^ (e - p + 1) = ((n * 2 ^ k : Int) : F) := by
      rw [← hx, h2q]
      push_cast
      field_simp
      ring
    rw [hdiv, round_half_even_intCast, ← hx, h2q]
    push_cast
    ring

/-- A value of the format that bounds a number from above bounds its rounding. -/
theorem round_binary_le_of_le (p : Nat) (hp : 1 ≤ p) (emin : Int) {x g : F}
    (hg : round_binary p emin g = g) (h : x ≤ g) : round_binary p emin x ≤ g := by
  have := round_binary_mono p hp emin h
  rwa [hg] at this

/-- A value of the format that bounds a number from below bounds its rounding. -/
theorem le_round_binary_of_le (p : Nat) (hp : 1 ≤ p) (emin : Int) {x g : F}
    (hg : round_binary p emin g = g) (h : g ≤ x) : g ≤ round_binary p emin x := by
  have := round_binary_mono p hp emin h
  rwa [hg] at this

/-- Evaluation of a rounding from the binade of the argument. -/
theorem round_binary_eval (p : Nat) (emin : Int) {x : F} (e N : Int)
    (h1 : (2 : F) ^ e ≤ |x|) (h2 : |x| < (2 : F) ^ (e + 1)) (he : emin ≤ e)
    (hN1 : (N : F) - 1 / 2 < x / (2 : F) ^ (e - p + 1))
    (hN2 : x / (2 : F) ^ (e - p + 1) < (N : F) + 1 / 2) :
    round_binary p emin x = (N : F) * (2 : F) ^ (e - p + 1) := by
  have hx : x ≠ 0 := by
    intro h
    rw [h, abs_zero] at h1
    exact absurd h1 (not_le.mpr (two_zpow_pos e))
  rw [round_binary_of_ne p emin hx, log_eq_of_bracket h1 h2, max_eq_left he,
    round_half_even_eq hN1 hN2]

/-- Every value of the format is an integer multiple of the least subnormal. -/
theorem round_binary_multiple (p : Nat) (emin : Int) (x : F) :
    ∃ a : Int, round_binary p emin x = (a : F) * (2 : F) ^ (emin - p + 1) := by
  by_cases h0 : x = 0
  · exact ⟨0, by simp [h0, round_binary_zero]⟩
  · rw [round_binary_of_ne p emin h0]
    set e := max (Int.log 2 |x|) emin with he
    have hle : emin ≤ e := le_max_right _ _
    obtain ⟨k, hk⟩ : ∃ k : Nat, e = emin + k := ⟨(e - emin).toNat, by omega⟩
    refine ⟨round_half_even (x / (2 : F) ^ (e - p + 1)) * 2 ^ k, ?_⟩
    have : e - p + 1 = (k : Int) + (emin - p + 1) := by omega
    rw [this, zpow_add₀ (by norm_num), two_zpow_natCast]
    push_cast
    ring

/-- The difference of two distinct values of the format does not round to
zero (gradual underflow). -/
theorem round_binary_sub_pos (p : Nat) (hp : 1 ≤ p) (emin : Int) {x y : F}
    (hx : round_binary p emin x = x) (hy : round_binary p emin y = y) (hxy : x < y) :
    0 < round_binary p emin (y - x) := by
  obtain ⟨a, ha⟩ := round_binary_multiple p emin x
  obtain ⟨b, hb⟩ := round_binary_multiple p emin y
  rw [hx] at ha
  rw [hy] at hb
  have hg : (0 : F) < (2 : F) ^ (emin - p + 1) := two_zpow_pos _
  have hab : a < b := by
    by_contra hcon
    push_neg at hcon
    have : (b : F) ≤ (a : F) := by exact_mod_cast hcon
    have := mul_le_mul_of_nonneg_right this hg.le
    rw [← ha, ← hb] at this
    linarith
  have hdiff : (2 : F) ^ (emin - p + 1) ≤ y - x := by
    rw [ha, hb, ← sub_mul]
    have : (1 : F) ≤ (b : F) - (a : F) := by
      have : a + 1 ≤ b := hab
      have : ((a + 1 : Int) : F) ≤ (b : F) := by exact_mod_cast this
      push_cast at this
      linarith
    calc (2 : F) ^ (emin - p + 1) = 1 * (2 : F) ^ (emin - p + 1) := by ring
      _ ≤ _ := mul_le_mul_of_nonneg_right this hg.le
  have hfix : round_binary p emin ((2 : F) ^ (emin - p + 1)) = (2 : F) ^ (emin - p + 1) := by
    have := round_binary_fixed (F := F) p emin 1 (emin - p + 1)
      (by
        rw [abs_one]
        exact one_lt_pow₀ (by norm_num) (by omega)) le_rfl
    simpa using this
  exact lt_of_lt_of_le hg (le_round_binary_of_le p hp emin hfix hdiff)

/-- Rounding to binary32 is monotone. -/
theorem fl32_mono {x y : F} (h : x ≤ y) : fl32 x ≤ fl32 y :=
  round_binary_mono 24 (by norm_num) (-126) h

/-- Rounding to binary64 is monotone. -/
theorem fl64_mono {x y : F} (h : x ≤ y) : fl64 x ≤ fl64 y :=
  round_binary_mono 53 (by norm_num) (-1022) h

/-- A number `n * 2 ^ q` with `|n| < 2 ^ 24` and `q ≥ -149` is a binary32 value. -/
theorem fl32_dyadic (n q : Int) (hn : |n| < 16777216) (hq : -149 ≤ q) :
    fl32 ((n : F) * (2 : F) ^ q) = (n : F) * (2 : F) ^ q :=
  round_binary_fixed 24 (-126) n q (by norm_num; exact hn) (by norm_num; omega)

/-- A number `n * 2 ^ q` with `|n| < 2 ^ 53` and `q ≥ -1074` is a binary64 value. -/
theorem fl64_dyadic (n q : Int) (hn : |n| < 9007199254740992) (hq : -1074 ≤ q) :
    fl64 ((n : F) * (2 : F) ^ q) = (n : F) * (2 : F) ^ q :=
  round_binary_fixed 53 (-1022) n q (by norm_num; exact hn) (by norm_num; omega)

/-- An integer of absolute value below 2^24 is a binary32 value. -/
theorem fl32_intCast (n : Int) (hn : |n| < 16777216) : fl32 (n : F) = (n : F) := by
  have := fl32_dyadic (F := F) n 0 hn (by norm_num)
  simpa using this

/-- An integer of absolute value below 2^53 is a binary64 value. -/
theorem fl64_intCast (n : Int) (hn : |n| < 9007199254740992) : fl64 (n : F) = (n : F) := by
  have := fl64_dyadic (F := F) n 0 hn (by norm_num)
  simpa using this

/-- Zero is a binary32 value. -/
theorem fl32_zero : fl32 (0 : F) = 0 := round_binary_zero 24 (-126)

/-- Zero is a binary64 value. -/
theorem fl64_zero : fl64 (0 : F) = 0 := round_binary_zero 53 (-1022)

/-- The rounding of a non-negative number to binary32 is non-negative. -/
theorem fl32_nonneg {x : F} (h : 0 ≤ x) : 0 ≤ fl32 x := round_binary_nonneg 24 (-126) h

/-- The rounding of a non-negative number to binary64 is non-negative. -/
theorem fl64_nonneg {x : F} (h : 0 ≤ x) : 0 ≤ fl64 x := round_binary_nonneg 53 (-1022) h

/-- A binary32 value that bounds a number from above bounds its rounding. -/
theorem fl32_le_of_le {x g : F} (hg : fl32 g = g) (h : x ≤ g) : fl32 x ≤ g :=
  round_binary_le_of_le 24 (by norm_num) (-126) hg h

/-- A binary32 value that bounds a number from below bounds its rounding. -/
theorem le_fl32_of_le {x g : F} (hg : fl32 g = g) (h : g ≤ x) : g ≤ fl32 x :=
  le_round_binary_of_le 24 (by norm_num) (-126) hg h

/-- A binary64 value that bounds a number from above bounds its rounding. -/
theorem fl64_le_of_le {x g : F} (hg : fl64 g = g) (h : x ≤ g) : fl64 x ≤ g :=
  round_binary_le_of_le 53 (by norm_num) (-1022) hg h

/-- A binary64 value that bounds a number from below bounds its rounding. -/
theorem le_fl64_of_le {x g : F} (hg : fl64 g = g) (h : g ≤ x) : g ≤ fl64 x :=
  le_round_binary_of_le 53 (by norm_num) (-1022) hg h

/-- The binary32 difference of two distinct binary32 values is not zero. -/
theorem fl32_sub_pos {x y : F} (hx : fl32 x = x) (hy : fl32 y = y) (hxy : x < y) :
    0 < fl32 (y - x) :=
  round_binary_sub_pos 24 (by norm_num) (-126) hx hy hxy

/-- The binary64 value of `1/6`, the quotient `0.5 / 3.0`, is below `1/6`. -/
theorem fl64_sixth : fl64 ((1 : F) / 6) = 6004799503160661 / 36028797018963968 := by
  have h := round_binary_eval (F := F) 53 (-1022) (x := (1 : F) / 6) (-3) 6004799503160661
    (by rw [abs_of_pos (by norm_num)]; norm_num)
    (by rw [abs_of_pos (by norm_num)]; norm_num)
    (by norm_num) (by norm_num) (by norm_num)
  unfold fl64
  rw [h]
  norm_num

/-- The binary64 value of the literal `0.08`. -/
theorem SEALEVEL_eq : (SEALEVEL : F) = 5764607523034235 / 72057594037927936 := by
  have h := round_binary_eval (F := F) 53 (-1022) (x := (0.08 : F)) (-4) 5764607523034235
    (by rw [abs_of_pos (by norm_num)]; norm_num)
    (by rw [abs_of_pos (by norm_num)]; norm_num)
    (by norm_num) (by norm_num) (by norm_num)
  unfold SEALEVEL fl64
  rw [h]
  norm_num

/-- The rounding of a positive number is at most the power of two that ends
its binade. -/
theorem round_binary_le_two_zpow (p : Nat) (emin : Int) {x : F} (hx : 0 < x) :
    round_binary p emin x ≤ (2 : F) ^ (max (Int.log 2 x) emin + 1) := by
  rw [round_binary_of_ne p emin hx.ne', abs_of_pos hx]
  set ex := max (Int.log 2 x) emin with hex
  have hxlt : x < (2 : F) ^ (ex + 1) := by
    refine lt_of_lt_of_le (lt_two_zpow_log_succ x) ?_
    exact zpow_le_zpow_right₀ (by norm_num) (by have := le_max_left (Int.log 2 x) emin; omega)
  have hq : x / (2 : F) ^ (ex - p + 1) ≤ ((2 ^ p : Int) : F) := by
    rw [div_le_iff₀ (two_zpow_pos _), ← two_zpow_natCast, ← zpow_add₀ (by norm_num)]
    have : (p : Int) + (ex - p + 1) = ex + 1 := by ring
    rw [this]
    exact hxlt.le
  have hr := round_half_even_le hq
  have hr2 : (round_half_even (x / (2 : F) ^ (ex - p + 1)) : F) ≤ ((2 ^ p : Int) : F) := by
    exact_mod_cast hr
  calc (round_half_even (x / (2 : F) ^ (ex - p + 1)) : F) * (2 : F) ^ (ex - p + 1)
      ≤ ((2 ^ p : Int) : F) * (2 : F) ^ (ex - p + 1) :=
        mul_le_mul_of_nonneg_right hr2 (two_zpow_pos _).le
    _ = (2 : F) ^ (ex + 1) := by
        rw [← two_zpow_natCast, ← zpow_add₀ (by norm_num)]
        congr 1
        ring

/-- The rounding of a positive normal number is at least the power of two that
starts its binade. -/
theorem two_zpow_le_round_binary (p : Nat) (hp : 1 ≤ p) (emin : Int) {x : F} (hx : 0 < x)
    (he : emin ≤ Int.log 2 x) : (2 : F) ^ Int.log 2 x ≤ round_binary p emin x := by
  rw [round_binary_of_ne p emin hx.ne', abs_of_pos hx, max_eq_left he]
  set ey := Int.log 2 x with hey
  have hyge : (2 : F) ^ ey ≤ x := two_zpow_log_le hx
  obtain ⟨k, hk⟩ : ∃ k : Nat, p = k + 1 := ⟨p - 1, by omega⟩
  have hq : ((2 ^ k : Int) : F) ≤ x / (2 : F) ^ (ey - p + 1) := by
    rw [le_div_iff₀ (two_zpow_pos _), ← two_zpow_natCast, ← zpow_add₀ (by norm_num)]
    have : (k : Int) + (ey - p + 1) = ey := by rw [hk]; push_cast; ring
    rw [this]
    exact hyge
  have hr := le_round_half_even hq
  have hr2 : ((2 ^ k : Int) : F) ≤ (round_half_even (x / (2 : F) ^ (ey - p + 1)) : F) := by
    exact_mod_cast hr
  calc (2 : F) ^ ey = ((2 ^ k : Int) : F) * (2 : F) ^ (ey - p + 1) := by
        rw [← two_zpow_natCast, ← zpow_add₀ (by norm_num)]
        congr 1
        rw [hk]; push_cast; ring
    _ ≤ _ := mul_le_mul_of_nonneg_right hr2 (two_zpow_pos _).le

/-- A binary32 value between 2^-5 and 2^-3 is an integer multiple of 2^-28. -/
theorem fl32_grid_near_sea (x : F) (h1 : (2 : F) ^ (-5 : Int) < fl32 x)
    (h2 : fl32 x < (2 : F) ^ (-3 : Int)) :
    ∃ K : Int, fl32 x = (K : F) * (2 : F) ^ (-28 : Int) := by
  have hx : 0 < x := by
    by_contra hcon
    push_neg at hcon
    have h0 : fl32 x ≤ 0 := by
      have := fl32_mono hcon
      rwa [fl32_zero] at this
    have := two_zpow_pos (F := F) (-5)
    linarith
  have hup := round_binary_le_two_zpow (F := F) 24 (-126) hx
  have hlow : -126 ≤ Int.log 2 x → (2 : F) ^ Int.log 2 x ≤ fl32 x :=
    fun he => two_zpow_le_round_binary 24 (by norm_num) (-126) hx he
  have hform := round_binary_of_ne (F := F) 24 (-126) hx.ne'
  rw [abs_of_pos hx] at hform
  unfold fl32 at h1 h2 hlow ⊢
  set e := max (Int.log 2 x) (-126) with he
  -- the binade is -5 or -4
  have he1 : -6 < e := by
    by_contra hcon
    push_neg at hcon
    have : (2 : F) ^ (e + 1) ≤ (2 : F) ^ (-5 : Int) :=
      zpow_le_zpow_right₀ (by norm_num) (by omega)
    linarith
  have he2 : e < -3 := by
    by_contra hcon
    push_neg at hcon
    have hlog : e = Int.log 2 x := by
      rcases le_total (Int.log 2 x) (-126) with h | h
      · have : e = -126 := max_eq_right h
        omega
      · exact max_eq_left h
    have h3 := hlow (by omega)
    have : (2 : F) ^ (-3 : Int) ≤ (2 : F) ^ Int.log 2 x :=
      zpow_le_zpow_right₀ (by norm_num) (by omega)
    linarith
  rw [hform]
  have hcases : e = -5 ∨ e = -4 := by omega
  rcases hcases with h | h
  · refine ⟨round_half_even (x / (2 : F) ^ (e - (24 : Nat) + 1)), ?_⟩
    rw [h]
    norm_num
  · refine ⟨round_half_even (x / (2 : F) ^ (e - (24 : Nat) + 1)) * 2, ?_⟩
    rw [h]
    push_cast
    norm_num
    ring

/-- No binary32 value lies between 0.08 and the binary64 value of the literal
`0.08`: for a binary32 value the comparison with `SEALEVEL` is the comparison
with 0.08. -/
theorem fl32_gt_sealevel_iff (x : F) : fl32 x > SEALEVEL ↔ fl32 x > 0.08 := by
  rw [SEALEVEL_eq]
  constructor
  · intro h
    have : (0.08 : F) < 5764607523034235 / 72057594037927936 := by norm_num
    exact lt_trans this h
  · intro h
    by_contra hcon
    push_neg at hcon
    have h1 : (2 : F) ^ (-5 : Int) < fl32 x := by
      have : (2 : F) ^ (-5 : Int) < 0.08 := by norm_num
      exact lt_trans this h
    have h2 : fl32 x < (2 : F) ^ (-3 : Int) := by
      have : (5764607523034235 / 72057594037927936 : F) < (2 : F) ^ (-3 : Int) := by norm_num
      exact lt_of_le_of_lt hcon this
    obtain ⟨K, hK⟩ := fl32_grid_near_sea x h1 h2
    rw [hK] at h hcon
    have e28 : (2 : F) ^ (-28 : Int) = 1 / 268435456 := by norm_num
    rw [e28] at h hcon
    have hK1 : ((21474836 : Int) : F) < (K : F) := by
      have : (0.08 : F) * 268435456 < (K : F) := by
        have := mul_lt_mul_of_pos_right h (show (0 : F) < 268435456 by norm_num)
        simpa using this
      norm_num at this ⊢
      linarith
    have hK2 : (K : F) < ((21474837 : Int) : F) := by
      have : (K : F) ≤ 5764607523034235 / 72057594037927936 * 268435456 := by
        have := mul_le_mul_of_nonneg_right hcon (show (0 : F) ≤ 268435456 by norm_num)
        simpa using this
      norm_num at this ⊢
      linarith
    have a := Int.cast_lt.mp hK1
    have b := Int.cast_lt.mp hK2
    omega

end Rounding

section Proofs

variable {F : Type} [LinearOrderedField F] [FloorRing F]

/-! ## Height extrema (C6) -/

/-- The body of the innermost loop of `find_min_max_height` brackets the
magnitude it has just read. -/
theorem min_max_step_bracket (h : F) (mm : F × F) :
    (if h < mm.1 then h else mm.1) ≤ h ∧ h ≤ (if h > mm.2 then h else mm.2) := by
  constructor
  · split_ifs with h1
    · exact le_refl h
    · exact not_lt.mp h1
  · split_ifs with h2
    · exact le_refl h
    · exact not_lt.mp h2

/-- The body of the innermost loop of `find_min_max_height` only lowers `mmin`
and only raises `mmax`. -/
theorem min_max_step_widen (a h : F) (mm : F × F) (ha : mm.1 ≤ a ∧ a ≤ mm.2) :
    (if h < mm.1 then h else mm.1) ≤ a ∧ a ≤ (if h > mm.2 then h else mm.2) := by
  constructor
  · split_ifs with h1
    · exact le_trans (le_of_lt h1) ha.1
    · exact ha.1
  · split_ifs with h2
    · exact le_trans ha.2 (le_of_lt h2)
    · exact ha.2

/-- C6: `find_min_max_height` returns `(min, max)` with `min ≤ max`, and the
magnitude of every vertex of the 6 x DIM x DIM grid lies in `[min, max]`,
whatever the grid holds. -/
theorem find_min_max_height_bounds (M : Libm F) (vertex : Grid F) :
    (find_min_max_height M vertex).1 ≤ (find_min_max_height M vertex).2 ∧
    ∀ f i j, f < 6 → i < DIM → j < DIM →
      (find_min_max_height M vertex).1 ≤ vec3_magnitude M (vertex f i j) ∧
      vec3_magnitude M (vertex f i j) ≤ (find_min_max_height M vertex).2 := by
  have key : ∀ f i j, f < 6 → i < DIM → j < DIM →
      (find_min_max_height M vertex).1 ≤ vec3_magnitude M (vertex f i j) ∧
      vec3_magnitude M (vertex f i j) ≤ (find_min_max_height M vertex).2 := by
    intro f i j hf hi hj
    unfold find_min_max_height
    have pres_j : ∀ f' i' j' (mm : F × F),
        (mm.1 ≤ vec3_magnitude M (vertex f i j) ∧ vec3_magnitude M (vertex f i j) ≤ mm.2) →
        ((if vec3_magnitude M (vertex f' i' j') < mm.1 then vec3_magnitude M (vertex f' i' j')
            else mm.1) ≤ vec3_magnitude M (vertex f i j) ∧
          vec3_magnitude M (vertex f i j) ≤
            (if vec3_magnitude M (vertex f' i' j') > mm.2 then vec3_magnitude M (vertex f' i' j')
              else mm.2)) :=
      fun f' i' j' mm hmm => min_max_step_widen _ _ mm hmm
    apply for_loop_reach
      (fun mm : F × F => mm.1 ≤ vec3_magnitude M (vertex f i j) ∧
        vec3_magnitude M (vertex f i j) ≤ mm.2) 6 f _ hf
    · intro s
      apply for_loop_reach
        (fun mm : F × F => mm.1 ≤ vec3_magnitude M (vertex f i j) ∧
          vec3_magnitude M (vertex f i j) ≤ mm.2) DIM i _ hi
      · intro s
        apply for_loop_reach
          (fun mm : F × F => mm.1 ≤ vec3_magnitude M (vertex f i j) ∧
            vec3_magnitude M (vertex f i j) ≤ mm.2) DIM j _ hj
        · intro s
          exact min_max_step_bracket _ s
        · intro j' _ s hs
          exact pres_j f i j' s hs
      · intro i' _ s hs
        exact for_loop_invariant _ DIM _ (fun j' _ t ht => pres_j f i' j' t ht) s hs
    · intro f' _ s hs
      exact for_loop_invariant _ DIM _
        (fun i' _ t ht => for_loop_invariant _ DIM _ (fun j' _ u hu => pres_j f' i' j' u hu) t ht)
        s hs
  refine ⟨?_, key⟩
  have h0 := key 0 0 0 (by decide) (by decide) (by decide)
  exact le_trans h0.1 h0.2

/-! ## Normal map (C8) -/

/-- The offsets `calculate_normal` reads are those of the clamped neighbours. -/
theorem normal_read_offsets_eq (i j : Nat) (hi : i < DIM) (hj : j < DIM) :
    normal_read_offsets (i : Int) (j : Int) =
      ((((j : Int) * DIM + max ((i : Int) - 1) 0) * 4,
        ((j : Int) * DIM + min ((i : Int) + 1) ((DIM : Int) - 1)) * 4),
       ((max ((j : Int) - 1) 0 * DIM + (i : Int)) * 4,
        (min ((j : Int) + 1) ((DIM : Int) - 1) * DIM + (i : Int)) * 4)) := by
  have e1 : (if (i : Int) - 1 < 0 then (i : Int) else (i : Int) - 1) = max ((i : Int) - 1) 0 := by
    split_ifs with h <;> omega
  have e2 : (if (i : Int) + 1 ≥ (DIM : Int) then (i : Int) else (i : Int) + 1)
      = min ((i : Int) + 1) ((DIM : Int) - 1) := by
    have : (i : Int) < (DIM : Int) := by exact_mod_cast hi
    split_ifs with h <;> omega
  have e3 : (if (j : Int) - 1 < 0 then (j : Int) else (j : Int) - 1) = max ((j : Int) - 1) 0 := by
    split_ifs with h <;> omega
  have e4 : (if (j : Int) + 1 ≥ (DIM : Int) then (j : Int) else (j : Int) + 1)
      = min ((j : Int) + 1) ((DIM : Int) - 1) := by
    have : (j : Int) < (DIM : Int) := by exact_mod_cast hj
    split_ifs with h <;> omega
  simp only [normal_read_offsets, e1, e2, e3, e4]

/-- The offsets `calculate_normal` reads lie inside the 4*DIM*DIM bytes of a
face buffer. -/
theorem normal_read_offsets_in_buffer (i j : Nat) (hi : i < DIM) (hj : j < DIM) :
    (0 ≤ (normal_read_offsets (i : Int) (j : Int)).1.1 ∧
      (normal_read_offsets (i : Int) (j : Int)).1.1 < 4 * DIM * DIM) ∧
    (0 ≤ (normal_read_offsets (i : Int) (j : Int)).1.2 ∧
      (normal_read_offsets (i : Int) (j : Int)).1.2 < 4 * DIM * DIM) ∧
    (0 ≤ (normal_read_offsets (i : Int) (j : Int)).2.1 ∧
      (normal_read_offsets (i : Int) (j : Int)).2.1 < 4 * DIM * DIM) ∧
    (0 ≤ (normal_read_offsets (i : Int) (j : Int)).2.2 ∧
      (normal_read_offsets (i : Int) (j : Int)).2.2 < 4 * DIM * DIM) := by
  rw [normal_read_offsets_eq i j hi hj]
  have hi' : (i : Int) < 1024 := by have := hi; simp only [DIM] at this; omega
  have hj' : (j : Int) < 1024 := by have := hj; simp only [DIM] at this; omega
  simp only [DIM, Nat.cast_ofNat]
  omega

/-- After `calculate_normals`, the entry of texel `(f, i, j)` is what
`calculate_normal` stores for it. -/
theorem calculate_normals_at (output_image : Image) (normal : Grid F) (f i j : Nat)
    (hf : f < 6) (hi : i < DIM) (hj : j < DIM) :
    calculate_normals output_image normal f i j =
      calculate_normal output_image f i j normal f i j := by
  have hval : ∀ s : Grid F, calculate_normal output_image f i j s f i j =
      calculate_normal output_image f i j normal f i j := by
    intro s
    simp only [calculate_normal, Grid.set, and_self, if_true]
  have pres : ∀ f' i' j' (s : Grid F),
      s f i j = calculate_normal output_image f i j normal f i j →
      calculate_normal output_image f' i' j' s f i j =
        calculate_normal output_image f i j normal f i j := by
    intro f' i' j' s hs
    by_cases hsame : f = f' ∧ i = i' ∧ j = j'
    · obtain ⟨rfl, rfl, rfl⟩ := hsame
      exact hval s
    · have : calculate_normal output_image f' i' j' s f i j = s f i j := by
        simp only [calculate_normal, Grid.set, hsame, if_false]
      rw [this, hs]
  unfold calculate_normals
  apply for_loop_reach
    (fun s : Grid F => s f i j = calculate_normal output_image f i j normal f i j) 6 f _ hf
  · intro s
    apply for_loop_reach
      (fun s : Grid F => s f i j = calculate_normal output_image f i j normal f i j) DIM i _ hi
    · intro s
      apply for_loop_reach
        (fun s : Grid F => s f i j = calculate_normal output_image f i j normal f i j) DIM j _ hj
      · intro s
        exact hval s
      · intro j' _ s hs
        exact pres f i j' s hs
    · intro i' _ s hs
      exact for_loop_invariant _ DIM _ (fun j' _ t ht => pres f i' j' t ht) s hs
  · intro f' _ s hs
    exact for_loop_invariant _ DIM _
      (fun i' _ t ht => for_loop_invariant _ DIM _ (fun j' _ u hu => pres f' i' j' u hu) t ht)
      s hs

/-- C8: `calculate_normal` is a clamped-edge finite difference over the red
channel of the painted height raster.  For a texel `(i, j)` of the grid, the
four offsets it reads are those of `(i1, j)`, `(i2, j)`, `(i, j1)`, `(i, j2)` with
`i1 = max(i-1, 0)`, `i2 = min(i+1, DIM-1)`, `j1 = max(j-1, 0)`,
`j2 = min(j+1, DIM-1)`; all lie inside the 4*DIM*DIM bytes of the buffer of face
`f`, and the result depends on no other byte; it stores
`(dzdx/127 + 0.5, dzdy/127 + 0.5, 1.0)` in `normal[f][i][j]` with
`dzdx = H(i1, j) - H(i2, j)` and `dzdy = H(i, j2) - H(i, j1)`, and touches no other
entry of `normal`; equal neighbour bytes give `(0.5, 0.5, 1.0)`.  After
`calculate_normals` the entry of every texel of a face `f < 6` is the one
`calculate_normal` stores for it. -/
theorem calculate_normal_clamped_difference (output_image : Image) (normal : Grid F)
    (f i j : Nat) (hi : i < DIM) (hj : j < DIM) :
    normal_read_offsets (i : Int) (j : Int) =
      ((((j : Int) * DIM + max ((i : Int) - 1) 0) * 4,
        ((j : Int) * DIM + min ((i : Int) + 1) ((DIM : Int) - 1)) * 4),
       ((max ((j : Int) - 1) 0 * DIM + (i : Int)) * 4,
        (min ((j : Int) + 1) ((DIM : Int) - 1) * DIM + (i : Int)) * 4)) ∧
    ((0 ≤ (normal_read_offsets (i : Int) (j : Int)).1.1 ∧
        (normal_read_offsets (i : Int) (j : Int)).1.1 < 4 * DIM * DIM) ∧
      (0 ≤ (normal_read_offsets (i : Int) (j : Int)).1.2 ∧
        (normal_read_offsets (i : Int) (j : Int)).1.2 < 4 * DIM * DIM) ∧
      (0 ≤ (normal_read_offsets (i : Int) (j : Int)).2.1 ∧
        (normal_read_offsets (i : Int) (j : Int)).2.1 < 4 * DIM * DIM) ∧
      (0 ≤ (normal_read_offsets (i : Int) (j : Int)).2.2 ∧
        (normal_read_offsets (i : Int) (j : Int)).2.2 < 4 * DIM * DIM)) ∧
    (∀ other : Image,
      (∀ p : Int, 0 ≤ p → p < 4 * DIM * DIM → other f p = output_image f p) →
      calculate_normal other f i j normal = calculate_normal output_image f i j normal) ∧
    calculate_normal output_image f i j normal f i j =
      ⟨(((output_image f (((j : Int) * DIM + max ((i : Int) - 1) 0) * 4) : Int) -
          (output_image f (((j : Int) * DIM + min ((i : Int) + 1) ((DIM : Int) - 1)) * 4) : Int)
            : Int) : F) / 127.0 + 0.5,
       (((output_image f ((min ((j : Int) + 1) ((DIM : Int) - 1) * DIM + (i : Int)) * 4) : Int) -
          (output_image f ((max ((j : Int) - 1) 0 * DIM + (i : Int)) * 4) : Int) : Int) : F)
            / 127.0 + 0.5,
       1.0⟩ ∧
    (∀ f' i' j', (f', i', j') ≠ (f, i, j) →
      calculate_normal output_image f i j normal f' i' j' = normal f' i' j') ∧
    (output_image f (((j : Int) * DIM + max ((i : Int) - 1) 0) * 4) =
        output_image f (((j : Int) * DIM + min ((i : Int) + 1) ((DIM : Int) - 1)) * 4) →
      output_image f ((max ((j : Int) - 1) 0 * DIM + (i : Int)) * 4) =
        output_image f ((min ((j : Int) + 1) ((DIM : Int) - 1) * DIM + (i : Int)) * 4) →
      calculate_normal output_image f i j normal f i j = (⟨0.5, 0.5, 1.0⟩ : Vec3 F)) ∧
    (f < 6 → calculate_normals output_image normal f i j =
      calculate_normal output_image f i j normal f i j) := by
  have hoff := normal_read_offsets_eq i j hi hj
  have hin := normal_read_offsets_in_buffer i j hi hj
  have hval : calculate_normal output_image f i j normal f i j =
      (⟨(((output_image f (((j : Int) * DIM + max ((i : Int) - 1) 0) * 4) : Int) -
          (output_image f (((j : Int) * DIM + min ((i : Int) + 1) ((DIM : Int) - 1)) * 4) : Int)
            : Int) : F) / 127.0 + 0.5,
       (((output_image f ((min ((j : Int) + 1) ((DIM : Int) - 1) * DIM + (i : Int)) * 4) : Int) -
          (output_image f ((max ((j : Int) - 1) 0 * DIM + (i : Int)) * 4) : Int) : Int) : F)
            / 127.0 + 0.5,
       1.0⟩ : Vec3 F) := by
    simp only [calculate_normal, Grid.set, hoff, and_self, if_true]
  refine ⟨hoff, hin, ?_, hval, ?_, ?_, fun hf => calculate_normals_at output_image normal f i j
    hf hi hj⟩
  · intro other hsame
    obtain ⟨⟨a1, a2⟩, ⟨b1, b2⟩, ⟨c1, c2⟩, ⟨d1, d2⟩⟩ := hin
    simp only [calculate_normal, hsame _ a1 a2, hsame _ b1 b2, hsame _ c1 c2, hsame _ d1 d2]
  · intro f' i' j' hne
    have : ¬ (f' = f ∧ i' = i ∧ j' = j) := by
      rintro ⟨rfl, rfl, rfl⟩
      exact hne rfl
    simp only [calculate_normal, Grid.set, this, if_false]
  · intro hx hy
    rw [hval, hx, hy]
    simp

/-! ## Bump field: capacity (C1) -/

/-- A loop of zero iterations returns the state as it is. -/
theorem for_loop_opt_zero {σ : Type} (body : Nat → σ → Option σ) (s : σ) :
    for_loop_opt 0 body s = some s := rfl

/-- A loop of `n + 1` iterations is a loop of `n` iterations followed, when that
returns, by the body for index `n`. -/
theorem for_loop_opt_succ {σ : Type} (n : Nat) (body : Nat → σ → Option σ) (s : σ) :
    for_loop_opt (n + 1) body s = (for_loop_opt n body s).bind (body n) := by
  simp only [for_loop_opt, List.range_succ, List.foldlM_append]
  cases h : List.foldlM (fun st i => body i st) s (List.range n) <;>
    simp [List.foldlM_cons, List.foldlM_nil]

/-- A property preserved by every iteration that returns is preserved by a
loop that returns. -/
theorem for_loop_opt_invariant {σ : Type} (P : σ → Prop) (n : Nat)
    (body : Nat → σ → Option σ)
    (h : ∀ i s s', P s → body i s = some s' → P s') (s s' : σ) (hs : P s)
    (hrun : for_loop_opt n body s = some s') : P s' := by
  induction n generalizing s' with
  | zero =>
    rw [for_loop_opt_zero] at hrun
    cases hrun
    exact hs
  | succ n ih =>
    rw [for_loop_opt_succ] at hrun
    cases hmid : for_loop_opt n body s with
    | none => rw [hmid] at hrun; cases hrun
    | some t =>
      rw [hmid] at hrun
      exact h n t s' (ih t hmid) hrun

/-- What `add_bump` does to `totalbumps`. -/
theorem add_bump_totalbumps (Q : SnisLib F) (S : Sample) (p : Vec3 F) (r h : F)
    (s : BumpState F) :
    (add_bump Q S p r h s).totalbumps =
      if s.totalbumps ≥ MAXBUMPS then s.totalbumps else s.totalbumps + 1 := by
  unfold add_bump
  split_ifs <;> rfl

/-- Every call of `add_bump` is counted. -/
theorem add_bump_calls_succ (Q : SnisLib F) (S : Sample) (p : Vec3 F) (r h : F)
    (s : BumpState F) :
    (add_bump Q S p r h s).add_bump_calls = s.add_bump_calls + 1 := by
  unfold add_bump
  split_ifs <;> rfl

/-- The call `add_bump` keeps `totalbumps ≤ MAXBUMPS`. -/
theorem add_bump_le_MAXBUMPS (Q : SnisLib F) (S : Sample) (p : Vec3 F) (r h : F)
    (s : BumpState F) (hs : s.totalbumps ≤ MAXBUMPS) :
    (add_bump Q S p r h s).totalbumps ≤ MAXBUMPS := by
  rw [add_bump_totalbumps]
  split_ifs with hc
  · exact hs
  · omega

/-- Whenever `recursive_add_bump` returns, it keeps `totalbumps ≤ MAXBUMPS`. -/
theorem recursive_add_bump_le_MAXBUMPS (M : Libm F) (Q : SnisLib F) (S : Sample)
    (fuel : Nat) : ∀ (pos : Vec3 F) (r h shrink rlimit : F) (s s' : BumpState F),
    s.totalbumps ≤ MAXBUMPS →
    recursive_add_bump M Q S fuel pos r h shrink rlimit s = some s' →
    s'.totalbumps ≤ MAXBUMPS := by
  induction fuel with
  | zero =>
    intro pos r h shrink rlimit s s' _ hrun
    simp [recursive_add_bump] at hrun
  | succ fuel ih =>
    intro pos r h shrink rlimit s s' hs hrun
    simp only [recursive_add_bump] at hrun
    split_ifs at hrun with hstop
    · cases hrun
      exact add_bump_le_MAXBUMPS Q S pos r h s hs
    · refine for_loop_opt_invariant (fun t : BumpState F => t.totalbumps ≤ MAXBUMPS) 3 _ ?_ _ s'
        (add_bump_le_MAXBUMPS Q S pos r h s hs) hrun
      intro i t t' ht hchild
      simp only [recursive_add_bump_child] at hchild
      exact ih _ _ _ _ _ _ t' (by exact ht) hchild

/-- Whenever `add_bumps` returns, it keeps `totalbumps ≤ MAXBUMPS`. -/
theorem add_bumps_le_MAXBUMPS (M : Libm F) (Q : SnisLib F) (S : Sample)
    (fuel nbumps : Nat) (s s' : BumpState F) (hs : s.totalbumps ≤ MAXBUMPS)
    (hrun : add_bumps M Q S fuel nbumps s = some s') : s'.totalbumps ≤ MAXBUMPS := by
  refine for_loop_opt_invariant (fun t : BumpState F => t.totalbumps ≤ MAXBUMPS) nbumps _ ?_ s s'
    hs hrun
  intro i t t' ht hstep
  simp only at hstep
  exact recursive_add_bump_le_MAXBUMPS M Q S fuel _ _ _ _ _ _ t' (by exact ht) hstep

/-! ## Bump field: size of the recursion (C2) -/

/-- The number of nodes of the complete ternary tree of depth `n + 1` is one
more than three times that of depth `n`. -/
theorem ternary_tree_size_succ (n : Nat) :
    (3 ^ (n + 2) - 1) / 2 = 1 + 3 * ((3 ^ (n + 1) - 1) / 2) := by
  have hodd : ∃ a, 3 ^ (n + 1) = 2 * a + 1 := by
    induction n with
    | zero => exact ⟨1, rfl⟩
    | succ n ih =>
      obtain ⟨a, ha⟩ := ih
      exact ⟨3 * a + 1, by rw [pow_succ, ha]; ring⟩
  obtain ⟨a, ha⟩ := hodd
  have h2 : 3 ^ (n + 2) = 3 * 3 ^ (n + 1) := by rw [pow_succ]; ring
  rw [h2, ha]
  omega

/-- One child iteration returns whenever the recursive call does, and has the
effect of the recursive call on the counters. -/
theorem recursive_add_bump_child_effect (M : Libm F)
    (recurse : Vec3 F → F → F → F → F → BumpState F → Option (BumpState F))
    (r shrink rlimit : F) (c : Nat)
    (hrec : ∀ pos h s, ∃ s', recurse pos (r * shrink) h shrink rlimit s = some s' ∧
      s'.add_bump_calls = s.add_bump_calls + c ∧
      (s.totalbumps ≤ MAXBUMPS → s'.totalbumps = min (s.totalbumps + c) MAXBUMPS))
    (pos : Vec3 F) (h : F) (s : BumpState F) :
    ∃ s', recursive_add_bump_child M recurse pos r h shrink rlimit s = some s' ∧
      s'.add_bump_calls = s.add_bump_calls + c ∧
      (s.totalbumps ≤ MAXBUMPS → s'.totalbumps = min (s.totalbumps + c) MAXBUMPS) := by
  simp only [recursive_add_bump_child]
  exact hrec _ _ _

/-- With `n` the depth at which the shrinking radius falls below `rlimit`,
`recursive_add_bump` returns for every recursion bound above `n` and makes
`(3^(n+1) - 1)/2` calls of `add_bump`. -/
theorem recursive_add_bump_count_aux (M : Libm F) (Q : SnisLib F) (S : Sample)
    (shrink rlimit : F) (n : Nat) :
    ∀ (fuel : Nat), n < fuel → ∀ (pos : Vec3 F) (r h : F) (s : BumpState F),
    (∀ k, 1 ≤ k → (rlimit ≤ r * shrink ^ k ↔ k ≤ n)) →
    ∃ s', recursive_add_bump M Q S fuel pos r h shrink rlimit s = some s' ∧
      s'.add_bump_calls = s.add_bump_calls + (3 ^ (n + 1) - 1) / 2 ∧
      (s.totalbumps ≤ MAXBUMPS →
        s'.totalbumps = min (s.totalbumps + (3 ^ (n + 1) - 1) / 2) MAXBUMPS) := by
  induction n with
  | zero =>
    intro fuel hfuel pos r h s hn
    obtain ⟨fuel, rfl⟩ : ∃ m, fuel = m + 1 := ⟨fuel - 1, by omega⟩
    have hstop : r * shrink < rlimit := by
      have h1 := hn 1 (le_refl 1)
      rw [pow_one] at h1
      exact not_le.mp (fun hle => absurd (h1.mp hle) (by decide))
    refine ⟨add_bump Q S pos r h s, ?_, ?_, ?_⟩
    · simp only [recursive_add_bump, hstop, if_true]
    · rw [add_bump_calls_succ]
      rfl
    · intro hs
      rw [add_bump_totalbumps]
      have h1 : (3 ^ (0 + 1) - 1) / 2 = 1 := rfl
      rw [h1]
      split_ifs with hc <;> omega
  | succ n ih =>
    intro fuel hfuel pos r h s hn
    obtain ⟨fuel, rfl⟩ : ∃ m, fuel = m + 1 := ⟨fuel - 1, by omega⟩
    have hgo : ¬ r * shrink < rlimit := by
      have h1 := hn 1 (le_refl 1)
      rw [pow_one] at h1
      exact not_lt.mpr (h1.mpr (Nat.succ_le_succ (Nat.zero_le n)))
    have hn' : ∀ k, 1 ≤ k → (rlimit ≤ r * shrink * shrink ^ k ↔ k ≤ n) := by
      intro k hk
      have h1 := hn (k + 1) (Nat.le_add_left 1 k)
      have e : r * shrink ^ (k + 1) = r * shrink * shrink ^ k := by rw [pow_succ]; ring
      rw [e] at h1
      exact h1.trans (Nat.succ_le_succ_iff)
    have hchild := recursive_add_bump_child_effect M (recursive_add_bump M Q S fuel) r shrink
      rlimit ((3 ^ (n + 1) - 1) / 2)
      (fun pos' h' s' => ih fuel (Nat.lt_of_succ_lt_succ hfuel) pos' (r * shrink) h' s' hn') pos h
    obtain ⟨s2, e2, c2, t2⟩ := hchild (add_bump Q S pos r h s)
    obtain ⟨s3, e3, c3, t3⟩ := hchild s2
    obtain ⟨s4, e4, c4, t4⟩ := hchild s3
    have hc1 := add_bump_calls_succ Q S pos r h s
    have ht1 := add_bump_totalbumps Q S pos r h s
    have hsize := ternary_tree_size_succ n
    refine ⟨s4, ?_, ?_, ?_⟩
    · simp only [recursive_add_bump, hgo, if_false, for_loop_opt_succ, for_loop_opt_zero,
        Option.some_bind, e2, e3, e4]
    · rw [c4, c3, c2, hc1, hsize]
      ring
    · intro hs
      have hs1 : (add_bump Q S pos r h s).totalbumps ≤ MAXBUMPS :=
        add_bump_le_MAXBUMPS Q S pos r h s hs
      have u2 := t2 hs1
      have hs2 : s2.totalbumps ≤ MAXBUMPS := by rw [u2]; exact min_le_right _ _
      have u3 := t3 hs2
      have hs3 : s3.totalbumps ≤ MAXBUMPS := by rw [u3]; exact min_le_right _ _
      have u4 := t4 hs3
      rw [u4, u3, u2, ht1, hsize]
      split_ifs with hc <;> omega

/-- For `r ≥ 0`, `0 < shrink < 1` and `rlimit > 0` the radii `r * shrink^k`,
`k ≥ 1`, that reach `rlimit` are those of an initial segment `1..n`. -/
theorem exists_recursion_depth (r shrink rlimit : F) (hr : 0 ≤ r) (hs0 : 0 < shrink)
    (hs1 : shrink < 1) (hl : 0 < rlimit) :
    ∃ n : Nat, ∀ k, 1 ≤ k → (rlimit ≤ r * shrink ^ k ↔ k ≤ n) := by
  have hex : ∃ m : Nat, r * shrink ^ (m + 1) < rlimit := by
    rcases eq_or_lt_of_le hr with h0 | hpos
    · exact ⟨0, by rw [← h0, zero_mul]; exact hl⟩
    · obtain ⟨m, hm⟩ := exists_pow_lt_of_lt_one (div_pos hl hpos) hs1
      refine ⟨m, ?_⟩
      have h1 : shrink ^ (m + 1) ≤ shrink ^ m :=
        pow_le_pow_of_le_one (le_of_lt hs0) (le_of_lt hs1) (Nat.le_succ m)
      have h2 : shrink ^ (m + 1) < rlimit / r := lt_of_le_of_lt h1 hm
      have h3 := (lt_div_iff₀ hpos).mp h2
      linarith
  classical
  refine ⟨Nat.find hex, ?_⟩
  intro k hk
  constructor
  · intro hle
    by_contra hgt
    have hlt : Nat.find hex < k := Nat.lt_of_not_le hgt
    have hspec := Nat.find_spec hex
    have hmono : shrink ^ k ≤ shrink ^ (Nat.find hex + 1) :=
      pow_le_pow_of_le_one (le_of_lt hs0) (le_of_lt hs1) hlt
    have : r * shrink ^ k ≤ r * shrink ^ (Nat.find hex + 1) :=
      mul_le_mul_of_nonneg_left hmono hr
    linarith
  · intro hle
    obtain ⟨m, rfl⟩ : ∃ m, k = m + 1 := ⟨k - 1, by omega⟩
    have hm : m < Nat.find hex := hle
    exact not_lt.mp (Nat.find_min hex hm)

/-- When the radii that reach `rlimit` are those of `1..n`, their number is `n`. -/
theorem ncard_recursion_depth (r shrink rlimit : F) (n : Nat)
    (hn : ∀ k, 1 ≤ k → (rlimit ≤ r * shrink ^ k ↔ k ≤ n)) :
    Set.ncard {k : Nat | 1 ≤ k ∧ rlimit ≤ r * shrink ^ k} = n := by
  have hset : {k : Nat | 1 ≤ k ∧ rlimit ≤ r * shrink ^ k} = ((Finset.Icc 1 n : Finset Nat) : Set Nat) := by
    ext k
    simp only [Set.mem_setOf_eq, Finset.coe_Icc, Set.mem_Icc]
    constructor
    · rintro ⟨h1, h2⟩
      exact ⟨h1, (hn k h1).mp h2⟩
    · rintro ⟨h1, h2⟩
      exact ⟨h1, (hn k h1).mpr h2⟩
  rw [hset, Set.ncard_coe_Finset, Nat.card_Icc]
  omega

/-- For `0 < shrink < 1` and `rlimit > 0` the radii `r * shrink^k`, `k ≥ 1`, that
reach `rlimit` are those of an initial segment `1..n`, whatever the sign of `r`. -/
theorem exists_recursion_depth_any (r shrink rlimit : F) (hs0 : 0 < shrink)
    (hs1 : shrink < 1) (hl : 0 < rlimit) :
    ∃ n : Nat, ∀ k, 1 ≤ k → (rlimit ≤ r * shrink ^ k ↔ k ≤ n) := by
  rcases le_or_lt 0 r with hr | hneg
  · exact exists_recursion_depth r shrink rlimit hr hs0 hs1 hl
  · refine ⟨0, fun k hk => ⟨fun hle => ?_, fun hle => ?_⟩⟩
    · have hp : 0 < shrink ^ k := pow_pos hs0 k
      have : r * shrink ^ k < 0 := mul_neg_of_neg_of_pos hneg hp
      linarith
    · omega

/-- A loop whose body returns at least where another body returns, with the
same result, does so too. -/
theorem for_loop_opt_mono {σ : Type} (n : Nat) (body body' : Nat → σ → Option σ)
    (h : ∀ i s t, body i s = some t → body' i s = some t) (s t : σ)
    (hrun : for_loop_opt n body s = some t) : for_loop_opt n body' s = some t := by
  induction n generalizing t with
  | zero => exact hrun
  | succ n ih =>
    rw [for_loop_opt_succ] at hrun ⊢
    cases hmid : for_loop_opt n body s with
    | none => rw [hmid] at hrun; cases hrun
    | some u =>
      rw [hmid] at hrun
      rw [ih u hmid]
      exact h n u t hrun

/-- A larger recursion bound does not change a result of `recursive_add_bump`. -/
theorem recursive_add_bump_fuel_succ (M : Libm F) (Q : SnisLib F) (S : Sample) (fuel : Nat) :
    ∀ (pos : Vec3 F) (r h shrink rlimit : F) (s t : BumpState F),
    recursive_add_bump M Q S fuel pos r h shrink rlimit s = some t →
    recursive_add_bump M Q S (fuel + 1) pos r h shrink rlimit s = some t := by
  induction fuel with
  | zero =>
    intro pos r h shrink rlimit s t hrun
    simp [recursive_add_bump] at hrun
  | succ fuel ih =>
    intro pos r h shrink rlimit s t hrun
    rw [recursive_add_bump] at hrun ⊢
    split_ifs at hrun ⊢ with hstop
    · exact hrun
    · refine for_loop_opt_mono 3 _ _ ?_ _ t hrun
      intro i u v hchild
      simp only [recursive_add_bump_child] at hchild ⊢
      exact ih _ _ _ _ _ _ v hchild

/-- Any larger recursion bound gives the same result of `recursive_add_bump`. -/
theorem recursive_add_bump_fuel_le (M : Libm F) (Q : SnisLib F) (S : Sample)
    (fuel fuel' : Nat) (hle : fuel ≤ fuel') (pos : Vec3 F) (r h shrink rlimit : F)
    (s t : BumpState F) (hrun : recursive_add_bump M Q S fuel pos r h shrink rlimit s = some t) :
    recursive_add_bump M Q S fuel' pos r h shrink rlimit s = some t := by
  induction hle with
  | refl => exact hrun
  | step _ ih => exact recursive_add_bump_fuel_succ M Q S _ pos r h shrink rlimit s t ih

/-- A larger recursion bound does not change a result of `add_bumps`. -/
theorem add_bumps_fuel_le (M : Libm F) (Q : SnisLib F) (S : Sample) (fuel fuel' : Nat)
    (hle : fuel ≤ fuel') (nbumps : Nat) (s t : BumpState F)
    (hrun : add_bumps M Q S fuel nbumps s = some t) :
    add_bumps M Q S fuel' nbumps s = some t := by
  refine for_loop_opt_mono nbumps _ _ ?_ s t hrun
  intro i u v hstep
  exact recursive_add_bump_fuel_le M Q S fuel fuel' hle _ _ _ _ _ _ v hstep

/-- The function `add_bumps` returns: for every number of seeds there is a recursion bound
that suffices. -/
theorem add_bumps_returns (M : Libm F) (Q : SnisLib F) (S : Sample) (nbumps : Nat)
    (s : BumpState F) : ∃ fuel t, add_bumps M Q S fuel nbumps s = some t := by
  induction nbumps with
  | zero => exact ⟨0, s, rfl⟩
  | succ n ih =>
    obtain ⟨fuel1, t1, h1⟩ := ih
    obtain ⟨m, hm⟩ := exists_recursion_depth_any (seed_radius (snis_random_float t1.rand).1)
      (0.52 : F) 0.01 (by norm_num) (by norm_num) (by norm_num)
    obtain ⟨t2, h2, _⟩ := recursive_add_bump_count_aux M Q S (0.52 : F) 0.01 m (m + 1)
      (Nat.lt_succ_self m)
      (Q.random_point_on_sphere 1.0 (snis_random_float t1.rand).2).1
      (seed_radius (snis_random_float t1.rand).1) 0.08
      { t1 with rand := (Q.random_point_on_sphere 1.0 (snis_random_float t1.rand).2).2 } hm
    refine ⟨max fuel1 (m + 1), t2, ?_⟩
    have h1' := add_bumps_fuel_le M Q S fuel1 (max fuel1 (m + 1)) (le_max_left _ _) n s t1 h1
    have h2' := recursive_add_bump_fuel_le M Q S (m + 1) (max fuel1 (m + 1)) (le_max_right _ _)
      _ _ _ _ _ _ t2 h2
    unfold add_bumps at h1' ⊢
    rw [for_loop_opt_succ, h1']
    exact h2'

/-- C1: `add_bump` enforces the capacity bound.  From a state with
`totalbumps ≤ MAXBUMPS`, the state after `add_bump(p, r, h)` has
`totalbumps ≤ MAXBUMPS`; when `totalbumps = MAXBUMPS` the bump list, `totalbumps`
and the random source are unchanged; otherwise `totalbumps` grows by exactly 1,
the entry at the old `totalbumps` has position `p`, radius `r`, height `h`, and
every other entry is unchanged.  Consequently `recursive_add_bump` and
`add_bumps` return only states with `totalbumps ≤ MAXBUMPS`, and `add_bumps` does
return (with a recursion bound that depends on the random values drawn). -/
theorem add_bump_capacity (M : Libm F) (Q : SnisLib F) (S : Sample) (p : Vec3 F) (r h : F)
    (s : BumpState F) (hs : s.totalbumps ≤ MAXBUMPS) :
    (add_bump Q S p r h s).totalbumps ≤ MAXBUMPS ∧
    (s.totalbumps = MAXBUMPS →
      (add_bump Q S p r h s).bumplist = s.bumplist ∧
      (add_bump Q S p r h s).totalbumps = s.totalbumps ∧
      (add_bump Q S p r h s).rand = s.rand) ∧
    (s.totalbumps ≠ MAXBUMPS →
      (add_bump Q S p r h s).totalbumps = s.totalbumps + 1 ∧
      ((add_bump Q S p r h s).bumplist s.totalbumps).p = p ∧
      ((add_bump Q S p r h s).bumplist s.totalbumps).r = r ∧
      ((add_bump Q S p r h s).bumplist s.totalbumps).h = h ∧
      ∀ k, k ≠ s.totalbumps → (add_bump Q S p r h s).bumplist k = s.bumplist k) ∧
    (∀ (fuel : Nat) (pos : Vec3 F) (r' h' shrink rlimit : F) (s' : BumpState F),
      recursive_add_bump M Q S fuel pos r' h' shrink rlimit s = some s' →
      s'.totalbumps ≤ MAXBUMPS) ∧
    (∀ (fuel nbumps : Nat) (s' : BumpState F),
      add_bumps M Q S fuel nbumps s = some s' → s'.totalbumps ≤ MAXBUMPS) ∧
    (∀ nbumps : Nat, ∃ (fuel : Nat) (s' : BumpState F),
      add_bumps M Q S fuel nbumps s = some s' ∧ s'.totalbumps ≤ MAXBUMPS) := by
  refine ⟨add_bump_le_MAXBUMPS Q S p r h s hs, ?_, ?_, ?_, ?_, ?_⟩
  · intro hfull
    have hc : s.totalbumps ≥ MAXBUMPS := le_of_eq hfull.symm
    simp only [add_bump, hc, if_true, and_self]
  · intro hroom
    have hc : ¬ s.totalbumps ≥ MAXBUMPS := by
      intro hge
      exact hroom (le_antisymm hs hge)
    simp only [add_bump, hc, if_false, Function.update_same, true_and]
    intro k hk
    exact Function.update_noteq hk _ _
  · intro fuel pos r' h' shrink rlimit s' hrun
    exact recursive_add_bump_le_MAXBUMPS M Q S fuel pos r' h' shrink rlimit s s' hs hrun
  · intro fuel nbumps s' hrun
    exact add_bumps_le_MAXBUMPS M Q S fuel nbumps s s' hs hrun
  · intro nbumps
    obtain ⟨fuel, s', hrun⟩ := add_bumps_returns M Q S nbumps s
    exact ⟨fuel, s', hrun, add_bumps_le_MAXBUMPS M Q S fuel nbumps s s' hs hrun⟩

/-- C2: for `0 < shrink < 1` and `rlimit > 0` (and every `r`, in particular
every `r ≥ 0`), with `n` the number of integers `k ≥ 1` such that
`r * shrink^k ≥ rlimit` (these `k` are exactly `1..n`): `recursive_add_bump` places
one bump and then recurses into 3 children of radius `r * shrink` exactly when
`r * shrink ≥ rlimit`; with any recursion bound above `n` it returns, having made
exactly `(3^(n+1) - 1)/2` calls of `add_bump`, whatever the random source holds;
`totalbumps` grows by that number when that much capacity remains, and stops at
`MAXBUMPS` otherwise. -/
theorem recursive_add_bump_count (M : Libm F) (Q : SnisLib F) (S : Sample)
    (pos : Vec3 F) (r h shrink rlimit : F) (hs0 : 0 < shrink)
    (hs1 : shrink < 1) (hl : 0 < rlimit) :
    ∃ n : Nat, Set.ncard {k : Nat | 1 ≤ k ∧ rlimit ≤ r * shrink ^ k} = n ∧
      (∀ k, 1 ≤ k → (rlimit ≤ r * shrink ^ k ↔ k ≤ n)) ∧
      (∀ (fuel : Nat) (s : BumpState F),
        recursive_add_bump M Q S (fuel + 1) pos r h shrink rlimit s =
          if r * shrink < rlimit then some (add_bump Q S pos r h s)
          else for_loop_opt 3 (fun _ st =>
            recursive_add_bump_child M (recursive_add_bump M Q S fuel) pos r h shrink rlimit st)
            (add_bump Q S pos r h s)) ∧
      ∀ (fuel : Nat) (s : BumpState F), n < fuel →
        ∃ s', recursive_add_bump M Q S fuel pos r h shrink rlimit s = some s' ∧
          s'.add_bump_calls = s.add_bump_calls + (3 ^ (n + 1) - 1) / 2 ∧
          (s.totalbumps + (3 ^ (n + 1) - 1) / 2 ≤ MAXBUMPS →
            s'.totalbumps = s.totalbumps + (3 ^ (n + 1) - 1) / 2) ∧
          (s.totalbumps ≤ MAXBUMPS →
            s'.totalbumps = min (s.totalbumps + (3 ^ (n + 1) - 1) / 2) MAXBUMPS) := by
  obtain ⟨n, hn⟩ := exists_recursion_depth_any r shrink rlimit hs0 hs1 hl
  refine ⟨n, ncard_recursion_depth r shrink rlimit n hn, hn, ?_, ?_⟩
  · intro fuel s
    rfl
  · intro fuel s hfuel
    obtain ⟨s', e, c, t⟩ := recursive_add_bump_count_aux M Q S shrink rlimit n fuel hfuel pos r h s hn
    refine ⟨s', e, c, ?_, t⟩
    intro hroom
    have hs : s.totalbumps ≤ MAXBUMPS := le_trans (Nat.le_add_right _ _) hroom
    rw [t hs]
    exact min_eq_left hroom

/-! ## Seed radius (C9) -/

/-- The value `trunc` of a number whose absolute value is at most `a` lies between
`-⌊a⌋` and `a`. -/
theorem trunc_bounds (E a : F) (hE : |E| ≤ a) :
    -⌊a⌋ ≤ trunc E ∧ ((trunc E : Int) : F) ≤ a := by
  have ha : 0 ≤ a := le_trans (abs_nonneg E) hE
  have hlo : -a ≤ E := (abs_le.mp hE).1
  have hhi : E ≤ a := (abs_le.mp hE).2
  have hk : 0 ≤ ⌊a⌋ := Int.floor_nonneg.mpr ha
  unfold trunc
  split_ifs with h0
  · constructor
    · have : 0 ≤ ⌊E⌋ := Int.floor_nonneg.mpr h0
      omega
    · exact le_trans (Int.floor_le E) hhi
  · have hneg : E < 0 := not_le.mp h0
    constructor
    · rw [Int.le_ceil_iff]
      have h1 : a < (⌊a⌋ : F) + 1 := Int.lt_floor_add_one a
      push_cast
      linarith
    · have : ⌈E⌉ ≤ 0 := Int.ceil_le.mpr (by simpa using le_of_lt hneg)
      have h2 : ((⌈E⌉ : Int) : F) ≤ 0 := by exact_mod_cast this
      linarith

/-- The binary32 difference `RADII - 2.0f` is 1. -/
theorem fl32_radii_sub_two : fl32 ((RADII : F) - 2.0) = 1 := by
  have := fl32_intCast (F := F) 1 (by norm_num)
  have e : (RADII : F) - 2.0 = ((1 : Int) : F) := by unfold RADII; norm_num
  rw [e, this]
  norm_num

/-- The binary32 quotient of a sample extent `n ≤ 2^22` by `RADII` lies between
the multiples of 1/8 next to `n / 3`. -/
theorem fl32_third_bounds (n : Int) (hn : 0 < n) (hn' : n ≤ 4194304) :
    ((8 * n / 3 : Int) : F) * (2 : F) ^ (-3 : Int) ≤ fl32 (fl32 (n : F) / RADII) ∧
    fl32 (fl32 (n : F) / RADII) ≤ (((8 * n + 2) / 3 : Int) : F) * (2 : F) ^ (-3 : Int) := by
  have hW : fl32 (n : F) = (n : F) := fl32_intCast n (by rw [abs_lt]; omega)
  have e8 : (2 : F) ^ (-3 : Int) = 1 / 8 := by norm_num
  have hL : 3 * (8 * n / 3) ≤ 8 * n := by omega
  have hU : 8 * n ≤ 3 * ((8 * n + 2) / 3) := by omega
  have hLF : 3 * ((8 * n / 3 : Int) : F) ≤ 8 * (n : F) := by exact_mod_cast hL
  have hUF : 8 * (n : F) ≤ 3 * (((8 * n + 2) / 3 : Int) : F) := by exact_mod_cast hU
  rw [hW]
  constructor
  · apply le_fl32_of_le (fl32_dyadic _ _ (by rw [abs_lt]; omega) (by norm_num))
    rw [e8]
    unfold RADII
    norm_num
    linarith
  · apply fl32_le_of_le (fl32_dyadic _ _ (by rw [abs_lt]; omega) (by norm_num))
    rw [e8]
    unfold RADII
    norm_num
    linarith

/-- The binary64 value `0.5 * u * (RADII - 2.0f) / RADII * (float) n` of the
second summand of a texel origin, for `u` in [-1, 1] and an extent `n ≤ 2^22`,
lies between the multiples of 1/8 next to `-n / 6` and `n / 6`. -/
theorem texel_offset_term_bounds (n : Int) (hn : 0 < n) (hn' : n ≤ 4194304) (u : F)
    (hlo : -1 ≤ u) (hhi : u ≤ 1) :
    -((((4 * n + 2) / 3 : Int) : F) * (2 : F) ^ (-3 : Int)) ≤
      fl64 (fl64 (fl64 (fl64 (0.5 * u) * fl32 (RADII - 2.0)) / RADII) * fl32 (n : F)) ∧
    fl64 (fl64 (fl64 (fl64 (0.5 * u) * fl32 (RADII - 2.0)) / RADII) * fl32 (n : F)) ≤
      (((4 * n + 2) / 3 : Int) : F) * (2 : F) ^ (-3 : Int) := by
  have hW : fl32 (n : F) = (n : F) := fl32_intCast n (by rw [abs_lt]; omega)
  have hnF : (0 : F) < (n : F) := by exact_mod_cast hn
  have e8 : (2 : F) ^ (-3 : Int) = 1 / 8 := by norm_num
  have hV : 4 * n ≤ 3 * ((4 * n + 2) / 3) := by omega
  have hVF : 4 * (n : F) ≤ 3 * (((4 * n + 2) / 3 : Int) : F) := by exact_mod_cast hV
  have hhalf : fl64 ((1 : F) / 2) = 1 / 2 := by
    have := fl64_dyadic (F := F) 1 (-1) (by norm_num) (by norm_num)
    have e : (1 : F) / 2 = ((1 : Int) : F) * (2 : F) ^ (-1 : Int) := by norm_num
    rw [e, this]
  have hnhalf : fl64 (-((1 : F) / 2)) = -(1 / 2) := by
    unfold fl64 at hhalf ⊢
    rw [round_binary_neg, hhalf]
  have hnsixth : fl64 (-((1 : F) / 6)) = -(6004799503160661 / 36028797018963968) := by
    have := fl64_sixth (F := F)
    unfold fl64 at this ⊢
    rw [round_binary_neg, this]
  -- the product 0.5 * u
  have a1 : -((1 : F) / 2) ≤ fl64 (0.5 * u) := le_fl64_of_le hnhalf (by norm_num; linarith)
  have a2 : fl64 (0.5 * u) ≤ (1 : F) / 2 := fl64_le_of_le hhalf (by norm_num; linarith)
  -- times RADII - 2.0f
  rw [fl32_radii_sub_two, mul_one, hW]
  have b1 : -((1 : F) / 2) ≤ fl64 (fl64 (0.5 * u)) := le_fl64_of_le hnhalf a1
  have b2 : fl64 (fl64 (0.5 * u)) ≤ (1 : F) / 2 := fl64_le_of_le hhalf a2
  -- divided by RADII
  have c1 : -(6004799503160661 / 36028797018963968 : F) ≤ fl64 (fl64 (fl64 (0.5 * u)) / RADII) := by
    rw [← hnsixth]
    apply fl64_mono
    unfold RADII
    norm_num
    linarith
  have c2 : fl64 (fl64 (fl64 (0.5 * u)) / RADII) ≤ (6004799503160661 / 36028797018963968 : F) := by
    rw [← fl64_sixth]
    apply fl64_mono
    unfold RADII
    norm_num
    linarith
  -- times the extent
  constructor
  · have hrep := fl64_dyadic (F := F) (-((4 * n + 2) / 3)) (-3) (by rw [abs_lt]; omega)
      (by norm_num)
    have : -((((4 * n + 2) / 3 : Int) : F) * (2 : F) ^ (-3 : Int)) =
        ((-((4 * n + 2) / 3) : Int) : F) * (2 : F) ^ (-3 : Int) := by push_cast; ring
    rw [this]
    apply le_fl64_of_le hrep
    have h1 : -(6004799503160661 / 36028797018963968 : F) * (n : F) ≤
        fl64 (fl64 (fl64 (0.5 * u)) / RADII) * (n : F) := mul_le_mul_of_nonneg_right c1 hnF.le
    rw [e8]
    push_cast
    linarith
  · have hrep := fl64_dyadic (F := F) ((4 * n + 2) / 3) (-3) (by rw [abs_lt]; omega)
      (by norm_num)
    apply fl64_le_of_le hrep
    have h1 : fl64 (fl64 (fl64 (0.5 * u)) / RADII) * (n : F) ≤
        (6004799503160661 / 36028797018963968 : F) * (n : F) := mul_le_mul_of_nonneg_right c2 hnF.le
    rw [e8]
    linarith

/-- For a sample extent `0 < n ≤ 2^22` and `u` in [-1, 1] the texel origin lies
between `⌊n/6⌋` and `⌊n/2⌋`. -/
theorem texel_origin_bounds (n : Int) (hn : 0 < n) (hn' : n ≤ 4194304) (u : F)
    (hlo : -1 ≤ u) (hhi : u ≤ 1) :
    n / 6 ≤ texel_origin n u ∧ texel_origin n u ≤ n / 2 := by
  obtain ⟨A1, A2⟩ := fl32_third_bounds (F := F) n hn hn'
  obtain ⟨B1, B2⟩ := texel_offset_term_bounds n hn hn' u hlo hhi
  have e8 : (2 : F) ^ (-3 : Int) = 1 / 8 := by norm_num
  have hk : 8 * (n / 6) ≤ 8 * n / 3 - (4 * n + 2) / 3 := by
    have h6 : n % 6 = 0 ∨ n % 6 = 1 ∨ n % 6 = 2 ∨ n % 6 = 3 ∨ n % 6 = 4 ∨ n % 6 = 5 := by omega
    rcases h6 with h | h | h | h | h | h <;> omega
  have hkF : 8 * ((n / 6 : Int) : F) ≤ ((8 * n / 3 : Int) : F) - (((4 * n + 2) / 3 : Int) : F) := by
    exact_mod_cast hk
  have hu : (8 * n + 2) / 3 + (4 * n + 2) / 3 < 8 * (n / 2 + 1) := by
    have h6 : n % 6 = 0 ∨ n % 6 = 1 ∨ n % 6 = 2 ∨ n % 6 = 3 ∨ n % 6 = 4 ∨ n % 6 = 5 := by omega
    rcases h6 with h | h | h | h | h | h <;> omega
  have huF : (((8 * n + 2) / 3 : Int) : F) + (((4 * n + 2) / 3 : Int) : F) <
      8 * (((n / 2 + 1 : Int)) : F) := by exact_mod_cast hu
  have hk0 : 0 ≤ n / 6 := by omega
  have hk0F : (0 : F) ≤ ((n / 6 : Int) : F) := by exact_mod_cast hk0
  set A := fl32 (fl32 (n : F) / RADII) with hA
  set B := fl64 (fl64 (fl64 (fl64 (0.5 * u) * fl32 (RADII - 2.0)) / RADII) * fl32 (n : F)) with hB
  have T1 : ((n / 6 : Int) : F) ≤ fl64 (A + B) := by
    apply le_fl64_of_le (fl64_intCast _ (by rw [abs_lt]; omega))
    rw [e8] at A1 B1
    linarith
  have T2 : fl64 (A + B) ≤
      (((8 * n + 2) / 3 + (4 * n + 2) / 3 : Int) : F) * (2 : F) ^ (-3 : Int) := by
    apply fl64_le_of_le (fl64_dyadic _ _ (by rw [abs_lt]; omega) (by norm_num))
    rw [e8] at A2 B2 ⊢
    push_cast
    linarith
  have hT0 : (0 : F) ≤ fl64 (A + B) := le_trans hk0F T1
  have htr : texel_origin n u = ⌊fl64 (A + B)⌋ := by
    unfold texel_origin trunc
    rw [if_pos hT0]
  rw [htr]
  constructor
  · exact Int.le_floor.mpr T1
  · have : ⌊fl64 (A + B)⌋ < n / 2 + 1 := by
      rw [Int.floor_lt]
      rw [e8] at T2
      push_cast at T2 huF ⊢
      linarith
    omega

/-- The scaled local-frame component `(int) (vx * ts)` that `distort_vertex`
adds to a texel origin, for `|vx| ≤ 0.5` and the texel scale of a sample whose
smaller extent is `m ≤ 2^22`, lies between `-⌊m/6⌋` and `⌊m/6⌋`. -/
theorem scaled_component_bounds (m : Int) (hm : 0 < m) (hm' : m ≤ 4194304) (vx : F)
    (hv : |vx| ≤ 0.5) :
    -(m / 6) ≤ trunc (fl32 (vx * fl32 (fl32 (m : F) / RADII))) ∧
    trunc (fl32 (vx * fl32 (fl32 (m : F) / RADII))) ≤ m / 6 := by
  obtain ⟨A1, A2⟩ := fl32_third_bounds (F := F) m hm hm'
  have e8 : (2 : F) ^ (-3 : Int) = 1 / 8 := by norm_num
  have e16 : (2 : F) ^ (-4 : Int) = 1 / 16 := by norm_num
  set ts := fl32 (fl32 (m : F) / RADII) with hts
  have hts0 : 0 ≤ ts := by
    have : (0 : F) ≤ ((8 * m / 3 : Int) : F) := by
      have : (0 : Int) ≤ 8 * m / 3 := by omega
      exact_mod_cast this
    rw [e8] at A1
    linarith
  have hprod : |vx * ts| ≤ (((8 * m + 2) / 3 : Int) : F) * (2 : F) ^ (-4 : Int) := by
    rw [abs_mul, abs_of_nonneg hts0, e16]
    rw [e8] at A2
    have h1 : |vx| * ts ≤ 0.5 * ts := mul_le_mul_of_nonneg_right hv hts0
    have h2 : (0.5 : F) * ts = ts / 2 := by norm_num; ring
    linarith
  have hrep := fl32_dyadic (F := F) ((8 * m + 2) / 3) (-4) (by rw [abs_lt]; omega) (by norm_num)
  have hrepn := fl32_dyadic (F := F) (-((8 * m + 2) / 3)) (-4) (by rw [abs_lt]; omega)
    (by norm_num)
  have hE : |fl32 (vx * ts)| ≤ (((8 * m + 2) / 3 : Int) : F) * (2 : F) ^ (-4 : Int) := by
    rw [abs_le] at hprod ⊢
    constructor
    · have : -((((8 * m + 2) / 3 : Int) : F) * (2 : F) ^ (-4 : Int)) =
          ((-((8 * m + 2) / 3) : Int) : F) * (2 : F) ^ (-4 : Int) := by push_cast; ring
      rw [this] at hprod ⊢
      exact le_fl32_of_le hrepn hprod.1
    · exact fl32_le_of_le hrep hprod.2
  obtain ⟨t1, t2⟩ := trunc_bounds _ _ hE
  have hlt : (8 * m + 2) / 3 < 16 * (m / 6 + 1) := by
    have h6 : m % 6 = 0 ∨ m % 6 = 1 ∨ m % 6 = 2 ∨ m % 6 = 3 ∨ m % 6 = 4 ∨ m % 6 = 5 := by omega
    rcases h6 with h | h | h | h | h | h <;> omega
  have hltF : (((8 * m + 2) / 3 : Int) : F) < 16 * ((m / 6 + 1 : Int) : F) := by
    exact_mod_cast hlt
  have hfl : ⌊(((8 * m + 2) / 3 : Int) : F) * (2 : F) ^ (-4 : Int)⌋ < m / 6 + 1 := by
    rw [Int.floor_lt, e16]
    linarith
  constructor
  · omega
  · have : ((trunc (fl32 (vx * ts)) : Int) : F) < ((m / 6 + 1 : Int) : F) := by
      rw [e16] at t2
      linarith
    have := Int.cast_lt.mp this
    omega

/-- For a sample extent `n` between 2^22 and 2^30 - 64 and `u` in [-1, 1] the
texel origin lies between 28 and `n - 29`. -/
theorem texel_origin_bounds_large (n : Int) (hn : 4194304 < n) (hn' : n ≤ 1073741760) (u : F)
    (hlo : -1 ≤ u) (hhi : u ≤ 1) :
    28 ≤ texel_origin n u ∧ texel_origin n u + 28 < n := by
  have e4 : (2 : F) ^ (4 : Int) = 16 := by norm_num
  have e5 : (2 : F) ^ (5 : Int) = 32 := by norm_num
  have e6 : (2 : F) ^ (6 : Int) = 64 := by norm_num
  -- the converted extent
  have hnF : (((n / 64 : Int) : F)) * 64 ≤ (n : F) := by
    have : n / 64 * 64 ≤ n := by omega
    exact_mod_cast this
  have hnF2 : (n : F) ≤ ((((n + 63) / 64 : Int) : F)) * 64 := by
    have : n ≤ (n + 63) / 64 * 64 := by omega
    exact_mod_cast this
  have a0 : (0 : F) < ((n / 64 : Int) : F) := by
    have : (0 : Int) < n / 64 := by omega
    exact_mod_cast this
  have W1 : ((n / 64 : Int) : F) * (2 : F) ^ (6 : Int) ≤ fl32 (n : F) := by
    apply le_fl32_of_le (fl32_dyadic _ _ (by rw [abs_lt]; omega) (by norm_num))
    rw [e6]
    exact hnF
  have W2 : fl32 (n : F) ≤ (((n + 63) / 64 : Int) : F) * (2 : F) ^ (6 : Int) := by
    apply fl32_le_of_le (fl32_dyadic _ _ (by rw [abs_lt]; omega) (by norm_num))
    rw [e6]
    exact hnF2
  rw [e6] at W1 W2
  set W := fl32 (n : F) with hW
  have hW0 : 0 < W := by linarith
  -- the binary32 quotient by RADII
  have A1 : ((n / 64 : Int) : F) * (2 : F) ^ (4 : Int) ≤ fl32 (W / RADII) := by
    apply le_fl32_of_le (fl32_dyadic _ _ (by rw [abs_lt]; omega) (by norm_num))
    rw [e4]
    unfold RADII
    norm_num
    linarith
  have A2 : fl32 (W / RADII) ≤ (((n + 63) / 64 : Int) : F) * (2 : F) ^ (5 : Int) := by
    apply fl32_le_of_le (fl32_dyadic _ _ (by rw [abs_lt]; omega) (by norm_num))
    rw [e5]
    unfold RADII
    norm_num
    linarith
  rw [e4] at A1
  rw [e5] at A2
  -- the binary64 summand
  have hhalf : fl64 ((1 : F) / 2) = 1 / 2 := by
    have := fl64_dyadic (F := F) 1 (-1) (by norm_num) (by norm_num)
    have e : (1 : F) / 2 = ((1 : Int) : F) * (2 : F) ^ (-1 : Int) := by norm_num
    rw [e, this]
  have hnhalf : fl64 (-((1 : F) / 2)) = -(1 / 2) := by
    unfold fl64 at hhalf ⊢
    rw [round_binary_neg, hhalf]
  have hnsixth : fl64 (-((1 : F) / 6)) = -(6004799503160661 / 36028797018963968) := by
    have := fl64_sixth (F := F)
    unfold fl64 at this ⊢
    rw [round_binary_neg, this]
  have a1 : -((1 : F) / 2) ≤ fl64 (0.5 * u) := le_fl64_of_le hnhalf (by norm_num; linarith)
  have a2 : fl64 (0.5 * u) ≤ (1 : F) / 2 := fl64_le_of_le hhalf (by norm_num; linarith)
  have b1 : -((1 : F) / 2) ≤ fl64 (fl64 (0.5 * u)) := le_fl64_of_le hnhalf a1
  have b2 : fl64 (fl64 (0.5 * u)) ≤ (1 : F) / 2 := fl64_le_of_le hhalf a2
  have c1 : -(6004799503160661 / 36028797018963968 : F) ≤ fl64 (fl64 (fl64 (0.5 * u)) / RADII) := by
    rw [← hnsixth]
    apply fl64_mono
    unfold RADII
    norm_num
    linarith
  have c2 : fl64 (fl64 (fl64 (0.5 * u)) / RADII) ≤ (6004799503160661 / 36028797018963968 : F) := by
    rw [← fl64_sixth]
    apply fl64_mono
    unfold RADII
    norm_num
    linarith
  have B1 : -((((n + 63) / 64 * 12 : Int)) : F) ≤
      fl64 (fl64 (fl64 (fl64 (0.5 * u)) / RADII) * W) := by
    have hrep := fl64_intCast (F := F) (-((n + 63) / 64 * 12)) (by rw [abs_lt]; omega)
    have : -((((n + 63) / 64 * 12 : Int)) : F) = ((-((n + 63) / 64 * 12) : Int) : F) := by
      push_cast; ring
    rw [this]
    apply le_fl64_of_le hrep
    have h1 : -(6004799503160661 / 36028797018963968 : F) * W ≤
        fl64 (fl64 (fl64 (0.5 * u)) / RADII) * W := mul_le_mul_of_nonneg_right c1 hW0.le
    push_cast
    linarith
  have B2 : fl64 (fl64 (fl64 (fl64 (0.5 * u)) / RADII) * W) ≤
      ((((n + 63) / 64 * 12 : Int)) : F) := by
    have hrep := fl64_intCast (F := F) ((n + 63) / 64 * 12) (by rw [abs_lt]; omega)
    apply fl64_le_of_le hrep
    have h1 : fl64 (fl64 (fl64 (0.5 * u)) / RADII) * W ≤
        (6004799503160661 / 36028797018963968 : F) * W := mul_le_mul_of_nonneg_right c2 hW0.le
    push_cast
    linarith
  set B := fl64 (fl64 (fl64 (fl64 (0.5 * u)) / RADII) * W) with hB
  set A := fl32 (W / RADII) with hA
  have T1 : ((28 : Int) : F) ≤ fl64 (A + B) := by
    apply le_fl64_of_le (fl64_intCast _ (by norm_num))
    have : (n + 63) / 64 ≤ n / 64 + 1 := by omega
    have hF : (((n + 63) / 64 : Int) : F) ≤ ((n / 64 : Int) : F) + 1 := by exact_mod_cast this
    have : (65536 : Int) ≤ n / 64 := by omega
    have hF2 : (65536 : F) ≤ ((n / 64 : Int) : F) := by exact_mod_cast this
    push_cast at B1 ⊢
    linarith
  have T2 : fl64 (A + B) ≤ ((((n + 63) / 64 * 44 : Int)) : F) := by
    apply fl64_le_of_le (fl64_intCast _ (by rw [abs_lt]; omega))
    push_cast at B2 ⊢
    linarith
  have hT0 : (0 : F) ≤ fl64 (A + B) := le_trans (by norm_num) T1
  have htr : texel_origin n u = ⌊fl64 (A + B)⌋ := by
    unfold texel_origin trunc
    rw [fl32_radii_sub_two, mul_one, if_pos hT0]
  rw [htr]
  constructor
  · exact Int.le_floor.mpr T1
  · have : ⌊fl64 (A + B)⌋ < (n + 63) / 64 * 44 + 1 := by
      rw [Int.floor_lt]
      push_cast at T2 ⊢
      linarith
    omega

/-- A sample coordinate computed by `distort_vertex` from a texel origin made by
`add_bump` is inside the sample extent `n`, for a sample whose smaller extent is
`m` and whose buffer size fits an `int`. -/
theorem sample_coordinate_in_range (n m : Int) (hm : 0 < m) (hmn : m ≤ n)
    (hfit : 3 * (m * n) ≤ INT_MAX) (u : F) (hlo : -1 ≤ u) (hhi : u ≤ 1)
    (vx : F) (hv : |vx| ≤ 0.5) :
    0 ≤ trunc (fl32 (vx * fl32 (fl32 (m : F) / RADII))) + texel_origin n u ∧
    trunc (fl32 (vx * fl32 (fl32 (m : F) / RADII))) + texel_origin n u < n := by
  unfold INT_MAX at hfit
  rcases le_or_lt n 4194304 with hn | hn
  · obtain ⟨e1, e2⟩ := scaled_component_bounds m hm (le_trans hmn hn) vx hv
    obtain ⟨o1, o2⟩ := texel_origin_bounds n (lt_of_lt_of_le hm hmn) hn u hlo hhi
    constructor <;> omega
  · have hm170 : m ≤ 170 := by
      by_contra hcon
      push_neg at hcon
      have h1 : (171 : Int) * 4194305 ≤ m * n :=
        mul_le_mul (by omega) (by omega) (by norm_num) (by omega)
      omega
    have hn2 : n ≤ 1073741760 := by
      have h1 : 1 * n ≤ m * n := mul_le_mul_of_nonneg_right (by omega) (by omega)
      omega
    obtain ⟨e1, e2⟩ := scaled_component_bounds m hm (by omega) vx hv
    obtain ⟨o1, o2⟩ := texel_origin_bounds_large n hn hn2 u hlo hhi
    constructor <;> omega

/-- The row stride `load_image` computes is the least multiple of 4 that is at
least `3 * w`. -/
theorem load_image_bytes_per_row_spec (w : Int) :
    load_image_bytes_per_row w % 4 = 0 ∧ 3 * w ≤ load_image_bytes_per_row w ∧
    load_image_bytes_per_row w < 3 * w + 4 := by
  unfold load_image_bytes_per_row
  simp only
  split_ifs with h <;> omega

/-- The texel scale `add_bump` computes is the binary32 quotient of
`min(samplew, sampleh)` by 3. -/
theorem texel_scale_eq (S : Sample) :
    (texel_scale S : F) = fl32 (fl32 ((min S.samplew S.sampleh : Int) : F) / RADII) := by
  unfold texel_scale
  split_ifs with h
  · rw [min_eq_left (le_of_lt h)]
  · rw [min_eq_right (not_lt.mp h)]

/-- An arithmetic result in the range of `int` is left as it is. -/
theorem wrap_int32_of_range (n : Int) (h0 : -2147483648 ≤ n) (h1 : n ≤ INT_MAX) :
    wrap_int32 n = n := by
  unfold INT_MAX at h1
  unfold wrap_int32
  omega

/-- The byte offset of sample coordinates in range is computed without
overflow and lies inside the sample buffer, when the buffer size fits an
`int`. -/
theorem sample_offset_in_range (S : Sample) (x y : Int) (hx : 0 ≤ x ∧ x < S.samplew)
    (hy : 0 ≤ y ∧ y < S.sampleh) (hrow : 3 * S.samplew ≤ S.sample_bytes_per_row)
    (hfit : S.sampleh * S.sample_bytes_per_row ≤ INT_MAX) :
    sample_offset S x y = y * S.sample_bytes_per_row + x * 3 ∧
    0 ≤ sample_offset S x y ∧ sample_offset S x y < S.sampleh * S.sample_bytes_per_row := by
  have hb0 : 0 ≤ S.sample_bytes_per_row := by omega
  have h0 : 0 ≤ y * S.sample_bytes_per_row + x * 3 := by
    have := mul_nonneg hy.1 hb0
    omega
  have h1 : y * S.sample_bytes_per_row + x * 3 < S.sampleh * S.sample_bytes_per_row := by
    have : (y + 1) * S.sample_bytes_per_row ≤ S.sampleh * S.sample_bytes_per_row :=
      mul_le_mul_of_nonneg_right (by omega) hb0
    have e : (y + 1) * S.sample_bytes_per_row = y * S.sample_bytes_per_row + S.sample_bytes_per_row := by
      ring
    omega
  have hwrap := wrap_int32_of_range (y * S.sample_bytes_per_row + x * 3) (by omega) (by omega)
  unfold sample_offset
  rw [hwrap]
  exact ⟨rfl, h0, h1⟩

/-- A vector within distance `r ≤ 0.5` of (0, 0, 1) has x and y components of
absolute value at most 0.5. -/
theorem rotated_components_small (w : Vec3 F) (d2 r : F) (hr0 : 0 ≤ r) (hr : r ≤ 0.5)
    (hd : d2 ≤ r * r)
    (hiso : (w.x - 0) * (w.x - 0) + (w.y - 0) * (w.y - 0) + (w.z - 1) * (w.z - 1) = d2) :
    |w.x| ≤ 0.5 ∧ |w.y| ≤ 0.5 := by
  have hr2 : r * r ≤ 0.5 * 0.5 := mul_le_mul hr hr hr0 (by norm_num)
  have hx : w.x * w.x ≤ 0.5 * 0.5 := by nlinarith [mul_self_nonneg w.y, mul_self_nonneg (w.z - 1)]
  have hy : w.y * w.y ≤ 0.5 * 0.5 := by nlinarith [mul_self_nonneg w.x, mul_self_nonneg (w.z - 1)]
  constructor
  · exact abs_le_of_sq_le_sq' (by simpa [sq] using hx) (by norm_num) |> fun h => abs_le.mpr h
  · exact abs_le_of_sq_le_sq' (by simpa [sq] using hy) (by norm_num) |> fun h => abs_le.mpr h

/-- C10, amended: sample addressing stays in range for every bump `add_bump` can
create from a sample whose buffer size fits an `int`.  Let the sample have
width `w > 0`, height `h > 0`, the row stride computed by `load_image` and
`h * bytes_per_row ≤ INT_MAX`; let `add_bump` run with room left and draw random
values `u`, `u'` in [-1, 1], and let `b` be the bump it stores.  Then `b.tx`,
`b.ty` and `b.ts` are the values of the code's mixed binary32/binary64
expressions (`b.tx` is the truncation of the `double` sum of the `float` quotient
`w / 3` and the `double` value of `0.5 * u * 1 / 3 * w`, which is not always
`trunc(w/3 + u*w/6)`; `b.ts` is the `float` quotient `min(w, h) / 3`), and
for every vertex whose local-frame vector (its direction rotated by `b.texelq`)
has x and y components of absolute value at most 0.5, the coordinates `(x, y)`
computed by `distort_vertex` satisfy `0 ≤ x < w` and `0 ≤ y < h`, the
out-of-range diagnostic does not fire, and the byte offset
`p = y * bytes_per_row + 3 * x` is computed without overflow and satisfies
`0 ≤ p < h * bytes_per_row`.  The condition on the components holds whenever the
rotation maps the bump centre to (0, 0, 1), preserves the distance of the
vertex direction to the centre, and that distance is at most `r ≤ 0.5`. -/
theorem sample_addressing_in_range (M : Libm F) (Q : SnisLib F) (S : Sample)
    (hw : 0 < S.samplew) (hh : 0 < S.sampleh)
    (hrow : S.sample_bytes_per_row = load_image_bytes_per_row S.samplew)
    (hfit : S.sampleh * S.sample_bytes_per_row ≤ INT_MAX)
    (p : Vec3 F) (r h : F) (s : BumpState F) (hroom : s.totalbumps < MAXBUMPS)
    (hu : -1 ≤ s.rand.stream s.rand.pos ∧ s.rand.stream s.rand.pos ≤ 1)
    (hu' : -1 ≤ s.rand.stream (s.rand.pos + 1) ∧ s.rand.stream (s.rand.pos + 1) ≤ 1) :
    ((add_bump Q S p r h s).bumplist s.totalbumps).tx =
        trunc (fl64 (fl32 (fl32 (S.samplew : F) / 3) +
          fl64 (fl64 (fl64 (fl64 (0.5 * s.rand.stream s.rand.pos) * fl32 (3 - 2)) / 3) *
            fl32 (S.samplew : F)))) ∧
    ((add_bump Q S p r h s).bumplist s.totalbumps).ty =
        trunc (fl64 (fl32 (fl32 (S.sampleh : F) / 3) +
          fl64 (fl64 (fl64 (fl64 (0.5 * s.rand.stream (s.rand.pos + 1)) * fl32 (3 - 2)) / 3) *
            fl32 (S.sampleh : F)))) ∧
    ((add_bump Q S p r h s).bumplist s.totalbumps).ts =
        fl32 (fl32 ((min S.samplew S.sampleh : Int) : F) / 3) ∧
    (∀ v : Vec3 F,
      |(Q.quat_rot_vec (vec3_normalize M v)
          ((add_bump Q S p r h s).bumplist s.totalbumps).texelq).x| ≤ 0.5 →
      |(Q.quat_rot_vec (vec3_normalize M v)
          ((add_bump Q S p r h s).bumplist s.totalbumps).texelq).y| ≤ 0.5 →
      (0 ≤ (sample_xy M Q v ((add_bump Q S p r h s).bumplist s.totalbumps)).1 ∧
        (sample_xy M Q v ((add_bump Q S p r h s).bumplist s.totalbumps)).1 < S.samplew) ∧
      (0 ≤ (sample_xy M Q v ((add_bump Q S p r h s).bumplist s.totalbumps)).2 ∧
        (sample_xy M Q v ((add_bump Q S p r h s).bumplist s.totalbumps)).2 < S.sampleh) ∧
      out_of_range S (sample_xy M Q v ((add_bump Q S p r h s).bumplist s.totalbumps)).1
        (sample_xy M Q v ((add_bump Q S p r h s).bumplist s.totalbumps)).2 = false ∧
      sample_offset S (sample_xy M Q v ((add_bump Q S p r h s).bumplist s.totalbumps)).1
          (sample_xy M Q v ((add_bump Q S p r h s).bumplist s.totalbumps)).2 =
        (sample_xy M Q v ((add_bump Q S p r h s).bumplist s.totalbumps)).2 *
            S.sample_bytes_per_row +
          (sample_xy M Q v ((add_bump Q S p r h s).bumplist s.totalbumps)).1 * 3 ∧
      0 ≤ sample_offset S (sample_xy M Q v ((add_bump Q S p r h s).bumplist s.totalbumps)).1
        (sample_xy M Q v ((add_bump Q S p r h s).bumplist s.totalbumps)).2 ∧
      sample_offset S (sample_xy M Q v ((add_bump Q S p r h s).bumplist s.totalbumps)).1
        (sample_xy M Q v ((add_bump Q S p r h s).bumplist s.totalbumps)).2 <
          S.sampleh * S.sample_bytes_per_row) ∧
    (S.sample_bytes_per_row % 4 = 0 ∧ 3 * S.samplew ≤ S.sample_bytes_per_row ∧
      S.sample_bytes_per_row < 3 * S.samplew + 4) ∧
    (∀ (v c : Vec3 F) (q : Quat F) (rb : F), 0 ≤ rb → rb ≤ 0.5 →
      Q.quat_rot_vec c q = ⟨0, 0, 1⟩ →
      ((Q.quat_rot_vec v q).x - (Q.quat_rot_vec c q).x) *
          ((Q.quat_rot_vec v q).x - (Q.quat_rot_vec c q).x) +
        ((Q.quat_rot_vec v q).y - (Q.quat_rot_vec c q).y) *
          ((Q.quat_rot_vec v q).y - (Q.quat_rot_vec c q).y) +
        ((Q.quat_rot_vec v q).z - (Q.quat_rot_vec c q).z) *
          ((Q.quat_rot_vec v q).z - (Q.quat_rot_vec c q).z) =
        (v.x - c.x) * (v.x - c.x) + (v.y - c.y) * (v.y - c.y) + (v.z - c.z) * (v.z - c.z) →
      (v.x - c.x) * (v.x - c.x) + (v.y - c.y) * (v.y - c.y) + (v.z - c.z) * (v.z - c.z)
        ≤ rb * rb →
      |(Q.quat_rot_vec v q).x| ≤ 0.5 ∧ |(Q.quat_rot_vec v q).y| ≤ 0.5) := by
  have hc : ¬ s.totalbumps ≥ MAXBUMPS := not_le.mpr hroom
  have hb : (add_bump Q S p r h s).bumplist s.totalbumps =
      { p := p, r := r, h := h, texelq := Q.quat_from_u2v p ⟨0, 0, 1⟩ ⟨0, 1, 0⟩,
        tx := texel_origin S.samplew (s.rand.stream s.rand.pos),
        ty := texel_origin S.sampleh (s.rand.stream (s.rand.pos + 1)),
        tr := (s.bumplist s.totalbumps).tr, ts := texel_scale S } := by
    simp only [add_bump, hc, if_false, Function.update_same, snis_random_float]
  have hrowspec := load_image_bytes_per_row_spec S.samplew
  rw [← hrow] at hrowspec
  have hts : (texel_scale S : F) = fl32 (fl32 ((min S.samplew S.sampleh : Int) : F) / RADII) :=
    texel_scale_eq S
  have hR : (RADII : F) = 3 := by unfold RADII; norm_num
  have h32 : (3 : F) - 2.0 = 3 - 2 := by norm_num
  have hmin0 : 0 < min S.samplew S.sampleh := lt_min hw hh
  have hminw : min S.samplew S.sampleh ≤ S.samplew := min_le_left _ _
  have hminh : min S.samplew S.sampleh ≤ S.sampleh := min_le_right _ _
  have hwh : 3 * (S.samplew * S.sampleh) ≤ INT_MAX := by
    have h1 : S.sampleh * (3 * S.samplew) ≤ S.sampleh * S.sample_bytes_per_row :=
      mul_le_mul_of_nonneg_left hrowspec.2.1 (le_of_lt hh)
    have h2 : 3 * (S.samplew * S.sampleh) = S.sampleh * (3 * S.samplew) := by ring
    rw [h2]
    exact le_trans h1 hfit
  have hfitw : 3 * (min S.samplew S.sampleh * S.samplew) ≤ INT_MAX := by
    have : min S.samplew S.sampleh * S.samplew ≤ S.sampleh * S.samplew :=
      mul_le_mul_of_nonneg_right hminh (le_of_lt hw)
    have e : S.sampleh * S.samplew = S.samplew * S.sampleh := by ring
    omega
  have hfith : 3 * (min S.samplew S.sampleh * S.sampleh) ≤ INT_MAX := by
    have : min S.samplew S.sampleh * S.sampleh ≤ S.samplew * S.sampleh :=
      mul_le_mul_of_nonneg_right hminw (le_of_lt hh)
    omega
  refine ⟨?_, ?_, ?_, ?_, hrowspec, ?_⟩
  · rw [hb]
    simp only [texel_origin, hR, h32]
  · rw [hb]
    simp only [texel_origin, hR, h32]
  · rw [hb]
    simp only [hts, hR]
  · intro v hvx hvy
    rw [hb] at hvx hvy ⊢
    simp only at hvx hvy
    obtain ⟨x0, x1⟩ := sample_coordinate_in_range S.samplew (min S.samplew S.sampleh) hmin0 hminw
      hfitw (s.rand.stream s.rand.pos) hu.1 hu.2 _ hvx
    obtain ⟨y0, y1⟩ := sample_coordinate_in_range S.sampleh (min S.samplew S.sampleh) hmin0 hminh
      hfith (s.rand.stream (s.rand.pos + 1)) hu'.1 hu'.2 _ hvy
    rw [← hts] at x0 x1 y0 y1
    have hx : 0 ≤ (sample_xy M Q v
        { p := p, r := r, h := h, texelq := Q.quat_from_u2v p ⟨0, 0, 1⟩ ⟨0, 1, 0⟩,
          tx := texel_origin S.samplew (s.rand.stream s.rand.pos),
          ty := texel_origin S.sampleh (s.rand.stream (s.rand.pos + 1)),
          tr := (s.bumplist s.totalbumps).tr, ts := texel_scale S }).1 ∧
        (sample_xy M Q v
        { p := p, r := r, h := h, texelq := Q.quat_from_u2v p ⟨0, 0, 1⟩ ⟨0, 1, 0⟩,
          tx := texel_origin S.samplew (s.rand.stream s.rand.pos),
          ty := texel_origin S.sampleh (s.rand.stream (s.rand.pos + 1)),
          tr := (s.bumplist s.totalbumps).tr, ts := texel_scale S }).1 < S.samplew := by
      simp only [sample_xy]
      exact ⟨x0, x1⟩
    have hy : 0 ≤ (sample_xy M Q v
        { p := p, r := r, h := h, texelq := Q.quat_from_u2v p ⟨0, 0, 1⟩ ⟨0, 1, 0⟩,
          tx := texel_origin S.samplew (s.rand.stream s.rand.pos),
          ty := texel_origin S.sampleh (s.rand.stream (s.rand.pos + 1)),
          tr := (s.bumplist s.totalbumps).tr, ts := texel_scale S }).2 ∧
        (sample_xy M Q v
        { p := p, r := r, h := h, texelq := Q.quat_from_u2v p ⟨0, 0, 1⟩ ⟨0, 1, 0⟩,
          tx := texel_origin S.samplew (s.rand.stream s.rand.pos),
          ty := texel_origin S.sampleh (s.rand.stream (s.rand.pos + 1)),
          tr := (s.bumplist s.totalbumps).tr, ts := texel_scale S }).2 < S.sampleh := by
      simp only [sample_xy]
      exact ⟨y0, y1⟩
    obtain ⟨o1, o2, o3⟩ := sample_offset_in_range S _ _ hx hy hrowspec.2.1 hfit
    refine ⟨hx, hy, ?_, o1, o2, o3⟩
    simp only [out_of_range, Bool.or_eq_false_iff, decide_eq_false_iff_not, not_lt]
    exact ⟨⟨⟨hx.1, le_of_lt hx.2⟩, hy.1⟩, le_of_lt hy.2⟩
  · intro v c q rb hrb0 hrb hc1 hiso hd
    rw [hc1] at hiso
    exact rotated_components_small (Q.quat_rot_vec v q) _ rb hrb0 hrb hd hiso

/-- Evaluation of the texel origin for an extent of 36000 and the random
value 1: the code stores 18000. -/
theorem texel_origin_large_example : texel_origin 36000 (1 : F) = 18000 := by
  have hW : fl32 ((36000 : Int) : F) = 36000 := by
    have := fl32_intCast (F := F) 36000 (by norm_num)
    simpa using this
  have hA : fl32 ((36000 : F) / RADII) = 12000 := by
    have := fl32_intCast (F := F) 12000 (by norm_num)
    have e : (36000 : F) / RADII = ((12000 : Int) : F) := by unfold RADII; norm_num
    rw [e, this]
    norm_num
  have h1 : fl64 ((0.5 : F) * 1) = 1 / 2 := by
    have := fl64_dyadic (F := F) 1 (-1) (by norm_num) (by norm_num)
    have e : (0.5 : F) * 1 = ((1 : Int) : F) * (2 : F) ^ (-1 : Int) := by norm_num
    rw [e, this]
    norm_num
  have h2 : fl64 ((1 : F) / 2) = 1 / 2 := by
    have := fl64_dyadic (F := F) 1 (-1) (by norm_num) (by norm_num)
    have e : (1 : F) / 2 = ((1 : Int) : F) * (2 : F) ^ (-1 : Int) := by norm_num
    rw [e, this]
  have h3 : fl64 ((1 : F) / 2 / RADII) = 6004799503160661 / 36028797018963968 := by
    have e : (1 : F) / 2 / RADII = 1 / 6 := by unfold RADII; norm_num
    rw [e, fl64_sixth]
  have h4 : fl64 ((6004799503160661 / 36028797018963968 : F) * 36000) = 6000 := by
    have h := round_binary_eval (F := F) 53 (-1022)
      (x := (6004799503160661 / 36028797018963968 : F) * 36000) 12 6597069766656000
      (by rw [abs_of_pos (by norm_num)]; norm_num)
      (by rw [abs_of_pos (by norm_num)]; norm_num)
      (by norm_num) (by norm_num) (by norm_num)
    unfold fl64
    rw [h]
    norm_num
  have h5 : fl64 ((12000 : F) + 6000) = 18000 := by
    have := fl64_intCast (F := F) 18000 (by norm_num)
    have e : (12000 : F) + 6000 = ((18000 : Int) : F) := by norm_num
    rw [e, this]
    norm_num
  unfold texel_origin
  rw [hW, hA, h1, fl32_radii_sub_two, mul_one, h2, h3, h4, h5]
  unfold trunc
  rw [if_pos (by norm_num)]
  have : ⌊(18000 : F)⌋ = 18000 := by
    have := Int.floor_intCast (α := F) 18000
    exact_mod_cast this
  exact this

/-- Evaluation of the texel origin for an extent of 4 and the random value
`1 - 2^-24`, the largest binary32 value below 1: the binary32 quotient `4 / 3`
is rounded up and the `double` sum is exactly 2, so the code stores 2, while
the exact value `4/3 + u * 4/6` is below 2. -/
theorem texel_origin_small_example :
    texel_origin 4 (16777215 / 16777216 : F) = 2 ∧
    trunc ((4 : F) / 3 + 0.5 * (16777215 / 16777216) * (1 / 3) * 4) = 1 := by
  have hW : fl32 ((4 : Int) : F) = 4 := by
    have := fl32_intCast (F := F) 4 (by norm_num)
    simpa using this
  have hA : fl32 ((4 : F) / RADII) = 11184811 / 8388608 := by
    have h := round_binary_eval (F := F) 24 (-126) (x := (4 : F) / RADII) 0 11184811
      (by unfold RADII; rw [abs_of_pos (by norm_num)]; norm_num)
      (by unfold RADII; rw [abs_of_pos (by norm_num)]; norm_num)
      (by norm_num) (by unfold RADII; norm_num) (by unfold RADII; norm_num)
    unfold fl32
    rw [h]
    norm_num
  have h1 : fl64 ((0.5 : F) * (16777215 / 16777216)) = 16777215 / 33554432 := by
    have := fl64_dyadic (F := F) 16777215 (-25) (by norm_num) (by norm_num)
    have e : (0.5 : F) * (16777215 / 16777216) = ((16777215 : Int) : F) * (2 : F) ^ (-25 : Int) := by
      norm_num
    rw [e, this]
    norm_num
  have h2 : fl64 ((16777215 / 33554432 : F)) = 16777215 / 33554432 := by
    have := fl64_dyadic (F := F) 16777215 (-25) (by norm_num) (by norm_num)
    have e : (16777215 / 33554432 : F) = ((16777215 : Int) : F) * (2 : F) ^ (-25 : Int) := by
      norm_num
    rw [e, this]
  have h3 : fl64 ((16777215 / 33554432 : F) / RADII) = 5592405 / 33554432 := by
    have := fl64_dyadic (F := F) 5592405 (-25) (by norm_num) (by norm_num)
    have e : (16777215 / 33554432 : F) / RADII = ((5592405 : Int) : F) * (2 : F) ^ (-25 : Int) := by
      unfold RADII; norm_num
    rw [e, this]
    norm_num
  have h4 : fl64 ((5592405 / 33554432 : F) * 4) = 5592405 / 8388608 := by
    have := fl64_dyadic (F := F) 5592405 (-23) (by norm_num) (by norm_num)
    have e : (5592405 / 33554432 : F) * 4 = ((5592405 : Int) : F) * (2 : F) ^ (-23 : Int) := by
      norm_num
    rw [e, this]
    norm_num
  have h5 : fl64 ((11184811 / 8388608 : F) + 5592405 / 8388608) = 2 := by
    have := fl64_intCast (F := F) 2 (by norm_num)
    have e : (11184811 / 8388608 : F) + 5592405 / 8388608 = ((2 : Int) : F) := by norm_num
    rw [e, this]
    norm_num
  constructor
  · unfold texel_origin
    rw [hW, hA, h1, fl32_radii_sub_two, mul_one, h2, h3, h4, h5]
    unfold trunc
    rw [if_pos (by norm_num)]
    have := Int.floor_intCast (α := F) 2
    exact_mod_cast this
  · unfold trunc
    rw [if_pos (by norm_num)]
    rw [Int.floor_eq_iff]
    norm_num

/-- The bump `add_bump` stores in a state with room left. -/
theorem add_bump_stored (Q : SnisLib F) (S : Sample) (p : Vec3 F) (r h : F) (s : BumpState F)
    (hroom : s.totalbumps < MAXBUMPS) :
    (add_bump Q S p r h s).bumplist s.totalbumps =
      { p := p, r := r, h := h, texelq := Q.quat_from_u2v p ⟨0, 0, 1⟩ ⟨0, 1, 0⟩,
        tx := texel_origin S.samplew (s.rand.stream s.rand.pos),
        ty := texel_origin S.sampleh (s.rand.stream (s.rand.pos + 1)),
        tr := (s.bumplist s.totalbumps).tr, ts := texel_scale S } := by
  have hc : ¬ s.totalbumps ≥ MAXBUMPS := not_le.mpr hroom
  simp only [add_bump, hc, if_false, Function.update_same, snis_random_float]

/-- The vector (0, 5/13, 12/13) has squared length 1 and is left as it is by
the normalisation. -/
theorem normalize_example :
    vec3_normalize plain_libm (⟨0, 5 / 13, 12 / 13⟩ : Vec3 F) = ⟨0, 5 / 13, 12 / 13⟩ := by
  have h : vec3_magnitude plain_libm (⟨0, 5 / 13, 12 / 13⟩ : Vec3 F) = 1 := by
    simp only [vec3_magnitude, plain_libm]
    norm_num
  simp only [vec3_normalize, h]
  norm_num

/-- The value `(int) x` of an integer. -/
theorem trunc_intCast (n : Int) : trunc ((n : Int) : F) = n := by
  unfold trunc
  split_ifs
  · exact Int.floor_intCast n
  · exact Int.ceil_intCast n

/-- C10 as stated fails.  First, the byte offset is an `int` and overflows for a
large sample: for a 36000 x 36000 sample (row stride 108000), random values
`u = u' = 1` and the vertex direction (0, 5/13, 12/13), whose local-frame
components 0 and 5/13 are at most 0.5, `distort_vertex` computes the in-range
coordinates (18000, 22615), but `22615 * 108000 + 3 * 18000 = 2442474000`
exceeds `INT_MAX` and the offset `p` wraps to a negative number.  Second, the
stored origin is not `trunc(w/3 + 0.5*u*(1/3)*w)`: for `w = 4` and
`u = 1 - 2^-24` the code stores `tx = 2`, the exact expression gives 1. -/
theorem sample_offset_overflows_and_origin_rounds :
    ((0 : Int) < (large_sample 128).samplew ∧ (0 : Int) < (large_sample 128).sampleh ∧
      (large_sample 128).sample_bytes_per_row =
        load_image_bytes_per_row (large_sample 128).samplew ∧
      (-1 : ℚ) ≤ 1 ∧ (1 : ℚ) ≤ 1 ∧
      |(plain_lib.quat_rot_vec (vec3_normalize plain_libm (⟨0, 5 / 13, 12 / 13⟩ : Vec3 ℚ))
          ((add_bump plain_lib (large_sample 128) ⟨0, 0, 1⟩ (0.4 : ℚ) 0.08
            (empty_bump_state 1)).bumplist 0).texelq).x| ≤ 0.5 ∧
      |(plain_lib.quat_rot_vec (vec3_normalize plain_libm (⟨0, 5 / 13, 12 / 13⟩ : Vec3 ℚ))
          ((add_bump plain_lib (large_sample 128) ⟨0, 0, 1⟩ (0.4 : ℚ) 0.08
            (empty_bump_state 1)).bumplist 0).texelq).y| ≤ 0.5) ∧
    sample_xy plain_libm plain_lib (⟨0, 5 / 13, 12 / 13⟩ : Vec3 ℚ)
        ((add_bump plain_lib (large_sample 128) ⟨0, 0, 1⟩ (0.4 : ℚ) 0.08
          (empty_bump_state 1)).bumplist 0) = (18000, 22615) ∧
    ((22615 : Int) * (large_sample 128).sample_bytes_per_row + 3 * 18000 = 2442474000 ∧
      INT_MAX < 2442474000) ∧
    sample_offset (large_sample 128) 18000 22615 = -1852493296 ∧
    ¬ (0 ≤ sample_offset (large_sample 128) 18000 22615) ∧
    (((add_bump plain_lib (uniform_sample 128) ⟨0, 0, 1⟩ (0.4 : ℚ) 0.08
        (empty_bump_state (16777215 / 16777216))).bumplist 0).tx = 2 ∧
      trunc ((4 : ℚ) / 3 + 0.5 * (16777215 / 16777216) * (1 / 3) * 4) = 1) := by
  have hb := add_bump_stored plain_lib (large_sample 128) ⟨0, 0, 1⟩ (0.4 : ℚ) 0.08
    (empty_bump_state 1) (by decide)
  have hb2 := add_bump_stored plain_lib (uniform_sample 128) ⟨0, 0, 1⟩ (0.4 : ℚ) 0.08
    (empty_bump_state (16777215 / 16777216)) (by decide)
  have hts : texel_scale (F := ℚ) (large_sample 128) = 12000 := by
    simp only [texel_scale, large_sample, lt_irrefl, if_false]
    have h1 := fl32_intCast (F := ℚ) 36000 (by norm_num)
    have h2 := fl32_intCast (F := ℚ) 12000 (by norm_num)
    have e : ((36000 : Int) : ℚ) / RADII = ((12000 : Int) : ℚ) := by unfold RADII; norm_num
    rw [h1, e, h2]
    norm_num
  have hto : texel_origin (large_sample 128).samplew
      ((empty_bump_state (1 : ℚ)).rand.stream (empty_bump_state (1 : ℚ)).rand.pos) = 18000 :=
    texel_origin_large_example (F := ℚ)
  have hto' : texel_origin (large_sample 128).sampleh
      ((empty_bump_state (1 : ℚ)).rand.stream ((empty_bump_state (1 : ℚ)).rand.pos + 1)) = 18000 :=
    texel_origin_large_example (F := ℚ)
  have hb' : (add_bump plain_lib (large_sample 128) ⟨0, 0, 1⟩ (0.4 : ℚ) 0.08
      (empty_bump_state 1)).bumplist 0 =
      { p := ⟨0, 0, 1⟩, r := 0.4, h := 0.08, texelq := ⟨1, 0, 0, 0⟩, tx := 18000, ty := 18000,
        tr := 0, ts := 12000 } := by
    refine hb.trans ?_
    rw [hto, hto', hts]
    rfl
  have hb2' : ((add_bump plain_lib (uniform_sample 128) ⟨0, 0, 1⟩ (0.4 : ℚ) 0.08
      (empty_bump_state (16777215 / 16777216))).bumplist 0).tx =
      texel_origin 4 (16777215 / 16777216 : ℚ) := by
    have := congrArg Bump.tx hb2
    exact this
  have hn := normalize_example (F := ℚ)
  have hy : fl32 ((5 / 13 : ℚ) * 12000) = 9452308 / 2048 := by
    have h := round_binary_eval (F := ℚ) 24 (-126) (x := (5 / 13 : ℚ) * 12000) 12 9452308
      (by rw [abs_of_pos (by norm_num)]; norm_num)
      (by rw [abs_of_pos (by norm_num)]; norm_num)
      (by norm_num) (by norm_num) (by norm_num)
    unfold fl32
    rw [h]
    norm_num
  have hty : trunc (9452308 / 2048 : ℚ) = 4615 := by
    unfold trunc
    rw [if_pos (by norm_num), Int.floor_eq_iff]
    norm_num
  have ht0 : trunc (fl32 ((0 : ℚ) * 12000)) = 0 := by
    rw [zero_mul, fl32_zero]
    simp [trunc]
  refine ⟨⟨by decide, by decide, by decide, by norm_num, by norm_num, ?_, ?_⟩, ?_,
    ⟨by decide, by decide⟩, by decide, by decide, ?_, (texel_origin_small_example (F := ℚ)).2⟩
  · rw [hn]
    simp only [plain_lib]
    norm_num
  · rw [hn]
    simp only [plain_lib]
    rw [abs_of_pos (by norm_num)]
    norm_num
  · rw [hb']
    simp only [sample_xy, hn, plain_lib, hy, hty, ht0]
    rfl
  · rw [hb2']
    exact (texel_origin_small_example (F := ℚ)).1

/-- The value `(int) x` of a non-negative number between `k` and `k + 1`. -/
theorem trunc_eq_of_mem (x : F) (k : Int) (hk : 0 ≤ k) (h0 : (k : F) ≤ x) (h1 : x < (k : F) + 1) :
    trunc x = k := by
  have hx : 0 ≤ x := le_trans (by exact_mod_cast hk) h0
  unfold trunc
  rw [if_pos hx, Int.floor_eq_iff]
  exact ⟨h0, h1⟩

/-- Evaluation of the texel origin for the extents 12 and 9 of the small
sample and the random value 1/4. -/
theorem texel_origin_witness_example :
    texel_origin 12 (1 / 4 : F) = 4 ∧ texel_origin 9 (1 / 4 : F) = 3 := by
  have hq : fl64 ((1 : F) / 4) = 1 / 4 := by
    have := fl64_dyadic (F := F) 1 (-2) (by norm_num) (by norm_num)
    have e : (1 : F) / 4 = ((1 : Int) : F) * (2 : F) ^ (-2 : Int) := by norm_num
    rw [e, this]
  have hh : fl64 ((1 : F) / 2) = 1 / 2 := by
    have := fl64_dyadic (F := F) 1 (-1) (by norm_num) (by norm_num)
    have e : (1 : F) / 2 = ((1 : Int) : F) * (2 : F) ^ (-1 : Int) := by norm_num
    rw [e, this]
  have h1 : fl64 ((0.5 : F) * (1 / 4)) = 1 / 8 := by
    have := fl64_dyadic (F := F) 1 (-3) (by norm_num) (by norm_num)
    have e : (0.5 : F) * (1 / 4) = ((1 : Int) : F) * (2 : F) ^ (-3 : Int) := by norm_num
    rw [e, this]
    norm_num
  have h2 : fl64 ((1 : F) / 8) = 1 / 8 := by
    have := fl64_dyadic (F := F) 1 (-3) (by norm_num) (by norm_num)
    have e : (1 : F) / 8 = ((1 : Int) : F) * (2 : F) ^ (-3 : Int) := by norm_num
    rw [e, this]
  have h3 : fl64 ((1 : F) / 8 / RADII) = 6004799503160661 / 144115188075855872 := by
    have h := round_binary_eval (F := F) 53 (-1022) (x := (1 : F) / 8 / RADII) (-5)
      6004799503160661
      (by unfold RADII; rw [abs_of_pos (by norm_num)]; norm_num)
      (by unfold RADII; rw [abs_of_pos (by norm_num)]; norm_num)
      (by norm_num) (by unfold RADII; norm_num) (by unfold RADII; norm_num)
    unfold fl64
    rw [h]
    norm_num
  have key : ∀ n : Int, 9 ≤ n → n ≤ 12 → (3 ∣ n) → texel_origin n (1 / 4 : F) = n / 3 := by
    intro n hn6 hn12 hdiv
    obtain ⟨k, rfl⟩ := hdiv
    have hk : 3 ≤ k ∧ k ≤ 4 := by omega
    have hkF : (3 : F) ≤ (k : F) ∧ (k : F) ≤ 4 := by
      constructor
      · exact_mod_cast hk.1
      · exact_mod_cast hk.2
    have hW : fl32 ((3 * k : Int) : F) = ((3 * k : Int) : F) :=
      fl32_intCast _ (by rw [abs_lt]; omega)
    have hA : fl32 (((3 * k : Int) : F) / RADII) = (k : F) := by
      have e : ((3 * k : Int) : F) / RADII = (k : F) := by
        unfold RADII
        push_cast
        norm_num
      rw [e]
      exact fl32_intCast _ (by rw [abs_lt]; omega)
    have hB1 : (1 : F) / 4 ≤
        fl64 ((6004799503160661 / 144115188075855872 : F) * ((3 * k : Int) : F)) := by
      apply le_fl64_of_le hq
      push_cast
      linarith
    have hB2 : fl64 ((6004799503160661 / 144115188075855872 : F) * ((3 * k : Int) : F)) ≤
        1 / 2 := by
      apply fl64_le_of_le hh
      push_cast
      linarith
    have hr1 : fl64 (((4 * k + 1 : Int) : F) * (2 : F) ^ (-2 : Int)) =
        ((4 * k + 1 : Int) : F) * (2 : F) ^ (-2 : Int) :=
      fl64_dyadic _ _ (by rw [abs_lt]; omega) (by norm_num)
    have hr2 : fl64 (((2 * k + 1 : Int) : F) * (2 : F) ^ (-1 : Int)) =
        ((2 * k + 1 : Int) : F) * (2 : F) ^ (-1 : Int) :=
      fl64_dyadic _ _ (by rw [abs_lt]; omega) (by norm_num)
    have e4 : (2 : F) ^ (-2 : Int) = 1 / 4 := by norm_num
    have e2 : (2 : F) ^ (-1 : Int) = 1 / 2 := by norm_num
    unfold texel_origin
    rw [hW, hA, h1, fl32_radii_sub_two, mul_one, h2, h3]
    have e3 : 3 * k / 3 = k := by omega
    rw [e3]
    push_cast at hB1 hB2
    apply trunc_eq_of_mem _ _ (by omega)
    · refine le_trans ?_ (le_fl64_of_le hr1 ?_)
      · rw [e4]; push_cast; linarith
      · rw [e4]; push_cast; linarith
    · refine lt_of_le_of_lt (fl64_le_of_le hr2 ?_) ?_
      · rw [e2]; push_cast; linarith
      · rw [e2]; push_cast; linarith
  exact ⟨key 12 (by norm_num) (by norm_num) ⟨4, by norm_num⟩,
    key 9 (by norm_num) (by norm_num) ⟨3, by norm_num⟩⟩

/-! ## Cube map faces (C5) -/

/-- Two quotients by the same positive `dim` are equal exactly when the
numerators are. -/
theorem cast_div_eq_cast_div (a b dim : Int) (hd : 0 < dim) :
    ((a : F) / (dim : F) = (b : F) / (dim : F)) ↔ a = b := by
  have hdF : (dim : F) ≠ 0 := by exact_mod_cast (ne_of_gt hd)
  rw [div_left_inj' hdF]
  exact Int.cast_inj

/-- The quotient `a / dim` is 0.5 exactly when `2 * a = dim`. -/
theorem cast_div_eq_half (a dim : Int) (hd : 0 < dim) :
    ((a : F) / (dim : F) = 0.5) ↔ 2 * a = dim := by
  have hdF : (dim : F) ≠ 0 := by exact_mod_cast (ne_of_gt hd)
  rw [div_eq_iff hdF]
  constructor
  · intro h
    have : ((2 * a : Int) : F) = (dim : F) := by push_cast; rw [h]; ring
    exact_mod_cast this
  · intro h
    have : ((2 * a : Int) : F) = (dim : F) := by rw [h]
    push_cast at this
    rw [← this]; ring

/-- The quotient `a / dim` is -0.5 exactly when `2 * a = -dim`. -/
theorem cast_div_eq_neg_half (a dim : Int) (hd : 0 < dim) :
    ((a : F) / (dim : F) = -0.5) ↔ 2 * a = -dim := by
  have h := cast_div_eq_half (F := F) (-a) dim hd
  have e : ((a : F) / (dim : F) = -0.5) ↔ (((-a : Int) : F) / (dim : F) = 0.5) := by
    push_cast
    rw [neg_div]
    constructor <;> intro h' <;> linarith
  rw [e, h]
  omega

/-- The equalities between the coordinates of two cube face points, as
equations between integers. -/
theorem cube_point_eq_iff (dim : Int) (hdim : 0 < dim) (f f' : Nat) (hf : f < 6) (hf' : f' < 6)
    (i j i' j' : Int) (hi : 0 ≤ i ∧ i < dim) (hj : 0 ≤ j ∧ j < dim)
    (hi' : 0 ≤ i' ∧ i' < dim) (hj' : 0 ≤ j' ∧ j' < dim) :
    (cube_point (F := F) f i j dim = cube_point f' i' j' dim) ↔
      ((f = f' ∧ i = i' ∧ j = j') ∨
       (dim % 2 = 0 ∧ f = 2 ∧ f' = 4 ∧ j = 0 ∧ j' = 0 ∧ i + i' = dim) ∨
       (dim % 2 = 0 ∧ f = 4 ∧ f' = 2 ∧ j = 0 ∧ j' = 0 ∧ i + i' = dim) ∨
       (dim % 2 = 0 ∧ f = 3 ∧ f' = 4 ∧ j = 0 ∧ i' = 0 ∧ j' = i) ∨
       (dim % 2 = 0 ∧ f = 4 ∧ f' = 3 ∧ i = 0 ∧ j' = 0 ∧ j = i')) := by
  have hh : dim.tdiv 2 = dim / 2 := Int.tdiv_eq_ediv (le_of_lt hdim) (by decide)
  have n1 : ∀ a : Int, (-(a : F)) = ((-a : Int) : F) := fun a => by push_cast; rfl
  have s1 : ∀ a : Int, ((0.5 : F) = (a : F) / (dim : F)) ↔ 2 * a = dim := fun a => by
    rw [eq_comm]; exact cast_div_eq_half a dim hdim
  have s2 : ∀ a : Int, ((-0.5 : F) = (a : F) / (dim : F)) ↔ 2 * a = -dim := fun a => by
    rw [eq_comm]; exact cast_div_eq_neg_half a dim hdim
  have s3 : ((-0.5 : F) = 0.5) ↔ False := by norm_num
  have s4 : ((0.5 : F) = -0.5) ↔ False := by norm_num
  interval_cases f <;> interval_cases f' <;>
    simp only [cube_point, Vec3.mk.injEq, n1, cast_div_eq_cast_div _ _ dim hdim,
      cast_div_eq_half _ dim hdim, cast_div_eq_neg_half _ dim hdim, s1, s2, s3, s4, hh] <;>
    first | omega | (simp <;> omega)

/-- The quotient `a / dim` has absolute value at most 0.5 when `|2 * a| ≤ dim`. -/
theorem cast_div_abs_le_half (a dim : Int) (hd : 0 < dim) (h1 : -dim ≤ 2 * a)
    (h2 : 2 * a ≤ dim) : |(a : F) / (dim : F)| ≤ 0.5 := by
  have hdF : (0 : F) < (dim : F) := by exact_mod_cast hd
  have h1F : -(dim : F) ≤ 2 * (a : F) := by exact_mod_cast h1
  have h2F : 2 * (a : F) ≤ (dim : F) := by exact_mod_cast h2
  rw [abs_le]
  constructor
  · rw [le_div_iff₀ hdF]; norm_num; linarith
  · rw [div_le_iff₀ hdF]; norm_num; linarith

/-- Every point `cube_point` computes for a face and grid coordinates in range
lies on the surface of the cube. -/
theorem cube_point_on_cube (dim : Int) (hdim : 0 < dim) (f : Nat) (hf : f < 6)
    (i j : Int) (hi : 0 ≤ i ∧ i < dim) (hj : 0 ≤ j ∧ j < dim) :
    OnCube (cube_point (F := F) f i j dim) := by
  have hh : dim.tdiv 2 = dim / 2 := Int.tdiv_eq_ediv (le_of_lt hdim) (by decide)
  have ai : |((i - dim.tdiv 2 : Int) : F) / (dim : F)| ≤ 0.5 :=
    cast_div_abs_le_half _ dim hdim (by rw [hh]; omega) (by rw [hh]; omega)
  have aj : |((j - dim.tdiv 2 : Int) : F) / (dim : F)| ≤ 0.5 :=
    cast_div_abs_le_half _ dim hdim (by rw [hh]; omega) (by rw [hh]; omega)
  have ni : |-((i - dim.tdiv 2 : Int) : F) / (dim : F)| ≤ 0.5 := by
    rw [neg_div, abs_neg]; exact ai
  have nj : |-((j - dim.tdiv 2 : Int) : F) / (dim : F)| ≤ 0.5 := by
    rw [neg_div, abs_neg]; exact aj
  have p : |(0.5 : F)| = 0.5 := abs_of_pos (by norm_num)
  have n : |(-0.5 : F)| = 0.5 := by rw [abs_neg]; exact p
  unfold OnCube
  interval_cases f <;> simp only [cube_point, p, n, le_refl, true_or, or_true, and_true, true_and,
    ai, aj, ni, nj, and_self]

/-- Two points of the cube surface of which one is a positive multiple of the
other are equal. -/
theorem on_cube_scale_eq_one (v w : Vec3 F) (c : F) (hc : 0 < c) (hv : OnCube v)
    (hw : OnCube w) (hx : v.x = c * w.x) (hy : v.y = c * w.y) (hz : v.z = c * w.z) :
    c = 1 := by
  obtain ⟨⟨vx, vy, vz⟩, hvm⟩ := hv
  obtain ⟨⟨wx, wy, wz⟩, hwm⟩ := hw
  have ax : |v.x| = c * |w.x| := by rw [hx, abs_mul, abs_of_pos hc]
  have ay : |v.y| = c * |w.y| := by rw [hy, abs_mul, abs_of_pos hc]
  have az : |v.z| = c * |w.z| := by rw [hz, abs_mul, abs_of_pos hc]
  have hge : 1 ≤ c := by
    rcases hvm with h | h | h
    · rw [h] at ax; nlinarith
    · rw [h] at ay; nlinarith
    · rw [h] at az; nlinarith
  have hle : c ≤ 1 := by
    rcases hwm with h | h | h
    · rw [h] at ax; nlinarith
    · rw [h] at ay; nlinarith
    · rw [h] at az; nlinarith
  exact le_antisymm hle hge

/-- A point of the cube surface has a positive squared length. -/
theorem on_cube_norm_sq_pos (v : Vec3 F) (hv : OnCube v) :
    0 < v.x * v.x + v.y * v.y + v.z * v.z := by
  obtain ⟨_, hvm⟩ := hv
  have sx : |v.x| * |v.x| = v.x * v.x := abs_mul_abs_self v.x
  have sy : |v.y| * |v.y| = v.y * v.y := abs_mul_abs_self v.y
  have sz : |v.z| * |v.z| = v.z * v.z := abs_mul_abs_self v.z
  have nx := mul_self_nonneg v.x
  have ny := mul_self_nonneg v.y
  have nz := mul_self_nonneg v.z
  rcases hvm with h | h | h
  · rw [h] at sx; norm_num at sx; linarith
  · rw [h] at sy; norm_num at sy; linarith
  · rw [h] at sz; norm_num at sz; linarith

/-- Normalisation separates the points of the cube surface, for any square
root that is positive on positive numbers. -/
theorem normalize_injective_on_cube (M : Libm F) (hsqrt : ∀ x, 0 < x → 0 < M.sqrt x)
    (v w : Vec3 F) (hv : OnCube v) (hw : OnCube w)
    (h : vec3_normalize M v = vec3_normalize M w) : v = w := by
  have ha : 0 < vec3_magnitude M v := hsqrt _ (on_cube_norm_sq_pos v hv)
  have hb : 0 < vec3_magnitude M w := hsqrt _ (on_cube_norm_sq_pos w hw)
  simp only [vec3_normalize, Vec3.mk.injEq] at h
  obtain ⟨ex, ey, ez⟩ := h
  have fx : v.x = vec3_magnitude M v / vec3_magnitude M w * w.x := by
    field_simp; rw [div_eq_div_iff (ne_of_gt ha) (ne_of_gt hb)] at ex; linarith
  have fy : v.y = vec3_magnitude M v / vec3_magnitude M w * w.y := by
    field_simp; rw [div_eq_div_iff (ne_of_gt ha) (ne_of_gt hb)] at ey; linarith
  have fz : v.z = vec3_magnitude M v / vec3_magnitude M w * w.z := by
    field_simp; rw [div_eq_div_iff (ne_of_gt ha) (ne_of_gt hb)] at ez; linarith
  have hc := on_cube_scale_eq_one v w _ (div_pos ha hb) hv hw fx fy fz
  rw [hc, one_mul] at fx fy fz
  exact Vec3.ext fx fy fz

/-- C5 as stated fails: for dim = 1024 the distinct grid cells (face 2, i = 512,
j = 0) and (face 4, i = 512, j = 0) are both mapped to the cube point
(0, 0.5, -0.5), an edge shared by the two faces, and so to the same direction. -/
theorem cube_faces_share_edge_point :
    ((2 : Nat), (512 : Int), (0 : Int)) ≠ ((4 : Nat), (512 : Int), (0 : Int)) ∧
    cube_point (F := ℝ) 2 512 0 1024 = ⟨0, 0.5, -0.5⟩ ∧
    cube_point (F := ℝ) 4 512 0 1024 = ⟨0, 0.5, -0.5⟩ ∧
    fij_to_xyz (Libm.mk Real.sqrt Real.cos Real.pi) 2 512 0 1024 =
      fij_to_xyz (Libm.mk Real.sqrt Real.cos Real.pi) 4 512 0 1024 := by
  have h : (1024 : Int).tdiv 2 = 512 := by decide
  have e2 : cube_point (F := ℝ) 2 512 0 1024 = ⟨0, 0.5, -0.5⟩ := by
    simp only [cube_point, h]
    norm_num
  have e4 : cube_point (F := ℝ) 4 512 0 1024 = ⟨0, 0.5, -0.5⟩ := by
    simp only [cube_point, h]
    norm_num
  refine ⟨by decide, e2, e4, ?_⟩
  unfold fij_to_xyz
  rw [e2, e4]

/-- For the grid the program uses the coordinates of a cube face point are
binary32 values: the conversions and the quotient of `fij_to_xyz` are exact. -/
theorem cube_point_binary32 (f : Nat) (i j : Int) (hi : 0 ≤ i ∧ i < DIM) (hj : 0 ≤ j ∧ j < DIM) :
    fl32 ((i - (DIM : Int).tdiv 2 : Int) : F) = ((i - (DIM : Int).tdiv 2 : Int) : F) ∧
    fl32 ((DIM : Int) : F) = ((DIM : Int) : F) ∧
    fl32 (cube_point (F := F) f i j DIM).x = (cube_point (F := F) f i j DIM).x ∧
    fl32 (cube_point (F := F) f i j DIM).y = (cube_point (F := F) f i j DIM).y ∧
    fl32 (cube_point (F := F) f i j DIM).z = (cube_point (F := F) f i j DIM).z := by
  have hh : ((DIM : Nat) : Int).tdiv 2 = 512 := by decide
  have hd : ((DIM : Nat) : Int) = 1024 := by decide
  rw [hd] at hi hj
  rw [hh, hd]
  have key : ∀ a : Int, 0 ≤ a ∧ a < 1024 →
      fl32 (((a - 512 : Int) : F) / ((1024 : Int) : F)) = ((a - 512 : Int) : F) / ((1024 : Int) : F) ∧
      fl32 (-((a - 512 : Int) : F) / ((1024 : Int) : F)) =
        -((a - 512 : Int) : F) / ((1024 : Int) : F) := by
    intro a ha
    have h1 := fl32_dyadic (F := F) (a - 512) (-10) (by rw [abs_lt]; omega) (by norm_num)
    have h2 := fl32_dyadic (F := F) (-(a - 512)) (-10) (by rw [abs_lt]; omega) (by norm_num)
    have e1 : ((a - 512 : Int) : F) / ((1024 : Int) : F) =
        ((a - 512 : Int) : F) * (2 : F) ^ (-10 : Int) := by
      rw [div_eq_mul_inv]; congr 1; norm_num
    have e2 : -((a - 512 : Int) : F) / ((1024 : Int) : F) =
        ((-(a - 512) : Int) : F) * (2 : F) ^ (-10 : Int) := by
      rw [div_eq_mul_inv]; push_cast; congr 1; norm_num
    rw [e1, e2]
    exact ⟨h1, h2⟩
  have half : fl32 (0.5 : F) = 0.5 := by
    have := fl32_dyadic (F := F) 1 (-1) (by norm_num) (by norm_num)
    have e : (0.5 : F) = ((1 : Int) : F) * (2 : F) ^ (-1 : Int) := by norm_num
    rw [e, this]
  have nhalf : fl32 (-0.5 : F) = -0.5 := by
    have := fl32_dyadic (F := F) (-1) (-1) (by norm_num) (by norm_num)
    have e : (-0.5 : F) = ((-1 : Int) : F) * (2 : F) ^ (-1 : Int) := by norm_num
    rw [e, this]
  refine ⟨fl32_intCast _ (by rw [abs_lt]; omega), fl32_intCast _ (by norm_num), ?_⟩
  obtain ⟨ki, kni⟩ := key i hi
  obtain ⟨kj, knj⟩ := key j hj
  match f with
  | 0 => exact ⟨ki, knj, half⟩
  | 1 => exact ⟨half, knj, kni⟩
  | 2 => exact ⟨kni, knj, nhalf⟩
  | 3 => exact ⟨nhalf, knj, ki⟩
  | 4 => exact ⟨ki, half, kj⟩
  | 5 => exact ⟨ki, nhalf, knj⟩
  | _ + 6 => exact ⟨fl32_zero, fl32_zero, fl32_zero⟩

/-- C5, amended: the face mappings of `fij_to_xyz` overlap only along two cube
edges.  For the grid the program uses, `dim = DIM = 1024`, faces `f, f'` in 0..5
and `i, j, i', j'` in `[0, DIM)`: the conversions and quotients that give the
cube face point are exact in binary32; the unit directions returned for
`(f, i, j)` and `(f', i', j')` are equal exactly when the cube face points
computed before normalisation are (for any square root that is positive on
positive numbers), and these are equal exactly when `(f, i, j) = (f', i', j')`,
or the two cells are cells of faces 2 and 4 with `j = j' = 0` and
`i + i' = DIM`, or cells of faces 3 and 4 with `j = 0` on face 3, `i = 0` on
face 4 and the other two coordinates equal. -/
theorem cube_faces_overlap_only_on_edges (M : Libm F) (hsqrt : ∀ x, 0 < x → 0 < M.sqrt x)
    (f f' : Nat) (hf : f < 6) (hf' : f' < 6)
    (i j i' j' : Int) (hi : 0 ≤ i ∧ i < DIM) (hj : 0 ≤ j ∧ j < DIM)
    (hi' : 0 ≤ i' ∧ i' < DIM) (hj' : 0 ≤ j' ∧ j' < DIM) :
    (fl32 (cube_point (F := F) f i j DIM).x = (cube_point (F := F) f i j DIM).x ∧
      fl32 (cube_point (F := F) f i j DIM).y = (cube_point (F := F) f i j DIM).y ∧
      fl32 (cube_point (F := F) f i j DIM).z = (cube_point (F := F) f i j DIM).z) ∧
    (fij_to_xyz M f i j DIM = fij_to_xyz M f' i' j' DIM ↔
      cube_point (F := F) f i j DIM = cube_point f' i' j' DIM) ∧
    ((cube_point (F := F) f i j DIM = cube_point f' i' j' DIM) ↔
      ((f = f' ∧ i = i' ∧ j = j') ∨
       (f = 2 ∧ f' = 4 ∧ j = 0 ∧ j' = 0 ∧ i + i' = DIM) ∨
       (f = 4 ∧ f' = 2 ∧ j = 0 ∧ j' = 0 ∧ i + i' = DIM) ∨
       (f = 3 ∧ f' = 4 ∧ j = 0 ∧ i' = 0 ∧ j' = i) ∨
       (f = 4 ∧ f' = 3 ∧ i = 0 ∧ j' = 0 ∧ j = i'))) := by
  have hdim : (0 : Int) < (DIM : Int) := by decide
  have heven : ((DIM : Nat) : Int) % 2 = 0 := by decide
  refine ⟨(cube_point_binary32 f i j hi hj).2.2, ⟨?_, ?_⟩, ?_⟩
  · intro h
    exact normalize_injective_on_cube M hsqrt _ _
      (cube_point_on_cube DIM hdim f hf i j hi hj)
      (cube_point_on_cube DIM hdim f' hf' i' j' hi' hj') h
  · intro h
    unfold fij_to_xyz
    rw [h]
  · rw [cube_point_eq_iff DIM hdim f f' hf hf' i j i' j' hi hj hi' hj']
    simp only [heven, true_and]

/-- Instance of the amended C5 over the reals: the corner cells `(0, 0)` of
faces 0 and 1 are mapped to different directions. -/
theorem cube_faces_overlap_only_on_edges_witness :
    fij_to_xyz (Libm.mk Real.sqrt Real.cos Real.pi) 0 0 0 DIM ≠
      fij_to_xyz (Libm.mk Real.sqrt Real.cos Real.pi) 1 0 0 DIM := by
  intro h
  have key := cube_faces_overlap_only_on_edges (Libm.mk Real.sqrt Real.cos Real.pi)
    (fun x hx => Real.sqrt_pos.mpr hx) 0 1 (by decide) (by decide) 0 0 0 0
    ⟨by decide, by decide⟩ ⟨by decide, by decide⟩ ⟨by decide, by decide⟩ ⟨by decide, by decide⟩
  have := key.2.2.mp (key.2.1.mp h)
  omega

/-! ## Painter (C7) -/

/-- The offset of a texel of the grid lies inside a face buffer, with room for
its four bytes. -/
theorem texel_offset_in_buffer (i j : Nat) (hi : i < DIM) (hj : j < DIM) :
    0 ≤ texel_offset i j ∧ texel_offset i j + 3 < 4 * DIM * DIM := by
  have hi' : (i : Int) < 1024 := by have := hi; simp only [DIM] at this; omega
  have hj' : (j : Int) < 1024 := by have := hj; simp only [DIM] at this; omega
  simp only [texel_offset, DIM, Nat.cast_ofNat]
  omega

/-- The four bytes of two different texels of a face do not overlap. -/
theorem texel_offset_disjoint (i j i' j' : Nat) (hi : i < DIM) (hi' : i' < DIM)
    (hne : ¬ (i' = i ∧ j' = j)) (k k' : Int) (hk : 0 ≤ k ∧ k < 4) (hk' : 0 ≤ k' ∧ k' < 4) :
    texel_offset i' j' + k' ≠ texel_offset i j + k := by
  have h1 : (i : Int) < 1024 := by have := hi; simp only [DIM] at this; omega
  have h2 : (i' : Int) < 1024 := by have := hi'; simp only [DIM] at this; omega
  simp only [texel_offset, DIM, Nat.cast_ofNat]
  intro h
  apply hne
  constructor <;> omega

/-- What one iteration of the innermost loop of `paint_height_maps` leaves in
each byte of each face buffer. -/
theorem paint_height_texel_apply (M : Libm F) (min max : F) (vertex : Grid F) (f i j : Nat)
    (img : Image) (f' : Nat) (q : Int) :
    paint_height_texel M min max vertex f i j img f' q =
      if f' = f ∧ q = texel_offset i j + 3 then 255
      else if f' = f ∧ q = texel_offset i j + 2 then
        (if normalized_height M min max vertex f i j > SEALEVEL then
          to_uchar (fl32 (normalized_height M min max vertex f i j * 255.0)) else 200)
      else if f' = f ∧ q = texel_offset i j + 1 then
        (if normalized_height M min max vertex f i j > SEALEVEL then
          to_uchar (fl32 (normalized_height M min max vertex f i j * 255.0)) else 100)
      else if f' = f ∧ q = texel_offset i j + 0 then
        (if normalized_height M min max vertex f i j > SEALEVEL then
          to_uchar (fl32 (normalized_height M min max vertex f i j * 255.0)) else 20)
      else img f' q := by
  unfold paint_height_texel
  by_cases hsea : normalized_height M min max vertex f i j > SEALEVEL
  · simp only [hsea, if_true, Image.set]
  · simp only [hsea, if_false, Image.set]

/-- After `paint_height_maps`, each byte of the texel `(f, i, j)` holds what the
iteration for that texel wrote. -/
theorem paint_height_maps_at (M : Libm F) (min max : F) (vertex : Grid F) (img : Image)
    (f i j : Nat) (hf : f < 6) (hi : i < DIM) (hj : j < DIM) (k : Int) (hk : 0 ≤ k ∧ k < 4)
    (val : Nat)
    (hval : ∀ s : Image, paint_height_texel M min max vertex f i j s f (texel_offset i j + k) = val) :
    paint_height_maps M min max vertex img f (texel_offset i j + k) = val := by
  have pres : ∀ f' i' j', i' < DIM → ∀ s : Image, s f (texel_offset i j + k) = val →
      paint_height_texel M min max vertex f' i' j' s f (texel_offset i j + k) = val := by
    intro f' i' j' hi' s hs
    by_cases hsame : f' = f ∧ i' = i ∧ j' = j
    · obtain ⟨rfl, rfl, rfl⟩ := hsame
      exact hval s
    · rw [paint_height_texel_apply]
      by_cases hff : f = f'
      · subst hff
        have hij : ¬ (i' = i ∧ j' = j) := fun h => hsame ⟨rfl, h⟩
        have d0 := texel_offset_disjoint i j i' j' hi hi' hij k 0 hk ⟨by decide, by decide⟩
        have d1 := texel_offset_disjoint i j i' j' hi hi' hij k 1 hk ⟨by decide, by decide⟩
        have d2 := texel_offset_disjoint i j i' j' hi hi' hij k 2 hk ⟨by decide, by decide⟩
        have d3 := texel_offset_disjoint i j i' j' hi hi' hij k 3 hk ⟨by decide, by decide⟩
        simp only [Ne.symm d0, Ne.symm d1, Ne.symm d2, Ne.symm d3, and_false, if_false]
        exact hs
      · simp only [hff, false_and, if_false]
        exact hs
  unfold paint_height_maps
  apply for_loop_reach (fun s : Image => s f (texel_offset i j + k) = val) 6 f _ hf
  · intro s
    apply for_loop_reach (fun s : Image => s f (texel_offset i j + k) = val) DIM i _ hi
    · intro s
      apply for_loop_reach (fun s : Image => s f (texel_offset i j + k) = val) DIM j _ hj
      · intro s
        exact hval s
      · intro j' _ s hs
        exact pres f i j' hi s hs
    · intro i' hi' s hs
      exact for_loop_invariant _ DIM _ (fun j' _ t ht => pres f i' j' hi' t ht) s hs
  · intro f' _ s hs
    exact for_loop_invariant _ DIM _
      (fun i' hi' t ht => for_loop_invariant _ DIM _ (fun j' _ u hu => pres f' i' j' hi' u hu) t ht)
      s hs

/-- The function `paint_height_maps` writes nothing outside the first 4*DIM*DIM bytes of the
six face buffers. -/
theorem paint_height_maps_frame (M : Libm F) (min max : F) (vertex : Grid F) (img : Image)
    (f : Nat) (q : Int) (hout : ¬ (f < 6 ∧ 0 ≤ q ∧ q < 4 * DIM * DIM)) :
    paint_height_maps M min max vertex img f q = img f q := by
  unfold paint_height_maps
  apply for_loop_frame (fun s : Image => s f q) 6
  intro f' hf' s
  apply for_loop_frame (fun s : Image => s f q) DIM
  intro i' hi' s
  apply for_loop_frame (fun s : Image => s f q) DIM
  intro j' hj' s
  show paint_height_texel M min max vertex f' i' j' s f q = s f q
  rw [paint_height_texel_apply]
  obtain ⟨b0, b1⟩ := texel_offset_in_buffer i' j' hi' hj'
  have hne : ∀ k : Int, 0 ≤ k → k < 4 → ¬ (f = f' ∧ q = texel_offset i' j' + k) := by
    rintro k k0 k4 ⟨rfl, rfl⟩
    exact hout ⟨hf', by omega, by omega⟩
  simp only [hne 0 (by decide) (by decide), hne 1 (by decide) (by decide),
    hne 2 (by decide) (by decide), hne 3 (by decide) (by decide), if_false]

/-- The byte `to_uchar` makes of the binary32 product `n * 255` for `n` in
[0, 1] is the floor of that product, and is at least 20 when `n > SEALEVEL`. -/
theorem to_uchar_scaled (n : F) (h0 : 0 ≤ n) (h1 : n ≤ 1) :
    ((to_uchar (fl32 (n * 255.0)) : Nat) : Int) = ⌊fl32 (n * 255)⌋ ∧
    to_uchar (fl32 (n * 255.0)) ≤ 255 ∧
    (n > SEALEVEL → 20 ≤ to_uchar (fl32 (n * 255.0))) := by
  have e : n * (255.0 : F) = n * 255 := by norm_num
  have f255 : fl32 (255 : F) = 255 := by
    have := fl32_intCast (F := F) 255 (by norm_num)
    simpa using this
  have f20 : fl32 (20 : F) = 20 := by
    have := fl32_intCast (F := F) 20 (by norm_num)
    simpa using this
  have hnn : (0 : F) ≤ fl32 (n * 255) := fl32_nonneg (by positivity)
  have hle : fl32 (n * 255) ≤ 255 := fl32_le_of_le f255 (by linarith)
  have hfl0 : 0 ≤ ⌊fl32 (n * 255)⌋ := Int.floor_nonneg.mpr hnn
  have hfl1 : ⌊fl32 (n * 255)⌋ ≤ 255 := by
    have : ⌊fl32 (n * 255)⌋ ≤ ⌊(255 : F)⌋ := Int.floor_mono hle
    have e2 : ⌊(255 : F)⌋ = 255 := by
      have h255 : ((255 : Int) : F) = 255 := by norm_num
      rw [← h255]
      exact Int.floor_intCast 255
    omega
  have hu : ((to_uchar (fl32 (n * 255.0)) : Nat) : Int) = ⌊fl32 (n * 255)⌋ := by
    unfold to_uchar trunc
    rw [e, if_pos hnn]
    omega
  refine ⟨hu, by omega, ?_⟩
  intro hsea
  rw [SEALEVEL_eq] at hsea
  have h20 : (20 : F) ≤ fl32 (n * 255) := by
    apply le_fl32_of_le f20
    have : (5764607523034235 / 72057594037927936 : F) * 255 < n * 255 := by nlinarith
    norm_num at this ⊢
    linarith
  have : (20 : Int) ≤ ⌊fl32 (n * 255)⌋ := by
    rw [Int.le_floor]
    exact_mod_cast h20
  omega

/-- The normalised height of a vertex whose magnitude lies between the binary32
values `min < max` lies in [0, 1]. -/
theorem normalized_height_bounds (M : Libm F) (min max : F) (hmin : fl32 min = min)
    (hmax : fl32 max = max) (hmm : min < max) (vertex : Grid F) (f i j : Nat)
    (hlo : min ≤ vec3_magnitude M (vertex f i j))
    (hhi : vec3_magnitude M (vertex f i j) ≤ max) :
    0 < fl32 (max - min) ∧ 0 ≤ normalized_height M min max vertex f i j ∧
      normalized_height M min max vertex f i j ≤ 1 := by
  have hd : 0 < fl32 (max - min) := fl32_sub_pos hmin hmax hmm
  have hn : 0 ≤ fl32 (vec3_magnitude M (vertex f i j) - min) := fl32_nonneg (sub_nonneg.mpr hlo)
  have hnd : fl32 (vec3_magnitude M (vertex f i j) - min) ≤ fl32 (max - min) :=
    fl32_mono (by linarith)
  have f1 : fl32 (1 : F) = 1 := by
    have := fl32_intCast (F := F) 1 (by norm_num)
    simpa using this
  refine ⟨hd, ?_, ?_⟩
  · unfold normalized_height
    exact fl32_nonneg (div_nonneg hn hd.le)
  · unfold normalized_height
    apply fl32_le_of_le f1
    rw [div_le_one hd]
    exact hnd

/-- Evaluation of the painter's binary32 operations for `min = 0.75`,
`max = 1.5` and the magnitude `0x1.060606p+0 = 8585987 / 2^23`: the normalised
height is `12237499 / 2^25` and its product with 255 is exactly 93. -/
theorem fl32_height_example :
    fl32 (fl32 ((8585987 / 8388608 : F) - 0.75) / fl32 (1.5 - 0.75)) = 12237499 / 33554432 ∧
    fl32 ((12237499 / 33554432 : F) * 255) = 93 := by
  have h1 : fl32 ((8585987 / 8388608 : F) - 0.75) = 2294531 / 8388608 := by
    have := fl32_dyadic (F := F) 2294531 (-23) (by norm_num) (by norm_num)
    have e : (8585987 / 8388608 : F) - 0.75 = ((2294531 : Int) : F) * (2 : F) ^ (-23 : Int) := by
      norm_num
    rw [e, this]
    norm_num
  have h2 : fl32 ((1.5 : F) - 0.75) = 3 / 4 := by
    have := fl32_dyadic (F := F) 3 (-2) (by norm_num) (by norm_num)
    have e : (1.5 : F) - 0.75 = ((3 : Int) : F) * (2 : F) ^ (-2 : Int) := by norm_num
    rw [e, this]
    norm_num
  have h3 : fl32 ((2294531 / 8388608 : F) / (3 / 4)) = 12237499 / 33554432 := by
    have h := round_binary_eval (F := F) 24 (-126) (x := (2294531 / 8388608 : F) / (3 / 4)) (-2)
      12237499
      (by rw [abs_of_pos (by norm_num)]; norm_num)
      (by rw [abs_of_pos (by norm_num)]; norm_num)
      (by norm_num) (by norm_num) (by norm_num)
    unfold fl32
    rw [h]
    norm_num
  have h4 : fl32 ((12237499 / 33554432 : F) * 255) = 93 := by
    have h := round_binary_eval (F := F) 24 (-126) (x := (12237499 / 33554432 : F) * 255) 6
      12189696
      (by rw [abs_of_pos (by norm_num)]; norm_num)
      (by rw [abs_of_pos (by norm_num)]; norm_num)
      (by norm_num) (by norm_num) (by norm_num)
    unfold fl32
    rw [h]
    norm_num
  rw [h1, h2, h3]
  exact ⟨rfl, h4⟩

/-- Evaluation of the painter's binary32 operations for `min = 0`,
`max = 1.25` and the magnitude `13421773 / 2^27` (the binary32 value of 0.1):
the normalised height is `5368709 / 2^26`, the binary32 value of 0.08, which
is below 0.08. -/
theorem fl32_sea_example :
    fl32 (fl32 ((13421773 / 134217728 : F) - 0) / fl32 (1.25 - 0)) = 5368709 / 67108864 := by
  have h1 : fl32 ((13421773 / 134217728 : F) - 0) = 13421773 / 134217728 := by
    have := fl32_dyadic (F := F) 13421773 (-27) (by norm_num) (by norm_num)
    have e : (13421773 / 134217728 : F) - 0 = ((13421773 : Int) : F) * (2 : F) ^ (-27 : Int) := by
      norm_num
    rw [e, this]
    norm_num
  have h2 : fl32 ((1.25 : F) - 0) = 5 / 4 := by
    have := fl32_dyadic (F := F) 5 (-2) (by norm_num) (by norm_num)
    have e : (1.25 : F) - 0 = ((5 : Int) : F) * (2 : F) ^ (-2 : Int) := by norm_num
    rw [e, this]
    norm_num
  have h3 : fl32 ((13421773 / 134217728 : F) / (5 / 4)) = 5368709 / 67108864 := by
    have h := round_binary_eval (F := F) 24 (-126) (x := (13421773 / 134217728 : F) / (5 / 4)) (-4)
      10737418
      (by rw [abs_of_pos (by norm_num)]; norm_num)
      (by rw [abs_of_pos (by norm_num)]; norm_num)
      (by norm_num) (by norm_num) (by norm_num)
    unfold fl32
    rw [h]
    norm_num
  rw [h1, h2, h3]

/-- The byte made of a natural number below 256. -/
theorem to_uchar_natCast (n : Nat) (hn : n < 256) : to_uchar ((n : F)) = n := by
  unfold to_uchar trunc
  rw [if_pos (by positivity)]
  have : ⌊(n : F)⌋ = (n : Int) := Int.floor_natCast n
  rw [this]
  omega

/-- Over the reals the vector (0, m, 0) has magnitude `m` for `m ≥ 0`. -/
theorem level_grid_magnitude (c : ℝ → ℝ) (p : ℝ) (m : ℝ) (hm : 0 ≤ m) (f i j : Nat) :
    vec3_magnitude (Libm.mk Real.sqrt c p) ((level_grid m : Grid ℝ) f i j) = m := by
  simp only [vec3_magnitude, level_grid]
  rw [show (0 : ℝ) * 0 + m * m + 0 * 0 = m * m by ring]
  exact Real.sqrt_mul_self hm

/-- What the iteration of `paint_height_maps` for a texel writes in the byte of
the first three with index `k`, from the value of the normalised height. -/
theorem paint_height_texel_byte (M : Libm F) (min max : F) (vertex : Grid F) (f i j : Nat)
    (s : Image) (k : Int) (hk : 0 ≤ k ∧ k < 3) :
    paint_height_texel M min max vertex f i j s f (texel_offset i j + k) =
      if normalized_height M min max vertex f i j > SEALEVEL then
        to_uchar (fl32 (normalized_height M min max vertex f i j * 255.0))
      else if k = 0 then 20 else if k = 1 then 100 else 200 := by
  rw [paint_height_texel_apply]
  have hk3 : k = 0 ∨ k = 1 ∨ k = 2 := by omega
  rcases hk3 with rfl | rfl | rfl <;> simp

/-- C7, amended: `paint_height_maps` classifies every texel as exactly one of
land or water, by the binary32 value of the normalised height.  Let `min < max`
be binary32 values whose difference does not overflow, and `(f, i, j)` a texel
of the grid whose vertex magnitude `m` lies in `[min, max]`.  The code computes
`n = (m - min)/(max - min)` with each of the three operations rounded to
binary32, and `n` lies in [0, 1]; the offset `(j*DIM + i)*4` leaves room for
four bytes inside the 4*DIM*DIM buffer and the byte ranges of different texels
are disjoint; after `paint_height_maps` the four bytes at that offset of
`output_image[f]` are `(c, c, c, 255)` with `c` the floor of the binary32
product `n*255`, in [20, 255], when `n > 0.08`, and `(20, 100, 200, 255)`
otherwise; the code compares `n` with `SEALEVEL`, the binary64 value
5764607523034235 / 2^56 of the literal 0.08, which for the binary32 value `n`
is the comparison with 0.08; the iteration for the texel writes no other
byte. -/
theorem paint_height_maps_classifies (M : Libm F) (min max : F)
    (hmin : fl32 min = min) (hmax : fl32 max = max) (hmm : min < max)
    (hfin : max - min ≤ FLT_MAX)
    (vertex : Grid F) (img : Image) (f i j : Nat) (hf : f < 6) (hi : i < DIM) (hj : j < DIM)
    (hlo : min ≤ vec3_magnitude M (vertex f i j))
    (hhi : vec3_magnitude M (vertex f i j) ≤ max) :
    normalized_height M min max vertex f i j =
      fl32 (fl32 (vec3_magnitude M (vertex f i j) - min) / fl32 (max - min)) ∧
    0 < fl32 (max - min) ∧
    (0 ≤ normalized_height M min max vertex f i j ∧
      normalized_height M min max vertex f i j ≤ 1) ∧
    ((SEALEVEL : F) = 5764607523034235 / 72057594037927936 ∧
      (normalized_height M min max vertex f i j > SEALEVEL ↔
        normalized_height M min max vertex f i j > 0.08)) ∧
    texel_offset i j = ((j : Int) * 1024 + (i : Int)) * 4 ∧
    (0 ≤ texel_offset i j ∧ texel_offset i j + 3 < 4 * DIM * DIM) ∧
    (∀ i' j', i' < DIM → j' < DIM → (i', j') ≠ (i, j) →
      ∀ k k' : Int, 0 ≤ k ∧ k < 4 → 0 ≤ k' ∧ k' < 4 →
        texel_offset i' j' + k' ≠ texel_offset i j + k) ∧
    (normalized_height M min max vertex f i j > 0.08 →
      ∃ c : Nat, (c : Int) = ⌊fl32 (normalized_height M min max vertex f i j * 255)⌋ ∧
        20 ≤ c ∧ c ≤ 255 ∧
        paint_height_maps M min max vertex img f (texel_offset i j + 0) = c ∧
        paint_height_maps M min max vertex img f (texel_offset i j + 1) = c ∧
        paint_height_maps M min max vertex img f (texel_offset i j + 2) = c ∧
        paint_height_maps M min max vertex img f (texel_offset i j + 3) = 255) ∧
    (¬ normalized_height M min max vertex f i j > 0.08 →
        paint_height_maps M min max vertex img f (texel_offset i j + 0) = 20 ∧
        paint_height_maps M min max vertex img f (texel_offset i j + 1) = 100 ∧
        paint_height_maps M min max vertex img f (texel_offset i j + 2) = 200 ∧
        paint_height_maps M min max vertex img f (texel_offset i j + 3) = 255) ∧
    (∀ (s : Image) (f' : Nat) (q : Int),
      ¬ (f' = f ∧ texel_offset i j ≤ q ∧ q < texel_offset i j + 4) →
      paint_height_texel M min max vertex f i j s f' q = s f' q) := by
  obtain ⟨hd, hn0, hn1⟩ := normalized_height_bounds M min max hmin hmax hmm vertex f i j hlo hhi
  obtain ⟨hc, hc255, hc20⟩ := to_uchar_scaled _ hn0 hn1
  have hiff : normalized_height M min max vertex f i j > SEALEVEL ↔
      normalized_height M min max vertex f i j > 0.08 := by
    unfold normalized_height
    exact fl32_gt_sealevel_iff _
  refine ⟨rfl, hd, ⟨hn0, hn1⟩, ⟨SEALEVEL_eq, hiff⟩, ?_, texel_offset_in_buffer i j hi hj, ?_, ?_,
    ?_, ?_⟩
  · simp only [texel_offset, DIM, Nat.cast_ofNat]
  · intro i' j' hi' hj' hne k k' hk hk'
    refine texel_offset_disjoint i j i' j' hi hi' ?_ k k' hk hk'
    rintro ⟨rfl, rfl⟩
    exact hne rfl
  · intro hsea8
    have hsea := hiff.mpr hsea8
    refine ⟨to_uchar (fl32 (normalized_height M min max vertex f i j * 255.0)), hc, hc20 hsea,
      hc255, ?_, ?_, ?_, ?_⟩
    · apply paint_height_maps_at M min max vertex img f i j hf hi hj 0 ⟨by decide, by decide⟩
      intro s
      rw [paint_height_texel_apply]
      simp only [hsea, if_true, true_and, add_right_inj]
      norm_num
    · apply paint_height_maps_at M min max vertex img f i j hf hi hj 1 ⟨by decide, by decide⟩
      intro s
      rw [paint_height_texel_apply]
      simp only [hsea, if_true, true_and, add_right_inj]
      norm_num
    · apply paint_height_maps_at M min max vertex img f i j hf hi hj 2 ⟨by decide, by decide⟩
      intro s
      rw [paint_height_texel_apply]
      simp only [hsea, if_true, true_and, add_right_inj]
      norm_num
    · apply paint_height_maps_at M min max vertex img f i j hf hi hj 3 ⟨by decide, by decide⟩
      intro s
      rw [paint_height_texel_apply]
      simp only [true_and, if_true]
  · intro hsea8
    have hsea : ¬ normalized_height M min max vertex f i j > SEALEVEL := fun h => hsea8 (hiff.mp h)
    refine ⟨?_, ?_, ?_, ?_⟩
    · apply paint_height_maps_at M min max vertex img f i j hf hi hj 0 ⟨by decide, by decide⟩
      intro s
      rw [paint_height_texel_apply]
      simp only [hsea, if_false, true_and, add_right_inj]
      norm_num
    · apply paint_height_maps_at M min max vertex img f i j hf hi hj 1 ⟨by decide, by decide⟩
      intro s
      rw [paint_height_texel_apply]
      simp only [hsea, if_false, true_and, add_right_inj]
      norm_num
    · apply paint_height_maps_at M min max vertex img f i j hf hi hj 2 ⟨by decide, by decide⟩
      intro s
      rw [paint_height_texel_apply]
      simp only [hsea, if_false, true_and, add_right_inj]
      norm_num
    · apply paint_height_maps_at M min max vertex img f i j hf hi hj 3 ⟨by decide, by decide⟩
      intro s
      rw [paint_height_texel_apply]
      simp only [true_and, if_true]
  · intro s f' q hq
    rw [paint_height_texel_apply]
    have hne : ∀ k : Int, 0 ≤ k → k < 4 → ¬ (f' = f ∧ q = texel_offset i j + k) := by
      rintro k k0 k4 ⟨rfl, rfl⟩
      exact hq ⟨rfl, by omega, by omega⟩
    simp only [hne 0 (by decide) (by decide), hne 1 (by decide) (by decide),
      hne 2 (by decide) (by decide), hne 3 (by decide) (by decide), if_false]

/-! ## Distortion (C3, C4) -/

/-- An exact square root returns `|x|` on `x * x`. -/
theorem sqrt_mul_self_eq_abs (M : Libm F) (hM : SqrtExact M) (x : F) : M.sqrt (x * x) = |x| := by
  obtain ⟨h0, h1⟩ := hM (x * x) (mul_self_nonneg x)
  have h2 : M.sqrt (x * x) * M.sqrt (x * x) = |x| * |x| := by rw [h1, abs_mul_abs_self]
  exact (mul_self_inj h0 (abs_nonneg x)).mp h2

/-- An exact square root returns `x` on `x * x` for `x ≥ 0`. -/
theorem sqrt_mul_self_of_nonneg (M : Libm F) (hM : SqrtExact M) (x : F) (hx : 0 ≤ x) :
    M.sqrt (x * x) = x := by
  rw [sqrt_mul_self_eq_abs M hM, abs_of_nonneg hx]

/-- The squared length of a vector is not negative. -/
theorem norm_sq_nonneg (v : Vec3 F) : 0 ≤ v.x * v.x + v.y * v.y + v.z * v.z := by
  nlinarith [mul_self_nonneg v.x, mul_self_nonneg v.y, mul_self_nonneg v.z]

/-- A vector of length zero is the zero vector. -/
theorem eq_zero_of_magnitude_zero (M : Libm F) (hM : SqrtExact M) (v : Vec3 F)
    (h : vec3_magnitude M v = 0) : v = ⟨0, 0, 0⟩ := by
  obtain ⟨_, h1⟩ := hM _ (norm_sq_nonneg v)
  unfold vec3_magnitude at h
  rw [h, mul_zero] at h1
  have hx : v.x * v.x = 0 := by nlinarith [mul_self_nonneg v.x, mul_self_nonneg v.y, mul_self_nonneg v.z]
  have hy : v.y * v.y = 0 := by nlinarith [mul_self_nonneg v.x, mul_self_nonneg v.y, mul_self_nonneg v.z]
  have hz : v.z * v.z = 0 := by nlinarith [mul_self_nonneg v.x, mul_self_nonneg v.y, mul_self_nonneg v.z]
  exact Vec3.ext (mul_self_eq_zero.mp hx) (mul_self_eq_zero.mp hy) (mul_self_eq_zero.mp hz)

/-- Moving a vertex outward along its own direction does not change its
direction. -/
theorem normalize_add_radial (M : Libm F) (hM : SqrtExact M) (v : Vec3 F) (a : F) (ha : 0 ≤ a) :
    vec3_normalize M (vec3_add v (vec3_mul (vec3_normalize M v) a)) = vec3_normalize M v := by
  obtain ⟨hL0, hL2⟩ := hM _ (norm_sq_nonneg v)
  rcases eq_or_lt_of_le hL0 with hz | hpos
  · have hz' : vec3_magnitude M v = 0 := hz.symm
    have hv := eq_zero_of_magnitude_zero M hM v hz'
    have hn : vec3_normalize M v = ⟨0, 0, 0⟩ := by
      simp only [vec3_normalize, hz', div_zero]
    rw [hn]
    have : vec3_add v (vec3_mul (⟨0, 0, 0⟩ : Vec3 F) a) = v := by
      rw [hv]; simp only [vec3_add, vec3_mul, zero_mul, add_zero]
    rw [this, hn]
  · have hLne : vec3_magnitude M v ≠ 0 := ne_of_gt hpos
    have hL2' : vec3_magnitude M v * vec3_magnitude M v = v.x * v.x + v.y * v.y + v.z * v.z := hL2
    have hsum : 0 ≤ vec3_magnitude M v + a := by
      have : 0 ≤ vec3_magnitude M v := hL0
      linarith
    have hsumpos : 0 < vec3_magnitude M v + a := by
      have : 0 < vec3_magnitude M v := hpos
      linarith
    have hmag : vec3_magnitude M (vec3_add v (vec3_mul (vec3_normalize M v) a)) =
        vec3_magnitude M v + a := by
      have e : (vec3_add v (vec3_mul (vec3_normalize M v) a)).x *
            (vec3_add v (vec3_mul (vec3_normalize M v) a)).x +
          (vec3_add v (vec3_mul (vec3_normalize M v) a)).y *
            (vec3_add v (vec3_mul (vec3_normalize M v) a)).y +
          (vec3_add v (vec3_mul (vec3_normalize M v) a)).z *
            (vec3_add v (vec3_mul (vec3_normalize M v) a)).z =
          (vec3_magnitude M v + a) * (vec3_magnitude M v + a) := by
        simp only [vec3_add, vec3_mul, vec3_normalize]
        field_simp
        have := hL2'
        nlinarith [this]
      conv_lhs => rw [vec3_magnitude, e]
      exact sqrt_mul_self_of_nonneg M hM _ hsum
    have hx : ∀ c : F, (c + c / vec3_magnitude M v * a) / (vec3_magnitude M v + a) =
        c / vec3_magnitude M v := by
      intro c
      field_simp
      ring
    conv_lhs => rw [vec3_normalize, hmag]
    simp only [vec3_add, vec3_mul]
    conv_lhs => simp only [vec3_normalize]
    rw [hx, hx, hx]
    rfl

/-- The function `distort_vertex` adds to the vertex its own direction scaled by the
distortion amount. -/
theorem distort_vertex_eq (M : Libm F) (Q : SnisLib F) (S : Sample) (v : Vec3 F) (d : F)
    (b : Bump F) :
    distort_vertex M Q S v d b =
      vec3_add v (vec3_mul (vec3_normalize M v) (distortion_amount M Q S v d b)) := rfl

/-- The distortion amount depends on the vertex only through its direction. -/
theorem distortion_amount_congr (M : Libm F) (Q : SnisLib F) (S : Sample) (v w : Vec3 F)
    (d : F) (b : Bump F) (h : vec3_normalize M v = vec3_normalize M w) :
    distortion_amount M Q S v d b = distortion_amount M Q S w d b := by
  simp only [distortion_amount, sample_xy, h]

/-- The distortion amount of a bump of non-negative height is not negative. -/
theorem distortion_amount_nonneg (M : Libm F) (hC : CosBounded M) (Q : SnisLib F) (S : Sample)
    (v : Vec3 F) (d : F) (b : Bump F) (hb : 0 ≤ b.h) : 0 ≤ distortion_amount M Q S v d b := by
  unfold distortion_amount
  have h1 : 0 ≤ M.cos (M.pi * d / b.r) + 1.0 := by
    have := hC (M.pi * d / b.r)
    norm_num
    linarith
  have h2 : (0 : F) ≤ (S.sampledata (sample_offset S (sample_xy M Q v b).1 (sample_xy M Q v b).2) : F)
      / 255.0 := by
    apply div_nonneg
    · exact Nat.cast_nonneg _
    · norm_num
  have h3 : (0 : F) ≤ 0.5 := by norm_num
  exact mul_nonneg (mul_nonneg (mul_nonneg h3 h1) hb) h2

/-- A bump of non-negative height does not change the direction of a vertex. -/
theorem normalize_distort_vertex (M : Libm F) (hM : SqrtExact M) (hC : CosBounded M)
    (Q : SnisLib F) (S : Sample) (v : Vec3 F) (d : F) (b : Bump F) (hb : 0 ≤ b.h) :
    vec3_normalize M (distort_vertex M Q S v d b) = vec3_normalize M v := by
  rw [distort_vertex_eq]
  exact normalize_add_radial M hM v _ (distortion_amount_nonneg M hC Q S v d b hb)

/-- Two bumps of non-negative height distort a vertex to the same result in
either order. -/
theorem distort_vertex_comm (M : Libm F) (hM : SqrtExact M) (hC : CosBounded M)
    (Q : SnisLib F) (S : Sample) (v : Vec3 F) (d1 d2 : F) (b1 b2 : Bump F)
    (h1 : 0 ≤ b1.h) (h2 : 0 ≤ b2.h) :
    distort_vertex M Q S (distort_vertex M Q S v d1 b1) d2 b2 =
      distort_vertex M Q S (distort_vertex M Q S v d2 b2) d1 b1 := by
  have n1 := normalize_distort_vertex M hM hC Q S v d1 b1 h1
  have n2 := normalize_distort_vertex M hM hC Q S v d2 b2 h2
  have a1 := distortion_amount_congr M Q S _ _ d2 b2 n1
  have a2 := distortion_amount_congr M Q S _ _ d1 b1 n2
  rw [distort_vertex_eq M Q S (distort_vertex M Q S v d1 b1), n1, a1,
    distort_vertex_eq M Q S (distort_vertex M Q S v d2 b2), n2, a2,
    distort_vertex_eq M Q S v d1 b1, distort_vertex_eq M Q S v d2 b2]
  simp only [vec3_add, vec3_mul, Vec3.mk.injEq]
  refine ⟨by ring, by ring, by ring⟩

/-- The bodies of the bump loop for two bumps of non-negative height commute. -/
theorem render_bump_comm (M : Libm F) (hM : SqrtExact M) (hC : CosBounded M)
    (Q : SnisLib F) (S : Sample) (p v : Vec3 F) (b1 b2 : Bump F)
    (h1 : 0 ≤ b1.h) (h2 : 0 ≤ b2.h) :
    render_bump M Q S p b2 (render_bump M Q S p b1 v) =
      render_bump M Q S p b1 (render_bump M Q S p b2 v) := by
  unfold render_bump
  simp only
  split_ifs
  · rfl
  · rfl
  · rfl
  · exact distort_vertex_comm M hM hC Q S v _ _ b1 b2 h1 h2

/-- The bump loop for one vertex: it folds the loop body over the entry of that
vertex and leaves the other entries alone. -/
theorem bump_loop_apply (f i j : Nat) (step : Nat → Vec3 F → Vec3 F) (n : Nat) (g : Grid F)
    (f' i' j' : Nat) :
    for_loop n (fun k (g : Grid F) => g.set f i j (step k (g f i j))) g f' i' j' =
      if f' = f ∧ i' = i ∧ j' = j then for_loop n step (g f i j) else g f' i' j' := by
  induction n with
  | zero =>
    simp only [for_loop_zero]
    split_ifs with h
    · obtain ⟨rfl, rfl, rfl⟩ := h; rfl
    · rfl
  | succ n ih =>
    rw [for_loop_succ, for_loop_succ]
    simp only [Grid.set]
    split_ifs with h
    · have := ih
      rw [if_pos h] at this
      obtain ⟨rfl, rfl, rfl⟩ := h
      rw [this]
    · rw [ih, if_neg h]

/-- After `render_bumps_on_face_fn` for face `f`, the vertex `(f, i, j)` is the
result of the bump loop on its initial value. -/
theorem render_face_at (M : Libm F) (Q : SnisLib F) (S : Sample) (bl : Nat → Bump F)
    (n f : Nat) (vertex : Grid F) (i j : Nat) (hi : i < DIM) (hj : j < DIM) :
    render_bumps_on_face_fn M Q S bl n f vertex f i j =
      for_loop n (fun k v => render_bump M Q S (fij_to_xyz M f i j DIM) (bl k) v)
        (vertex f i j) := by
  have inner : ∀ (i₁ j₁ : Nat) (s : Grid F) (f' i' j' : Nat),
      for_loop n (fun k (g : Grid F) =>
          g.set f i₁ j₁ (render_bump M Q S (fij_to_xyz M f i₁ j₁ DIM) (bl k) (g f i₁ j₁))) s
        f' i' j' =
      if f' = f ∧ i' = i₁ ∧ j' = j₁ then
        for_loop n (fun k v => render_bump M Q S (fij_to_xyz M f i₁ j₁ DIM) (bl k) v) (s f i₁ j₁)
      else s f' i' j' :=
    fun i₁ j₁ s f' i' j' =>
      bump_loop_apply f i₁ j₁ (fun k v => render_bump M Q S (fij_to_xyz M f i₁ j₁ DIM) (bl k) v)
        n s f' i' j'
  have lj : ∀ s : Grid F,
      for_loop DIM (fun j₁ (g : Grid F) =>
        for_loop n (fun k (g : Grid F) =>
          g.set f i j₁ (render_bump M Q S (fij_to_xyz M f i j₁ DIM) (bl k) (g f i j₁))) g) s f i j =
      for_loop n (fun k v => render_bump M Q S (fij_to_xyz M f i j DIM) (bl k) v) (s f i j) := by
    intro s
    have := for_loop_obs (fun g : Grid F => g f i j) DIM j
      (fun j₁ (g : Grid F) =>
        for_loop n (fun k (g : Grid F) =>
          g.set f i j₁ (render_bump M Q S (fij_to_xyz M f i j₁ DIM) (bl k) (g f i j₁))) g) hj
      (by
        intro j₁ _ hne t
        show for_loop n _ t f i j = t f i j
        rw [inner i j₁ t f i j, if_neg]
        rintro ⟨_, _, h⟩
        exact hne h.symm)
      (by
        intro t t' htt
        show for_loop n _ t f i j = for_loop n _ t' f i j
        rw [inner i j t f i j, inner i j t' f i j, if_pos ⟨rfl, rfl, rfl⟩, if_pos ⟨rfl, rfl, rfl⟩]
        exact congrArg _ htt) s
    simp only at this
    rw [this, inner i j s f i j, if_pos ⟨rfl, rfl, rfl⟩]
  unfold render_bumps_on_face_fn
  have := for_loop_obs (fun g : Grid F => g f i j) DIM i
    (fun i₁ (g : Grid F) =>
      for_loop DIM (fun j₁ (g : Grid F) =>
        for_loop n (fun k (g : Grid F) =>
          g.set f i₁ j₁ (render_bump M Q S (fij_to_xyz M f i₁ j₁ DIM) (bl k) (g f i₁ j₁))) g) g) hi
    (by
      intro i₁ _ hne t
      apply for_loop_frame (fun g : Grid F => g f i j) DIM
      intro j₁ _ u
      show for_loop n _ u f i j = u f i j
      rw [inner i₁ j₁ u f i j, if_neg]
      rintro ⟨_, h, _⟩
      exact hne h.symm)
    (by
      intro t t' htt
      show for_loop DIM _ t f i j = for_loop DIM _ t' f i j
      rw [lj t, lj t']
      exact congrArg _ htt) vertex
  simp only at this
  rw [this, lj vertex]

/-- The function `render_bumps_on_face_fn` for face `f` changes no entry outside the
DIM x DIM vertices of face `f`. -/
theorem render_face_other (M : Libm F) (Q : SnisLib F) (S : Sample) (bl : Nat → Bump F)
    (n f : Nat) (vertex : Grid F) (f' i' j' : Nat) (hout : ¬ (f' = f ∧ i' < DIM ∧ j' < DIM)) :
    render_bumps_on_face_fn M Q S bl n f vertex f' i' j' = vertex f' i' j' := by
  unfold render_bumps_on_face_fn
  apply for_loop_frame (fun g : Grid F => g f' i' j') DIM
  intro i₁ hi₁ t
  apply for_loop_frame (fun g : Grid F => g f' i' j') DIM
  intro j₁ hj₁ u
  show for_loop n _ u f' i' j' = u f' i' j'
  rw [bump_loop_apply f i₁ j₁ (fun k v => render_bump M Q S (fij_to_xyz M f i₁ j₁ DIM) (bl k) v)
    n u f' i' j', if_neg]
  rintro ⟨h1, h2, h3⟩
  subst h1 h2 h3
  exact hout ⟨rfl, hi₁, hj₁⟩

/-- After `initialize_vertices` every vertex of the grid is the unit direction
of its cell. -/
theorem initialize_vertices_at (M : Libm F) (vertex : Grid F) (f i j : Nat) (hf : f < 6)
    (hi : i < DIM) (hj : j < DIM) :
    initialize_vertices M vertex f i j = fij_to_xyz M f i j DIM := by
  have pres : ∀ f' i' j' (s : Grid F), s f i j = fij_to_xyz M f i j DIM →
      (s.set f' i' j' (fij_to_xyz M f' i' j' DIM)) f i j = fij_to_xyz M f i j DIM := by
    intro f' i' j' s hs
    simp only [Grid.set]
    split_ifs with h
    · obtain ⟨rfl, rfl, rfl⟩ := h; rfl
    · exact hs
  unfold initialize_vertices
  apply for_loop_reach (fun s : Grid F => s f i j = fij_to_xyz M f i j DIM) 6 f _ hf
  · intro s
    apply for_loop_reach (fun s : Grid F => s f i j = fij_to_xyz M f i j DIM) DIM i _ hi
    · intro s
      apply for_loop_reach (fun s : Grid F => s f i j = fij_to_xyz M f i j DIM) DIM j _ hj
      · intro s
        simp only [Grid.set, and_self, if_true]
      · intro j' _ s hs
        exact pres f i j' s hs
    · intro i' _ s hs
      exact for_loop_invariant _ DIM _ (fun j' _ t ht => pres f i' j' t ht) s hs
  · intro f' _ s hs
    exact for_loop_invariant _ DIM _
      (fun i' _ t ht => for_loop_invariant _ DIM _ (fun j' _ u hu => pres f' i' j' u hu) t ht)
      s hs

/-- Two bump lists that are permutations of each other, with non-negative
heights, render every face to the same grid. -/
theorem render_face_perm (M : Libm F) (hM : SqrtExact M) (hC : CosBounded M)
    (Q : SnisLib F) (S : Sample) (bl bl' : Nat → Bump F) (n n' : Nat)
    (hperm : ((List.range n).map bl).Perm ((List.range n').map bl'))
    (hh : ∀ k, k < n → 0 ≤ (bl k).h) (f : Nat) (vertex : Grid F) :
    render_bumps_on_face_fn M Q S bl n f vertex =
      render_bumps_on_face_fn M Q S bl' n' f vertex := by
  funext f' i' j'
  by_cases hin : f' = f ∧ i' < DIM ∧ j' < DIM
  · obtain ⟨rfl, hi, hj⟩ := hin
    rw [render_face_at M Q S bl n f' vertex i' j' hi hj,
      render_face_at M Q S bl' n' f' vertex i' j' hi hj]
    have e : ∀ (b : Nat → Bump F) (m : Nat),
        for_loop m (fun k v => render_bump M Q S (fij_to_xyz M f' i' j' DIM) (b k) v)
          (vertex f' i' j') =
        List.foldl (fun v c => render_bump M Q S (fij_to_xyz M f' i' j' DIM) c v)
          (vertex f' i' j') ((List.range m).map b) := by
      intro b m
      rw [List.foldl_map]
      rfl
    rw [e bl n, e bl' n']
    apply List.Perm.foldl_eq' hperm
    intro x hx y hy z
    obtain ⟨kx, hkx, rfl⟩ := List.mem_map.mp hx
    obtain ⟨ky, hky, rfl⟩ := List.mem_map.mp hy
    exact render_bump_comm M hM hC Q S _ z (bl kx) (bl ky)
      (hh kx (List.mem_range.mp hkx)) (hh ky (List.mem_range.mp hky))
  · rw [render_face_other M Q S bl n f vertex f' i' j' hin,
      render_face_other M Q S bl' n' f vertex f' i' j' hin]

/-- The magnitude of a normalised vector of positive squared length is 1. -/
theorem magnitude_normalize (M : Libm F) (hM : SqrtExact M) (v : Vec3 F)
    (hpos : 0 < v.x * v.x + v.y * v.y + v.z * v.z) :
    vec3_magnitude M (vec3_normalize M v) = 1 := by
  obtain ⟨hL0, hL2⟩ := hM _ (le_of_lt hpos)
  have hLne : vec3_magnitude M v ≠ 0 := by
    intro h0
    unfold vec3_magnitude at h0
    rw [h0, mul_zero] at hL2
    linarith
  have hL2' : vec3_magnitude M v * vec3_magnitude M v = v.x * v.x + v.y * v.y + v.z * v.z := hL2
  have e : (vec3_normalize M v).x * (vec3_normalize M v).x +
      (vec3_normalize M v).y * (vec3_normalize M v).y +
      (vec3_normalize M v).z * (vec3_normalize M v).z = 1 * 1 := by
    simp only [vec3_normalize]
    field_simp
    linarith
  conv_lhs => rw [vec3_magnitude, e]
  exact sqrt_mul_self_of_nonneg M hM 1 zero_le_one

/-- Every direction `fij_to_xyz` returns for a cell of the grid is a unit
vector. -/
theorem fij_to_xyz_unit (M : Libm F) (hM : SqrtExact M) (f i j : Nat) (hf : f < 6)
    (hi : i < DIM) (hj : j < DIM) : vec3_magnitude M (fij_to_xyz M f i j DIM) = 1 := by
  have hd : (0 : Int) < (DIM : Int) := by decide
  have hi' : (0 : Int) ≤ (i : Int) ∧ (i : Int) < (DIM : Int) :=
    ⟨Int.natCast_nonneg i, by exact_mod_cast hi⟩
  have hj' : (0 : Int) ≤ (j : Int) ∧ (j : Int) < (DIM : Int) :=
    ⟨Int.natCast_nonneg j, by exact_mod_cast hj⟩
  exact magnitude_normalize M hM _
    (on_cube_norm_sq_pos _ (cube_point_on_cube (DIM : Int) hd f hf i j hi' hj'))

/-- The squared length of a vector of magnitude 1 is 1. -/
theorem norm_sq_of_unit (M : Libm F) (hM : SqrtExact M) (p : Vec3 F)
    (hp : vec3_magnitude M p = 1) : p.x * p.x + p.y * p.y + p.z * p.z = 1 := by
  obtain ⟨_, h2⟩ := hM _ (norm_sq_nonneg p)
  unfold vec3_magnitude at hp
  rw [hp, mul_one] at h2
  exact h2.symm

/-- Normalising a unit vector returns it. -/
theorem normalize_of_unit (M : Libm F) (p : Vec3 F) (hp : vec3_magnitude M p = 1) :
    vec3_normalize M p = p := by
  simp only [vec3_normalize, hp, div_one]

/-- The function `distort_vertex` scales a unit vertex by one plus the distortion amount. -/
theorem distort_vertex_of_unit (M : Libm F) (Q : SnisLib F) (S : Sample) (p : Vec3 F) (d : F)
    (b : Bump F) (hp : vec3_magnitude M p = 1) :
    distort_vertex M Q S p d b = vec3_mul p (1 + distortion_amount M Q S p d b) := by
  rw [distort_vertex_eq, normalize_of_unit M p hp]
  simp only [vec3_add, vec3_mul, Vec3.mk.injEq]
  refine ⟨by ring, by ring, by ring⟩

/-- The magnitude of a scaled unit vector is the absolute value of the factor. -/
theorem magnitude_mul_of_unit (M : Libm F) (hM : SqrtExact M) (p : Vec3 F) (c : F)
    (hp : vec3_magnitude M p = 1) : vec3_magnitude M (vec3_mul p c) = |c| := by
  have h1 := norm_sq_of_unit M hM p hp
  have e : (vec3_mul p c).x * (vec3_mul p c).x + (vec3_mul p c).y * (vec3_mul p c).y +
      (vec3_mul p c).z * (vec3_mul p c).z = c * c := by
    simp only [vec3_mul]
    have : p.x * c * (p.x * c) + p.y * c * (p.y * c) + p.z * c * (p.z * c) =
        (p.x * p.x + p.y * p.y + p.z * p.z) * (c * c) := by ring
    rw [this, h1, one_mul]
  conv_lhs => rw [vec3_magnitude, e]
  exact sqrt_mul_self_eq_abs M hM c

/-- For a positive radius the range test on squared distances is the test
`d > r` on distances. -/
theorem sq_dist_gt_iff (M : Libm F) (hM : SqrtExact M) (p c : Vec3 F) (r : F) (hr : 0 < r) :
    sq_dist p c > r * r ↔ M.sqrt (sq_dist p c) > r := by
  have hnn : 0 ≤ sq_dist p c := by
    unfold sq_dist
    nlinarith [mul_self_nonneg (p.x - c.x), mul_self_nonneg (p.y - c.y),
      mul_self_nonneg (p.z - c.z)]
  obtain ⟨h0, h2⟩ := hM _ hnn
  constructor
  · intro h
    by_contra hle
    have hle' : M.sqrt (sq_dist p c) ≤ r := not_lt.mp hle
    have : M.sqrt (sq_dist p c) * M.sqrt (sq_dist p c) ≤ r * r :=
      mul_self_le_mul_self h0 hle'
    rw [h2] at this
    exact absurd h (not_lt.mpr this)
  · intro h
    have : r * r < M.sqrt (sq_dist p c) * M.sqrt (sq_dist p c) :=
      mul_self_lt_mul_self (le_of_lt hr) h
    rw [h2] at this
    exact this

/-- The face render loop with a single bump of positive radius, on the grid
made by `initialize_vertices`: a vertex farther than `r` from the centre keeps
its value, any other is its unit direction scaled by one plus the distortion
amount. -/
theorem single_bump_vertex (M : Libm F) (hM : SqrtExact M) (Q : SnisLib F) (S : Sample)
    (bl : Nat → Bump F) (hr : 0 < (bl 0).r) (vertex0 : Grid F) (f i j : Nat) (hf : f < 6)
    (hi : i < DIM) (hj : j < DIM) :
    initialize_vertices M vertex0 f i j = fij_to_xyz M f i j DIM ∧
    vec3_magnitude M (fij_to_xyz M f i j DIM) = 1 ∧
    (M.sqrt (sq_dist (fij_to_xyz M f i j DIM) (bl 0).p) > (bl 0).r →
      render_bumps_on_face_fn M Q S bl 1 f (initialize_vertices M vertex0) f i j =
        fij_to_xyz M f i j DIM) ∧
    (M.sqrt (sq_dist (fij_to_xyz M f i j DIM) (bl 0).p) ≤ (bl 0).r →
      render_bumps_on_face_fn M Q S bl 1 f (initialize_vertices M vertex0) f i j =
        vec3_mul (fij_to_xyz M f i j DIM)
          (1 + distortion_amount M Q S (fij_to_xyz M f i j DIM)
            (M.sqrt (sq_dist (fij_to_xyz M f i j DIM) (bl 0).p)) (bl 0)) ∧
      vec3_magnitude M
          (render_bumps_on_face_fn M Q S bl 1 f (initialize_vertices M vertex0) f i j) =
        |1 + distortion_amount M Q S (fij_to_xyz M f i j DIM)
            (M.sqrt (sq_dist (fij_to_xyz M f i j DIM) (bl 0).p)) (bl 0)|) := by
  have hinit := initialize_vertices_at M vertex0 f i j hf hi hj
  have hunit := fij_to_xyz_unit M hM f i j hf hi hj
  have hrender : render_bumps_on_face_fn M Q S bl 1 f (initialize_vertices M vertex0) f i j =
      render_bump M Q S (fij_to_xyz M f i j DIM) (bl 0) (fij_to_xyz M f i j DIM) := by
    rw [render_face_at M Q S bl 1 f _ i j hi hj, for_loop_succ, for_loop_zero, hinit]
  have htest := sq_dist_gt_iff M hM (fij_to_xyz M f i j DIM) (bl 0).p (bl 0).r hr
  refine ⟨hinit, hunit, ?_, ?_⟩
  · intro hfar
    rw [hrender]
    simp only [render_bump, htest.mpr hfar, if_true]
  · intro hnear
    have hnot : ¬ sq_dist (fij_to_xyz M f i j DIM) (bl 0).p > (bl 0).r * (bl 0).r :=
      fun h => absurd (htest.mp h) (not_lt.mpr hnear)
    have hval : render_bumps_on_face_fn M Q S bl 1 f (initialize_vertices M vertex0) f i j =
        vec3_mul (fij_to_xyz M f i j DIM)
          (1 + distortion_amount M Q S (fij_to_xyz M f i j DIM)
            (M.sqrt (sq_dist (fij_to_xyz M f i j DIM) (bl 0).p)) (bl 0)) := by
      rw [hrender]
      simp only [render_bump, hnot, if_false]
      exact distort_vertex_of_unit M Q S _ _ _ hunit
    refine ⟨hval, ?_⟩
    rw [hval]
    exact magnitude_mul_of_unit M hM _ _ hunit

/-- The cell `i = j = 512` of face 4 is mapped to the north pole (0, 1, 0). -/
theorem fij_to_xyz_north_pole (M : Libm F) (hM : SqrtExact M) :
    fij_to_xyz M 4 ((512 : Nat) : Int) ((512 : Nat) : Int) (DIM : Int) = ⟨0, 1, 0⟩ := by
  have h : ((DIM : Nat) : Int).tdiv 2 = 512 := by decide
  have hc : cube_point (F := F) 4 ((512 : Nat) : Int) ((512 : Nat) : Int) (DIM : Int) =
      ⟨0, 0.5, 0⟩ := by
    simp only [cube_point, h]
    norm_num
  have hm : vec3_magnitude M (⟨0, 0.5, 0⟩ : Vec3 F) = 0.5 := by
    have e : (0 : F) * 0 + 0.5 * 0.5 + 0 * 0 = 0.5 * 0.5 := by norm_num
    simp only [vec3_magnitude]
    rw [e]
    exact sqrt_mul_self_of_nonneg M hM 0.5 (by norm_num)
  unfold fij_to_xyz
  rw [hc]
  simp only [vec3_normalize, hm]
  norm_num

end Proofs

/-! ## Statements over the reals -/

section Reals

/-- The real square root is exact. -/
theorem real_sqrt_exact (c : ℝ → ℝ) (p : ℝ) : SqrtExact (Libm.mk Real.sqrt c p) :=
  fun x hx => ⟨Real.sqrt_nonneg x, Real.mul_self_sqrt hx⟩

/-- The real cosine is bounded below by -1. -/
theorem real_cos_bounded (s : ℝ → ℝ) (p : ℝ) : CosBounded (Libm.mk s Real.cos p) :=
  fun x => Real.neg_one_le_cos x

/-- C4: over the reals, multi-bump accumulation is order independent.  For
every vertex `v` and every two bumps of non-negative height, `distort_vertex`
for `b1` then `b2` gives the same vertex as for `b2` then `b1`.  Each call adds
to the vertex its direction scaled by a non-negative amount that depends only
on the bump, the distance `d` and the direction of the vertex, and leaves that
direction unchanged.  Consequently two bump lists with non-negative heights
that are permutations of each other give the same deformed grid. -/
theorem distort_vertex_order_independent (Q : SnisLib ℝ) (S : Sample) (v : Vec3 ℝ)
    (b1 b2 : Bump ℝ) (d1 d2 : ℝ) (h1 : 0 ≤ b1.h) (h2 : 0 ≤ b2.h) :
    distort_vertex (Libm.mk Real.sqrt Real.cos Real.pi) Q S
        (distort_vertex (Libm.mk Real.sqrt Real.cos Real.pi) Q S v d1 b1) d2 b2 =
      distort_vertex (Libm.mk Real.sqrt Real.cos Real.pi) Q S
        (distort_vertex (Libm.mk Real.sqrt Real.cos Real.pi) Q S v d2 b2) d1 b1 ∧
    distort_vertex (Libm.mk Real.sqrt Real.cos Real.pi) Q S v d1 b1 =
      vec3_add v (vec3_mul (vec3_normalize (Libm.mk Real.sqrt Real.cos Real.pi) v)
        (distortion_amount (Libm.mk Real.sqrt Real.cos Real.pi) Q S v d1 b1)) ∧
    0 ≤ distortion_amount (Libm.mk Real.sqrt Real.cos Real.pi) Q S v d1 b1 ∧
    vec3_normalize (Libm.mk Real.sqrt Real.cos Real.pi)
        (distort_vertex (Libm.mk Real.sqrt Real.cos Real.pi) Q S v d1 b1) =
      vec3_normalize (Libm.mk Real.sqrt Real.cos Real.pi) v ∧
    (∀ w : Vec3 ℝ,
      vec3_normalize (Libm.mk Real.sqrt Real.cos Real.pi) w =
        vec3_normalize (Libm.mk Real.sqrt Real.cos Real.pi) v →
      distortion_amount (Libm.mk Real.sqrt Real.cos Real.pi) Q S w d1 b1 =
        distortion_amount (Libm.mk Real.sqrt Real.cos Real.pi) Q S v d1 b1) ∧
    (∀ (bl bl' : Nat → Bump ℝ) (n n' : Nat),
      ((List.range n).map bl).Perm ((List.range n').map bl') →
      (∀ k, k < n → 0 ≤ (bl k).h) →
      ∀ (f : Nat) (vertex : Grid ℝ),
        render_bumps_on_face_fn (Libm.mk Real.sqrt Real.cos Real.pi) Q S bl n f vertex =
          render_bumps_on_face_fn (Libm.mk Real.sqrt Real.cos Real.pi) Q S bl' n' f vertex) := by
  have hM := real_sqrt_exact Real.cos Real.pi
  have hC := real_cos_bounded Real.sqrt Real.pi
  refine ⟨distort_vertex_comm _ hM hC Q S v d1 d2 b1 b2 h1 h2, rfl,
    distortion_amount_nonneg _ hC Q S v d1 b1 h1,
    normalize_distort_vertex _ hM hC Q S v d1 b1 h1, ?_, ?_⟩
  · intro w hw
    exact distortion_amount_congr _ Q S w v d1 b1 hw
  · intro bl bl' n n' hperm hh f vertex
    exact render_face_perm _ hM hC Q S bl bl' n n' hperm hh f vertex

/-- The face render loop over the reals with a single bump of positive radius,
when the byte read for the vertex is `s`. -/
theorem single_bump_vertex_real (Q : SnisLib ℝ) (S : Sample) (bl : Nat → Bump ℝ)
    (hr : 0 < (bl 0).r) (vertex0 : Grid ℝ) (f i j : Nat) (hf : f < 6) (hi : i < DIM)
    (hj : j < DIM) (s : Nat) (P : Vec3 ℝ)
    (hP : P = fij_to_xyz (Libm.mk Real.sqrt Real.cos Real.pi) f i j DIM)
    (hs : S.sampledata (sample_offset S
        (sample_xy (Libm.mk Real.sqrt Real.cos Real.pi) Q P (bl 0)).1
        (sample_xy (Libm.mk Real.sqrt Real.cos Real.pi) Q P (bl 0)).2) = s)
    (d : ℝ) (hd : d = Real.sqrt (sq_dist P (bl 0).p))
    (A : ℝ) (hA : A = 0.5 * (Real.cos (Real.pi * d / (bl 0).r) + 1) * (bl 0).h * ((s : ℝ) / 255)) :
    (initialize_vertices (Libm.mk Real.sqrt Real.cos Real.pi) vertex0 f i j = P ∧
      vec3_magnitude (Libm.mk Real.sqrt Real.cos Real.pi) P = 1) ∧
    (d > (bl 0).r →
      render_bumps_on_face_fn (Libm.mk Real.sqrt Real.cos Real.pi) Q S bl 1 f
        (initialize_vertices (Libm.mk Real.sqrt Real.cos Real.pi) vertex0) f i j =
      initialize_vertices (Libm.mk Real.sqrt Real.cos Real.pi) vertex0 f i j) ∧
    (d ≤ (bl 0).r →
      render_bumps_on_face_fn (Libm.mk Real.sqrt Real.cos Real.pi) Q S bl 1 f
        (initialize_vertices (Libm.mk Real.sqrt Real.cos Real.pi) vertex0) f i j =
        vec3_mul P (1 + A) ∧
      vec3_magnitude (Libm.mk Real.sqrt Real.cos Real.pi)
        (render_bumps_on_face_fn (Libm.mk Real.sqrt Real.cos Real.pi) Q S bl 1 f
          (initialize_vertices (Libm.mk Real.sqrt Real.cos Real.pi) vertex0) f i j) = |1 + A| ∧
      (-1 ≤ A →
        vec3_magnitude (Libm.mk Real.sqrt Real.cos Real.pi)
          (render_bumps_on_face_fn (Libm.mk Real.sqrt Real.cos Real.pi) Q S bl 1 f
            (initialize_vertices (Libm.mk Real.sqrt Real.cos Real.pi) vertex0) f i j) = 1 + A)) ∧
    (d = 0 → A = (bl 0).h * ((s : ℝ) / 255)) ∧
    (d = (bl 0).r → A = 0) ∧
    (0 ≤ (bl 0).h → 0 ≤ A) := by
  have hM := real_sqrt_exact Real.cos Real.pi
  obtain ⟨hinit, hunit, hfar, hnear⟩ :=
    single_bump_vertex (Libm.mk Real.sqrt Real.cos Real.pi) hM Q S bl hr vertex0 f i j hf hi hj
  rw [← hP] at hinit hunit hfar hnear
  subst hd
  have hamount : distortion_amount (Libm.mk Real.sqrt Real.cos Real.pi) Q S P
      (Real.sqrt (sq_dist P (bl 0).p)) (bl 0) = A := by
    rw [hA]
    simp only [distortion_amount, hs]
    norm_num
  simp only [hamount] at hnear
  refine ⟨⟨hinit, hunit⟩, ?_, ?_, ?_, ?_, ?_⟩
  · intro h
    rw [hfar h, hinit]
  · intro h
    obtain ⟨h1, h2⟩ := hnear h
    refine ⟨h1, h2, ?_⟩
    intro hA1
    rw [h2, abs_of_nonneg (by linarith)]
  · intro h0
    rw [hA, h0]
    simp only [mul_zero, zero_div, Real.cos_zero]
    ring
  · intro hdr
    rw [hA, hdr, mul_div_assoc, div_self (ne_of_gt hr), mul_one, Real.cos_pi]
    ring
  · intro hh
    rw [hA]
    have hc : 0 ≤ Real.cos (Real.pi * Real.sqrt (sq_dist P (bl 0).p) / (bl 0).r) + 1 := by
      have := Real.neg_one_le_cos (Real.pi * Real.sqrt (sq_dist P (bl 0).p) / (bl 0).r)
      linarith
    have hs0 : (0 : ℝ) ≤ (s : ℝ) / 255 := div_nonneg (Nat.cast_nonneg s) (by norm_num)
    exact mul_nonneg (mul_nonneg (mul_nonneg (by norm_num) hc) hh) hs0

/-- C3 as stated fails for a bump of strongly negative height.  Scenario: uniform
profile `s = 255`, one bump at the north pole with radius 0.3 and height -3.  The
vertex of face 4, `i = j = 512` is at distance 0 from the centre, where the
claimed magnitude is `1 + 0.5*(cos(pi*0/0.3) + 1)*(-3)*(255/255) = -2`; the
render loop leaves the vertex (0, -2, 0), of magnitude 2. -/
theorem single_bump_dome_negative_height :
    Real.sqrt (sq_dist (fij_to_xyz (Libm.mk Real.sqrt Real.cos Real.pi) 4 ((512 : Nat) : Int)
        ((512 : Nat) : Int) (DIM : Int)) (pole_bump (-3 : ℝ)).p) = 0 ∧
    (0 : ℝ) < (pole_bump (-3 : ℝ)).r ∧
    render_bumps_on_face_fn (Libm.mk Real.sqrt Real.cos Real.pi) plain_lib (uniform_sample 255)
        (fun _ => pole_bump (-3 : ℝ)) 1 4
        (initialize_vertices (Libm.mk Real.sqrt Real.cos Real.pi) zero_grid) 4 512 512 =
      ⟨0, -2, 0⟩ ∧
    vec3_magnitude (Libm.mk Real.sqrt Real.cos Real.pi)
        (render_bumps_on_face_fn (Libm.mk Real.sqrt Real.cos Real.pi) plain_lib
          (uniform_sample 255) (fun _ => pole_bump (-3 : ℝ)) 1 4
          (initialize_vertices (Libm.mk Real.sqrt Real.cos Real.pi) zero_grid) 4 512 512) = 2 ∧
    vec3_magnitude (Libm.mk Real.sqrt Real.cos Real.pi)
        (render_bumps_on_face_fn (Libm.mk Real.sqrt Real.cos Real.pi) plain_lib
          (uniform_sample 255) (fun _ => pole_bump (-3 : ℝ)) 1 4
          (initialize_vertices (Libm.mk Real.sqrt Real.cos Real.pi) zero_grid) 4 512 512) ≠
      1 + 0.5 * (Real.cos (Real.pi * 0 / 0.3) + 1) * (-3) * ((255 : ℝ) / 255) := by
  have hM := real_sqrt_exact Real.cos Real.pi
  have hpole := fij_to_xyz_north_pole (Libm.mk Real.sqrt Real.cos Real.pi) hM
  have hr : (0 : ℝ) < (pole_bump (-3 : ℝ)).r := by
    simp only [pole_bump]; norm_num
  have hd : Real.sqrt (sq_dist (fij_to_xyz (Libm.mk Real.sqrt Real.cos Real.pi) 4
      ((512 : Nat) : Int) ((512 : Nat) : Int) (DIM : Int)) (pole_bump (-3 : ℝ)).p) = 0 := by
    rw [hpole]
    simp [sq_dist, pole_bump]
  have key := single_bump_vertex_real plain_lib (uniform_sample 255) (fun _ => pole_bump (-3 : ℝ))
    hr zero_grid 4 512 512 (by decide) (by decide) (by decide) 255 _ rfl rfl _ rfl _ rfl
  obtain ⟨_, _, hnear, h0, _, _⟩ := key
  have hA := h0 hd
  have hle : Real.sqrt (sq_dist (fij_to_xyz (Libm.mk Real.sqrt Real.cos Real.pi) 4
      ((512 : Nat) : Int) ((512 : Nat) : Int) (DIM : Int)) (pole_bump (-3 : ℝ)).p) ≤
      (pole_bump (-3 : ℝ)).r := by rw [hd]; exact le_of_lt hr
  obtain ⟨hval, hmag, _⟩ := hnear hle
  rw [hA] at hval hmag
  have hh : (pole_bump (-3 : ℝ)).h * (((255 : Nat) : ℝ) / 255) = -3 := by
    simp only [pole_bump]; norm_num
  rw [hh] at hval hmag
  have hval' : render_bumps_on_face_fn (Libm.mk Real.sqrt Real.cos Real.pi) plain_lib
      (uniform_sample 255) (fun _ => pole_bump (-3 : ℝ)) 1 4
      (initialize_vertices (Libm.mk Real.sqrt Real.cos Real.pi) zero_grid) 4 512 512 =
      ⟨0, -2, 0⟩ := by
    rw [hval, hpole]
    simp only [vec3_mul]
    norm_num
  have hmag' : vec3_magnitude (Libm.mk Real.sqrt Real.cos Real.pi)
      (render_bumps_on_face_fn (Libm.mk Real.sqrt Real.cos Real.pi) plain_lib
        (uniform_sample 255) (fun _ => pole_bump (-3 : ℝ)) 1 4
        (initialize_vertices (Libm.mk Real.sqrt Real.cos Real.pi) zero_grid) 4 512 512) = 2 := by
    rw [hmag]
    norm_num
  refine ⟨hd, hr, hval', hmag', ?_⟩
  rw [hmag']
  simp only [mul_zero, zero_div, Real.cos_zero]
  norm_num

/-- C3, amended: the single-bump dome over the reals.  The grid is the one made
by `initialize_vertices`, the bump list holds one bump (centre `c`, radius
`r > 0`, height `h`), and the profile byte read for the vertex of cell
`(f, i, j)` is `s` (as it is when the profile holds `s` at every sample coordinate).
With `P` the unit grid direction of the cell, `d` the Euclidean distance of `P`
to `c` and `A = 0.5*(cos(pi*d/r) + 1)*h*(s/255)`: the face render loop leaves the
vertex unchanged when `d > r`, and makes it `(1 + A) * P` when `d ≤ r`, so that
its magnitude is `|1 + A|`, which is `1 + A` whenever `A ≥ -1`; `A = h*(s/255)` at
`d = 0` and `A = 0` at `d = r`, and `A ≥ 0` for every height `h ≥ 0`. -/
theorem single_bump_dome (Q : SnisLib ℝ) (S : Sample) (bl : Nat → Bump ℝ)
    (hr : 0 < (bl 0).r) (vertex0 : Grid ℝ) (f i j : Nat) (hf : f < 6) (hi : i < DIM)
    (hj : j < DIM) (s : Nat) (P : Vec3 ℝ)
    (hP : P = fij_to_xyz (Libm.mk Real.sqrt Real.cos Real.pi) f i j DIM)
    (hs : S.sampledata (sample_offset S
        (sample_xy (Libm.mk Real.sqrt Real.cos Real.pi) Q P (bl 0)).1
        (sample_xy (Libm.mk Real.sqrt Real.cos Real.pi) Q P (bl 0)).2) = s)
    (d : ℝ) (hd : d = Real.sqrt (sq_dist P (bl 0).p))
    (A : ℝ) (hA : A = 0.5 * (Real.cos (Real.pi * d / (bl 0).r) + 1) * (bl 0).h * ((s : ℝ) / 255)) :
    (initialize_vertices (Libm.mk Real.sqrt Real.cos Real.pi) vertex0 f i j = P ∧
      vec3_magnitude (Libm.mk Real.sqrt Real.cos Real.pi) P = 1) ∧
    (d > (bl 0).r →
      render_bumps_on_face_fn (Libm.mk Real.sqrt Real.cos Real.pi) Q S bl 1 f
        (initialize_vertices (Libm.mk Real.sqrt Real.cos Real.pi) vertex0) f i j =
      initialize_vertices (Libm.mk Real.sqrt Real.cos Real.pi) vertex0 f i j) ∧
    (d ≤ (bl 0).r →
      render_bumps_on_face_fn (Libm.mk Real.sqrt Real.cos Real.pi) Q S bl 1 f
        (initialize_vertices (Libm.mk Real.sqrt Real.cos Real.pi) vertex0) f i j =
        vec3_mul P (1 + A) ∧
      vec3_magnitude (Libm.mk Real.sqrt Real.cos Real.pi)
        (render_bumps_on_face_fn (Libm.mk Real.sqrt Real.cos Real.pi) Q S bl 1 f
          (initialize_vertices (Libm.mk Real.sqrt Real.cos Real.pi) vertex0) f i j) = |1 + A| ∧
      (-1 ≤ A →
        vec3_magnitude (Libm.mk Real.sqrt Real.cos Real.pi)
          (render_bumps_on_face_fn (Libm.mk Real.sqrt Real.cos Real.pi) Q S bl 1 f
            (initialize_vertices (Libm.mk Real.sqrt Real.cos Real.pi) vertex0) f i j) = 1 + A)) ∧
    (d = 0 → A = (bl 0).h * ((s : ℝ) / 255)) ∧
    (d = (bl 0).r → A = 0) ∧
    (0 ≤ (bl 0).h → 0 ≤ A) :=
  single_bump_vertex_real Q S bl hr vertex0 f i j hf hi hj s P hP hs d hd A hA

/-- Instance of the amended C3 in the scenario of the spec: uniform profile 128,
one bump at the north pole with radius 0.3 and height 0.08.  The vertex of
face 4, `i = j = 512` is at distance 0 and ends with magnitude
`1 + 0.08 * (128/255)`. -/
theorem single_bump_dome_witness :
    vec3_magnitude (Libm.mk Real.sqrt Real.cos Real.pi)
        (render_bumps_on_face_fn (Libm.mk Real.sqrt Real.cos Real.pi) plain_lib
          (uniform_sample 128) (fun _ => pole_bump (0.08 : ℝ)) 1 4
          (initialize_vertices (Libm.mk Real.sqrt Real.cos Real.pi) zero_grid) 4 512 512) =
      1 + 0.08 * ((128 : ℝ) / 255) := by
  have hM := real_sqrt_exact Real.cos Real.pi
  have hpole := fij_to_xyz_north_pole (Libm.mk Real.sqrt Real.cos Real.pi) hM
  have hr : (0 : ℝ) < (pole_bump (0.08 : ℝ)).r := by
    simp only [pole_bump]; norm_num
  have hd : Real.sqrt (sq_dist (fij_to_xyz (Libm.mk Real.sqrt Real.cos Real.pi) 4
      ((512 : Nat) : Int) ((512 : Nat) : Int) (DIM : Int)) (pole_bump (0.08 : ℝ)).p) = 0 := by
    rw [hpole]
    simp [sq_dist, pole_bump]
  have key := single_bump_dome plain_lib (uniform_sample 128) (fun _ => pole_bump (0.08 : ℝ))
    hr zero_grid 4 512 512 (by decide) (by decide) (by decide) 128 _ rfl rfl _ rfl _ rfl
  obtain ⟨_, _, hnear, h0, _, _⟩ := key
  have hA := h0 hd
  have hle : Real.sqrt (sq_dist (fij_to_xyz (Libm.mk Real.sqrt Real.cos Real.pi) 4
      ((512 : Nat) : Int) ((512 : Nat) : Int) (DIM : Int)) (pole_bump (0.08 : ℝ)).p) ≤
      (pole_bump (0.08 : ℝ)).r := by rw [hd]; exact le_of_lt hr
  obtain ⟨_, _, hmag⟩ := hnear hle
  have hh : (pole_bump (0.08 : ℝ)).h * (((128 : Nat) : ℝ) / 255) = 0.08 * ((128 : ℝ) / 255) := by
    simp only [pole_bump]; norm_num
  rw [hA, hh] at hmag
  exact hmag (by norm_num)

/-- C7 as stated fails: the byte and the land/water branch are decided by the
binary32 value of the normalised height, not by the exact quotient.  For
`min = 0.75`, `max = 1.5` and a vertex of magnitude `0x1.060606p+0` the exact
`n = (m - min)/(max - min)` exceeds 0.08 and `⌊n*255⌋ = 92`, but the byte written
is 93.  For `min = 0`, `max = 1.25` and a vertex of magnitude `13421773 / 2^27`
(the binary32 value of 0.1) the exact `n` exceeds 0.08, so the claim gives the
grey triple with `⌊n*255⌋ = 20`, but the texel is painted as water: its second
byte is 100. -/
theorem paint_height_maps_rounds_before_classifying :
    (((0.75 : ℝ) < 1.5 ∧ (0.75 : ℝ) ≤ 8585987 / 8388608 ∧ (8585987 / 8388608 : ℝ) ≤ 1.5) ∧
      vec3_magnitude (Libm.mk Real.sqrt Real.cos Real.pi)
        ((level_grid (8585987 / 8388608) : Grid ℝ) 0 0 0) = 8585987 / 8388608 ∧
      ((8585987 / 8388608 : ℝ) - 0.75) / (1.5 - 0.75) > 0.08 ∧
      ⌊((8585987 / 8388608 : ℝ) - 0.75) / (1.5 - 0.75) * 255⌋ = 92 ∧
      paint_height_maps (Libm.mk Real.sqrt Real.cos Real.pi) 0.75 1.5
        (level_grid (8585987 / 8388608)) (uniform_image 0) 0 (texel_offset 0 0 + 0) = 93) ∧
    (((0 : ℝ) < 1.25 ∧ (0 : ℝ) ≤ 13421773 / 134217728 ∧ (13421773 / 134217728 : ℝ) ≤ 1.25) ∧
      vec3_magnitude (Libm.mk Real.sqrt Real.cos Real.pi)
        ((level_grid (13421773 / 134217728) : Grid ℝ) 0 0 0) = 13421773 / 134217728 ∧
      ((13421773 / 134217728 : ℝ) - 0) / (1.25 - 0) > 0.08 ∧
      ⌊((13421773 / 134217728 : ℝ) - 0) / (1.25 - 0) * 255⌋ = 20 ∧
      paint_height_maps (Libm.mk Real.sqrt Real.cos Real.pi) 0 1.25
        (level_grid (13421773 / 134217728)) (uniform_image 0) 0 (texel_offset 0 0 + 1) = 100) := by
  have m1 := level_grid_magnitude Real.cos Real.pi (8585987 / 8388608) (by norm_num) 0 0 0
  have m2 := level_grid_magnitude Real.cos Real.pi (13421773 / 134217728) (by norm_num) 0 0 0
  have n1 : normalized_height (Libm.mk Real.sqrt Real.cos Real.pi) 0.75 1.5
      (level_grid (8585987 / 8388608)) 0 0 0 = 12237499 / 33554432 := by
    unfold normalized_height
    simp only [m1]
    exact (fl32_height_example (F := ℝ)).1
  have n2 : normalized_height (Libm.mk Real.sqrt Real.cos Real.pi) 0 1.25
      (level_grid (13421773 / 134217728)) 0 0 0 = 5368709 / 67108864 := by
    unfold normalized_height
    simp only [m2]
    exact fl32_sea_example (F := ℝ)
  refine ⟨⟨⟨by norm_num, by norm_num, by norm_num⟩, m1, by norm_num, ?_, ?_⟩,
    ⟨⟨by norm_num, by norm_num, by norm_num⟩, m2, by norm_num, ?_, ?_⟩⟩
  · rw [Int.floor_eq_iff]
    norm_num
  · apply paint_height_maps_at _ _ _ _ _ 0 0 0 (by decide) (by decide) (by decide) 0
      ⟨by decide, by decide⟩
    intro s
    rw [paint_height_texel_byte _ _ _ _ _ _ _ _ 0 ⟨by decide, by decide⟩, n1, SEALEVEL_eq,
      if_pos (by norm_num)]
    have e : (12237499 / 33554432 : ℝ) * 255.0 = 12237499 / 33554432 * 255 := by norm_num
    rw [e, (fl32_height_example (F := ℝ)).2]
    exact to_uchar_natCast 93 (by decide)
  · rw [Int.floor_eq_iff]
    norm_num
  · apply paint_height_maps_at _ _ _ _ _ 0 0 0 (by decide) (by decide) (by decide) 1
      ⟨by decide, by decide⟩
    intro s
    rw [paint_height_texel_byte _ _ _ _ _ _ _ _ 1 ⟨by decide, by decide⟩, n2, SEALEVEL_eq,
      if_neg (by norm_num)]
    rfl

end Reals

/-! ## Instances at concrete inputs -/

section Instances

/-- Instance of C1 on a state with no bumps and on a state with a full bump
list. -/
theorem add_bump_capacity_witness :
    (empty_bump_state (0 : ℚ)).totalbumps ≤ MAXBUMPS ∧
    (add_bump plain_lib (uniform_sample 128) ⟨0, 1, 0⟩ (0.3 : ℚ) 0.08
      (empty_bump_state 0)).totalbumps = 1 ∧
    ((add_bump plain_lib (uniform_sample 128) ⟨0, 1, 0⟩ (0.3 : ℚ) 0.08
      (empty_bump_state 0)).bumplist 0).r = 0.3 ∧
    (add_bump plain_lib (uniform_sample 128) ⟨0, 1, 0⟩ (0.3 : ℚ) 0.08
      (full_bump_state 0)).totalbumps = MAXBUMPS ∧
    (add_bump plain_lib (uniform_sample 128) ⟨0, 1, 0⟩ (0.3 : ℚ) 0.08
      (full_bump_state 0)).rand = (full_bump_state (0 : ℚ)).rand := by
  have k1 := add_bump_capacity plain_libm plain_lib (uniform_sample 128) ⟨0, 1, 0⟩ (0.3 : ℚ) 0.08
    (empty_bump_state 0) (by decide)
  have k2 := add_bump_capacity plain_libm plain_lib (uniform_sample 128) ⟨0, 1, 0⟩ (0.3 : ℚ) 0.08
    (full_bump_state 0) (le_refl _)
  have e1 := k1.2.2.1 (by decide)
  have e2 := k2.2.1 rfl
  exact ⟨by decide, e1.1, e1.2.2.1, e2.2.1, e2.2.2⟩

/-- Instance of C2 with the parameters `add_bumps` uses and the largest seed
radius: `r = 0.4`, `shrink = 0.52`, `rlimit = 0.01`.  The depth is 5 and the call
makes 364 calls of `add_bump`. -/
theorem recursive_add_bump_count_witness :
    ∃ s', recursive_add_bump plain_libm plain_lib (uniform_sample 128) 7 ⟨0, 1, 0⟩
        (0.4 : ℚ) 0.08 0.52 0.01 (empty_bump_state 0) = some s' ∧
      s'.add_bump_calls = 364 ∧ s'.totalbumps = 364 := by
  obtain ⟨n, _, hn, _, hrun⟩ := recursive_add_bump_count plain_libm plain_lib (uniform_sample 128)
    ⟨0, 1, 0⟩ (0.4 : ℚ) 0.08 0.52 0.01 (by norm_num) (by norm_num) (by norm_num)
  have h5 : 5 ≤ n := (hn 5 (by decide)).mp (by norm_num)
  have h6 : ¬ 6 ≤ n := fun h => absurd ((hn 6 (by decide)).mpr h) (by norm_num)
  have hn5 : n = 5 := by omega
  subst hn5
  obtain ⟨s', e, c, t, _⟩ := hrun 7 (empty_bump_state 0) (by decide)
  refine ⟨s', e, ?_, ?_⟩
  · rw [c]; rfl
  · rw [t (by decide)]; rfl

/-- Instance of C4: two bumps at the north pole applied to the vertex (0, 1, 0)
in either order. -/
theorem distort_vertex_order_independent_witness :
    distort_vertex (Libm.mk Real.sqrt Real.cos Real.pi) plain_lib (uniform_sample 128)
        (distort_vertex (Libm.mk Real.sqrt Real.cos Real.pi) plain_lib (uniform_sample 128)
          ⟨0, 1, 0⟩ 0 (pole_bump (0.08 : ℝ))) 0.1 (pole_bump (0.04 : ℝ)) =
      distort_vertex (Libm.mk Real.sqrt Real.cos Real.pi) plain_lib (uniform_sample 128)
        (distort_vertex (Libm.mk Real.sqrt Real.cos Real.pi) plain_lib (uniform_sample 128)
          ⟨0, 1, 0⟩ 0.1 (pole_bump (0.04 : ℝ))) 0 (pole_bump (0.08 : ℝ)) :=
  (distort_vertex_order_independent plain_lib (uniform_sample 128) ⟨0, 1, 0⟩
    (pole_bump (0.08 : ℝ)) (pole_bump (0.04 : ℝ)) 0 0.1
    (by simp only [pole_bump]; norm_num) (by simp only [pole_bump]; norm_num)).1

/-- Instance of C8: on a raster whose height bytes are all 7 the normal stored
for texel (0, 0) of face 0 is (0.5, 0.5, 1.0). -/
theorem calculate_normal_clamped_difference_witness :
    calculate_normal (uniform_image 7) 0 0 0 (zero_grid : Grid ℚ) 0 0 0 = ⟨0.5, 0.5, 1.0⟩ :=
  (calculate_normal_clamped_difference (uniform_image 7) (zero_grid : Grid ℚ) 0 0 0
    (by decide) (by decide)).2.2.2.2.2.1 rfl rfl

/-- Instance of the amended C7 over the reals.  With `min = 0.75`, `max = 1.5`
a vertex of magnitude `0x1.060606p+0` is painted as land with byte 93; with
`min = 0`, `max = 1.25` a vertex of magnitude `13421773 / 2^27` is painted as
water. -/
theorem paint_height_maps_classifies_witness :
    paint_height_maps (Libm.mk Real.sqrt Real.cos Real.pi) 0.75 1.5
      (level_grid (8585987 / 8388608)) (uniform_image 0) 5 (texel_offset 3 2 + 2) = 93 ∧
    (paint_height_maps (Libm.mk Real.sqrt Real.cos Real.pi) 0 1.25
        (level_grid (13421773 / 134217728)) (uniform_image 0) 5 (texel_offset 3 2 + 0) = 20 ∧
      paint_height_maps (Libm.mk Real.sqrt Real.cos Real.pi) 0 1.25
        (level_grid (13421773 / 134217728)) (uniform_image 0) 5 (texel_offset 3 2 + 1) = 100 ∧
      paint_height_maps (Libm.mk Real.sqrt Real.cos Real.pi) 0 1.25
        (level_grid (13421773 / 134217728)) (uniform_image 0) 5 (texel_offset 3 2 + 2) = 200 ∧
      paint_height_maps (Libm.mk Real.sqrt Real.cos Real.pi) 0 1.25
        (level_grid (13421773 / 134217728)) (uniform_image 0) 5 (texel_offset 3 2 + 3) = 255) := by
  have m1 := level_grid_magnitude Real.cos Real.pi (8585987 / 8388608) (by norm_num) 5 3 2
  have m2 := level_grid_magnitude Real.cos Real.pi (13421773 / 134217728) (by norm_num) 5 3 2
  have f1 : fl32 (0.75 : ℝ) = 0.75 := by
    have := fl32_dyadic (F := ℝ) 3 (-2) (by norm_num) (by norm_num)
    have e : (0.75 : ℝ) = ((3 : Int) : ℝ) * (2 : ℝ) ^ (-2 : Int) := by norm_num
    rw [e, this]
  have f2 : fl32 (1.5 : ℝ) = 1.5 := by
    have := fl32_dyadic (F := ℝ) 3 (-1) (by norm_num) (by norm_num)
    have e : (1.5 : ℝ) = ((3 : Int) : ℝ) * (2 : ℝ) ^ (-1 : Int) := by norm_num
    rw [e, this]
  have f3 : fl32 (1.25 : ℝ) = 1.25 := by
    have := fl32_dyadic (F := ℝ) 5 (-2) (by norm_num) (by norm_num)
    have e : (1.25 : ℝ) = ((5 : Int) : ℝ) * (2 : ℝ) ^ (-2 : Int) := by norm_num
    rw [e, this]
  have k1 := paint_height_maps_classifies (Libm.mk Real.sqrt Real.cos Real.pi) 0.75 1.5 f1 f2
    (by norm_num) (by unfold FLT_MAX; norm_num) (level_grid (8585987 / 8388608)) (uniform_image 0)
    5 3 2 (by decide) (by decide) (by decide) (by rw [m1]; norm_num) (by rw [m1]; norm_num)
  have k2 := paint_height_maps_classifies (Libm.mk Real.sqrt Real.cos Real.pi) 0 1.25 fl32_zero f3
    (by norm_num) (by unfold FLT_MAX; norm_num) (level_grid (13421773 / 134217728))
    (uniform_image 0) 5 3 2 (by decide) (by decide) (by decide) (by rw [m2]; norm_num)
    (by rw [m2]; norm_num)
  have n1 : normalized_height (Libm.mk Real.sqrt Real.cos Real.pi) 0.75 1.5
      (level_grid (8585987 / 8388608)) 5 3 2 = 12237499 / 33554432 := by
    rw [k1.1, m1]
    exact (fl32_height_example (F := ℝ)).1
  have n2 : normalized_height (Libm.mk Real.sqrt Real.cos Real.pi) 0 1.25
      (level_grid (13421773 / 134217728)) 5 3 2 = 5368709 / 67108864 := by
    rw [k2.1, m2]
    exact fl32_sea_example (F := ℝ)
  constructor
  · obtain ⟨c, hc, _, _, _, _, h2, _⟩ := k1.2.2.2.2.2.2.2.1 (by rw [n1]; norm_num)
    rw [h2]
    rw [n1, (fl32_height_example (F := ℝ)).2] at hc
    have : ⌊(93 : ℝ)⌋ = 93 := by
      rw [Int.floor_eq_iff]; norm_num
    rw [this] at hc
    exact_mod_cast hc
  · exact k2.2.2.2.2.2.2.2.2.1 (by rw [n2]; norm_num)

/-- Instance of the amended C10: the 12 x 9 sample with row stride 36, random
values 1/4, a bump centred at (0, 0, 1) and the vertex direction
(0, 5/13, 12/13).  The stored origin is (4, 3) and the scale 3; the sample
coordinates are (4, 4) and the byte offset is 156. -/
theorem sample_addressing_in_range_witness :
    sample_xy plain_libm plain_lib (⟨0, 5 / 13, 12 / 13⟩ : Vec3 ℚ)
        ((add_bump plain_lib (small_sample 128) ⟨0, 0, 1⟩ (0.4 : ℚ) 0.08
          (empty_bump_state (1 / 4))).bumplist 0) = (4, 4) ∧
    out_of_range (small_sample 128) 4 4 = false ∧
    sample_offset (small_sample 128) 4 4 = 4 * 36 + 4 * 3 ∧
    (0 : Int) ≤ sample_offset (small_sample 128) 4 4 ∧
    sample_offset (small_sample 128) 4 4 < 9 * 36 := by
  have k := sample_addressing_in_range plain_libm plain_lib (small_sample 128)
    (by decide) (by decide) (by decide) (by decide) ⟨0, 0, 1⟩ (0.4 : ℚ) 0.08
    (empty_bump_state (1 / 4)) (by decide) (by simp only [empty_bump_state]; norm_num)
    (by simp only [empty_bump_state]; norm_num)
  obtain ⟨_, _, _, hv, _, _⟩ := k
  have hb := add_bump_stored plain_lib (small_sample 128) ⟨0, 0, 1⟩ (0.4 : ℚ) 0.08
    (empty_bump_state (1 / 4)) (by decide)
  have hts : texel_scale (F := ℚ) (small_sample 128) = 3 := by
    simp only [texel_scale, small_sample]
    rw [if_neg (by decide)]
    have h1 := fl32_intCast (F := ℚ) 9 (by norm_num)
    have h2 := fl32_intCast (F := ℚ) 3 (by norm_num)
    have e : ((9 : Int) : ℚ) / RADII = ((3 : Int) : ℚ) := by unfold RADII; norm_num
    rw [h1, e, h2]
    norm_num
  have htx : texel_origin (small_sample 128).samplew
      ((empty_bump_state (1 / 4 : ℚ)).rand.stream (empty_bump_state (1 / 4 : ℚ)).rand.pos) = 4 :=
    (texel_origin_witness_example (F := ℚ)).1
  have hty : texel_origin (small_sample 128).sampleh
      ((empty_bump_state (1 / 4 : ℚ)).rand.stream ((empty_bump_state (1 / 4 : ℚ)).rand.pos + 1)) =
        3 :=
    (texel_origin_witness_example (F := ℚ)).2
  have hb' : (add_bump plain_lib (small_sample 128) ⟨0, 0, 1⟩ (0.4 : ℚ) 0.08
      (empty_bump_state (1 / 4))).bumplist 0 =
      { p := ⟨0, 0, 1⟩, r := 0.4, h := 0.08, texelq := ⟨1, 0, 0, 0⟩, tx := 4, ty := 3,
        tr := 0, ts := 3 } := by
    refine hb.trans ?_
    rw [htx, hty, hts]
    rfl
  have hn := normalize_example (F := ℚ)
  have hy : trunc (fl32 ((5 / 13 : ℚ) * 3)) = 1 := by
    have f1 : fl32 (1 : ℚ) = 1 := by
      have := fl32_intCast (F := ℚ) 1 (by norm_num)
      simpa using this
    have f2 : fl32 ((5 : ℚ) / 4) = 5 / 4 := by
      have := fl32_dyadic (F := ℚ) 5 (-2) (by norm_num) (by norm_num)
      have e : (5 : ℚ) / 4 = ((5 : Int) : ℚ) * (2 : ℚ) ^ (-2 : Int) := by norm_num
      rw [e, this]
    apply trunc_eq_of_mem _ _ (by norm_num)
    · have := le_fl32_of_le f1 (show (1 : ℚ) ≤ 5 / 13 * 3 by norm_num)
      exact_mod_cast this
    · have := fl32_le_of_le f2 (show (5 / 13 : ℚ) * 3 ≤ 5 / 4 by norm_num)
      have e : (((1 : Int) : ℚ)) + 1 = 2 := by norm_num
      rw [e]
      linarith
  have ht0 : trunc (fl32 ((0 : ℚ) * 3)) = 0 := by
    rw [zero_mul, fl32_zero]
    simp [trunc]
  have hxy : sample_xy plain_libm plain_lib (⟨0, 5 / 13, 12 / 13⟩ : Vec3 ℚ)
      ((add_bump plain_lib (small_sample 128) ⟨0, 0, 1⟩ (0.4 : ℚ) 0.08
        (empty_bump_state (1 / 4))).bumplist 0) = (4, 4) := by
    rw [hb']
    simp only [sample_xy, hn, plain_lib, hy, ht0]
    rfl
  have hxy0 : sample_xy plain_libm plain_lib (⟨0, 5 / 13, 12 / 13⟩ : Vec3 ℚ)
      ((add_bump plain_lib (small_sample 128) ⟨0, 0, 1⟩ (0.4 : ℚ) 0.08
        (empty_bump_state (1 / 4))).bumplist (empty_bump_state (1 / 4 : ℚ)).totalbumps) =
      (4, 4) := hxy
  have hvv := hv ⟨0, 5 / 13, 12 / 13⟩
    (by rw [hn]; simp only [plain_lib]; norm_num)
    (by rw [hn]; simp only [plain_lib]; rw [abs_of_pos (by norm_num)]; norm_num)
  rw [hxy0] at hvv
  exact ⟨hxy, hvv.2.2.1, hvv.2.2.2.1, hvv.2.2.2.2.1, hvv.2.2.2.2.2⟩

end Instances

end Earthlike
